import Mathlib

/-!
# osue-2022w: the 3-colouring generators and their supervisor

A shallow embedding of `src/3color/common.h`, `src/3color/generator.c` and
`src/3color/supervisor.c`.

* Arrays of the shared region are total functions on indices; the region starts
  zero-filled (a fresh POSIX shared memory object extended by `ftruncate`).
* The concurrent system is an interleaving machine: `step` executes one
  statement of one process. The scheduler's choice, the result of a semaphore
  call and the values returned by `rand()` are carried by the `Action`.
* POSIX semaphores are natural-number counters. `sem_wait` succeeds only when
  the counter is positive; otherwise the caller stays blocked (the step is not
  enabled). Both calls may also return an error, which the programs inspect.
-/

namespace ThreeColor

/-! ## common.h -/

/-- Constant `MAX_BAD_EDGES` of common.h. -/
def MAX_BAD_EDGES : Nat := 12

/-- Constant `MAX_QUEUE_SIZE` of common.h. -/
def MAX_QUEUE_SIZE : Nat := 32

/-- Constant `NCOLORS` of common.h. -/
def NCOLORS : Nat := 3

/-- Constant `INT_MAX` of limits.h (32-bit int). -/
def INT_MAX : Int := 2147483647

/-- Constant `EXIT_SUCCESS` of stdlib.h. -/
def EXIT_SUCCESS : Nat := 0

/-- Constant `EXIT_FAILURE` of stdlib.h. -/
def EXIT_FAILURE : Nat := 1

/-- The `struct edge` of common.h. Node names are the non-negative ints accepted
by the generator's argument check (`first < 0 || second < 0` is rejected). -/
structure Edge where
  first : Nat
  second : Nat
deriving DecidableEq

/-- The `struct shared` of common.h. The cursors `wr` and `rd` and the flag `quit`
are C ints that only ever hold non-negative values (they start at 0 and are
assigned `(x + 1) % MAX_QUEUE_SIZE` and `1`), so they are naturals here. -/
structure Shared where
  queue : Nat → Nat → Edge
  solution_size : Nat → Int
  wr : Nat
  rd : Nat
  quit : Nat

/-- The zero-filled region the supervisor creates. -/
def Shared.zero : Shared :=
  { queue := fun _ _ => ⟨0, 0⟩, solution_size := fun _ => 0, wr := 0, rd := 0, quit := 0 }

/-! ## generator.c: building one candidate (lines 135-151) -/

/-- The second `for` loop of the generator's main loop (lines 141-151): walks the
edges in order, stores every edge whose endpoints have the same colour at
`solution[solution_size++]`, and breaks with `solution_size = -1` as soon as a
further such edge is met while `solution_size >= MAX_BAD_EDGES`. -/
def collect (nodes : Nat → Nat) : List Edge → (Nat → Edge) → Int → (Nat → Edge) × Int
  | [], solution, solution_size => (solution, solution_size)
  | e :: rest, solution, solution_size =>
    if nodes e.first = nodes e.second then
      if solution_size ≥ (MAX_BAD_EDGES : Int) then (solution, -1)
      else collect nodes rest (Function.update solution solution_size.toNat e) (solution_size + 1)
    else collect nodes rest solution solution_size

/-- The colour array after the first `for` loop (lines 137-140):
`nodes[i] = rand() % NCOLORS`, with `rands` the successive results of `rand()`. -/
def assign_colors (rands : List Nat) : Nat → Nat :=
  fun i => rands.getD i 0 % NCOLORS

/-- One attempt (lines 135-151): `solution_size` starts at 0, the local array
`solution` holds whatever the stack held before. -/
def attempt (nodes : Nat → Nat) (edges : List Edge) (stack : Nat → Edge) : (Nat → Edge) × Int :=
  collect nodes edges stack 0

/-- An edge is bad when both endpoints received the same colour. -/
def bad (nodes : Nat → Nat) (e : Edge) : Bool :=
  decide (nodes e.first = nodes e.second)

/-- The first `n` entries of an edge array, as a list. -/
def view (a : Nat → Edge) (n : Int) : List Edge :=
  (List.range n.toNat).map a

/-- A candidate as it travels through the queue: its size and its first `size` edges. -/
structure Candidate where
  size : Int
  edges : List Edge
deriving DecidableEq

/-- The candidate held by slot `k` of the region: `solution_size[k]` and the first
`solution_size[k]` edges of `queue[k]`. -/
def Shared.slot (shm : Shared) (k : Nat) : Candidate :=
  { size := shm.solution_size k, edges := view (shm.queue k) (shm.solution_size k) }

/-- Line 179 of generator.c: `shm->queue[shm->wr][i] = e`. -/
def Shared.store_edge (shm : Shared) (i : Nat) (e : Edge) : Shared :=
  { shm with queue := Function.update shm.queue shm.wr (Function.update (shm.queue shm.wr) i e) }

/-- Line 181 of generator.c: `shm->solution_size[shm->wr] = n`. -/
def Shared.store_size (shm : Shared) (n : Int) : Shared :=
  { shm with solution_size := Function.update shm.solution_size shm.wr n }

/-- Line 182 of generator.c: `shm->wr = (shm->wr + 1) % MAX_QUEUE_SIZE`. -/
def Shared.advance_wr (shm : Shared) : Shared :=
  { shm with wr := (shm.wr + 1) % MAX_QUEUE_SIZE }

/-- Line 169 of supervisor.c: `shm->rd = (shm->rd + 1) % MAX_QUEUE_SIZE`. -/
def Shared.advance_rd (shm : Shared) : Shared :=
  { shm with rd := (shm.rd + 1) % MAX_QUEUE_SIZE }

/-- Line 180 of supervisor.c: `shm->quit = 1`. -/
def Shared.set_quit (shm : Shared) : Shared :=
  { shm with quit := 1 }

/-! ## The processes -/

/-- Program points of the generator's main loop (generator.c lines 134-204). -/
inductive GenPc
  | loop_top        -- line 134, `while (!shm->quit)`, and lines 135-155
  | wait_mutex      -- line 157, `sem_wait(sem_mutex)`
  | wait_free       -- line 164, `sem_wait(sem_free)`
  | release_eintr   -- line 166, `sem_post(sem_mutex)` after an interrupted wait on free
  | release_fail    -- line 173, `sem_post(sem_mutex)` after a failed wait on free
  | copy            -- lines 178-180, the copy loop
  | set_size        -- line 181
  | advance_wr      -- line 182
  | post_mutex      -- line 184, `sem_post(sem_mutex)`
  | post_used       -- line 184, `sem_post(sem_used)`
  | exited          -- after `cleanup`
deriving DecidableEq

/-- One generator process: its edge list (argv), its program point and the locals
of `main` that are live across statements. -/
structure Gen where
  edges : List Edge
  pc : GenPc
  solution : Nat → Edge
  solution_size : Int
  i : Nat
  status : Nat

/-- Program points of the supervisor after successful startup (supervisor.c
lines 144-202). -/
inductive SupPc
  | loop_top        -- line 146, `while (!quit)`
  | wait_used       -- line 147, `sem_wait(sem_used)`
  | read            -- lines 156-168
  | advance_rd      -- line 169
  | post_free       -- line 171, `sem_post(sem_free)`
  | set_quit        -- line 180, `shm->quit = 1`
  | broadcast       -- lines 181-183
  | destroy         -- lines 185-197
  | exited          -- line 198
deriving DecidableEq

/-- A line printed by the supervisor. -/
inductive Line
  | colorable
  | solution (size : Int) (edges : List Edge)
deriving DecidableEq

/-- The supervisor process: program point, the signal flag `quit` (the global of
supervisor.c, written by the handler), and the locals of `main`. -/
structure Sup where
  pc : SupPc
  quit : Nat
  best_solution : Int
  size : Int
  i : Nat
  status : Nat
  output : List Line

/-- The whole system. `published` and `consumed` are history variables: the
candidates in the order in which `wr` was advanced past them (with the index of
the generator) and in the order in which the supervisor read them. -/
structure State where
  shm : Shared
  sem_mutex : Nat
  sem_free : Nat
  sem_used : Nat
  gens : List Gen
  sup : Sup
  published : List (Nat × Candidate)
  consumed : List Candidate

/-- The candidate a generator holds in its locals `solution` and `solution_size`. -/
def Gen.candidate (G : Gen) : Candidate :=
  { size := G.solution_size, edges := view G.solution G.solution_size }

/-- Result of a semaphore call as the programs distinguish it: success, `-1` with
`errno == EINTR`, or `-1` with another errno. -/
inductive SemResult
  | ok
  | eintr
  | fail
deriving DecidableEq

/-- What the environment decides for one step: which process moves, what its
semaphore call returns, what `rand()` returns; or that SIGINT/SIGTERM is
delivered to the supervisor. -/
inductive Action
  | gen (g : Nat) (r : SemResult) (rands : List Nat)
  | sup (r : SemResult)
  | signal

/-- An action that does not make a semaphore call fail with a non-EINTR error. -/
def Action.faultFree : Action → Bool
  | .gen _ r _ => decide (r ≠ SemResult.fail)
  | .sup r => decide (r ≠ SemResult.fail)
  | .signal => true

/-- A generator that has just attached and stands at the top of its loop. -/
def Gen.start (edges : List Edge) : Gen :=
  { edges := edges, pc := .loop_top, solution := fun _ => ⟨0, 0⟩, solution_size := 0, i := 0,
    status := EXIT_SUCCESS }

/-- The supervisor after successful startup (lines 129-144). -/
def Sup.start : Sup :=
  { pc := .loop_top, quit := 0, best_solution := INT_MAX, size := 0, i := 0,
    status := EXIT_SUCCESS, output := [] }

/-- Initial state: the region is zero-filled, `free = MAX_QUEUE_SIZE`, `used = 0`,
`mutex = 1` (supervisor.c lines 135-140), one generator per edge list. -/
def State.init (graphs : List (List Edge)) : State :=
  { shm := Shared.zero, sem_mutex := 1, sem_free := MAX_QUEUE_SIZE, sem_used := 0,
    gens := graphs.map Gen.start, sup := Sup.start, published := [], consumed := [] }

/-- Installs the new record of generator `g`. -/
def State.setGen (s : State) (g : Nat) (G : Gen) : State :=
  { s with gens := s.gens.set g G }

/-- One statement of generator `g` (whose record is `G`), generator.c lines 134-204. -/
def gen_step (s : State) (g : Nat) (G : Gen) (r : SemResult) (rands : List Nat) : Option State :=
  match G.pc with
  | .loop_top =>
    if s.shm.quit ≠ 0 then
      some (State.setGen s g { G with pc := .exited })
    else
      let res := attempt (assign_colors rands) G.edges G.solution
      if res.2 < 0 then
        some (State.setGen s g { G with solution := res.1, solution_size := res.2 })
      else
        some (State.setGen s g { G with solution := res.1, solution_size := res.2, pc := .wait_mutex })
  | .wait_mutex =>
    match r with
    | .ok =>
      if 0 < s.sem_mutex then
        some (State.setGen { s with sem_mutex := s.sem_mutex - 1 } g { G with pc := .wait_free })
      else none
    | .eintr => some (State.setGen s g { G with pc := .loop_top })
    | .fail => some (State.setGen s g { G with pc := .exited, status := EXIT_FAILURE })
  | .wait_free =>
    match r with
    | .ok =>
      if 0 < s.sem_free then
        some (State.setGen { s with sem_free := s.sem_free - 1 } g { G with pc := .copy, i := 0 })
      else none
    | .eintr => some (State.setGen s g { G with pc := .release_eintr })
    | .fail => some (State.setGen s g { G with pc := .release_fail })
  | .release_eintr =>
    match r with
    | .ok => some (State.setGen { s with sem_mutex := s.sem_mutex + 1 } g { G with pc := .loop_top })
    | .eintr => none
    | .fail => some (State.setGen s g { G with pc := .exited, status := EXIT_FAILURE })
  | .release_fail =>
    match r with
    | .ok =>
      some (State.setGen { s with sem_mutex := s.sem_mutex + 1 } g
        { G with pc := .exited, status := EXIT_FAILURE })
    | .eintr => none
    | .fail => some (State.setGen s g { G with pc := .exited, status := EXIT_FAILURE })
  | .copy =>
    if (G.i : Int) < G.solution_size then
      some (State.setGen { s with shm := s.shm.store_edge G.i (G.solution G.i) } g
        { G with i := G.i + 1 })
    else some (State.setGen s g { G with pc := .set_size })
  | .set_size =>
    some (State.setGen { s with shm := s.shm.store_size G.solution_size } g
      { G with pc := .advance_wr })
  | .advance_wr =>
    some (State.setGen { s with shm := s.shm.advance_wr,
                                published := s.published ++ [(g, G.candidate)] } g
      { G with pc := .post_mutex })
  | .post_mutex =>
    match r with
    | .ok => some (State.setGen { s with sem_mutex := s.sem_mutex + 1 } g { G with pc := .post_used })
    | .eintr => none
    | .fail => some (State.setGen s g { G with pc := .exited, status := EXIT_FAILURE })
  | .post_used =>
    match r with
    | .ok => some (State.setGen { s with sem_used := s.sem_used + 1 } g { G with pc := .loop_top })
    | .eintr => none
    | .fail => some (State.setGen s g { G with pc := .exited, status := EXIT_FAILURE })
  | .exited => none

/-- One statement of the supervisor, supervisor.c lines 146-202. -/
def sup_step (s : State) (r : SemResult) : Option State :=
  match s.sup.pc with
  | .loop_top =>
    if s.sup.quit ≠ 0 then some { s with sup := { s.sup with pc := .set_quit } }
    else some { s with sup := { s.sup with pc := .wait_used } }
  | .wait_used =>
    match r with
    | .ok =>
      if 0 < s.sem_used then
        some { s with sem_used := s.sem_used - 1, sup := { s.sup with pc := .read } }
      else none
    | .eintr => some { s with sup := { s.sup with pc := .loop_top } }
    | .fail => some { s with sup := { s.sup with pc := .set_quit, status := EXIT_FAILURE } }
  | .read =>
    let size := s.shm.solution_size s.shm.rd
    let seen : Candidate := s.shm.slot s.shm.rd
    if size = 0 then
      some { s with consumed := s.consumed ++ [seen],
                    sup := { s.sup with size := size, pc := .set_quit,
                                        output := s.sup.output ++ [Line.colorable] } }
    else if size < s.sup.best_solution then
      some { s with consumed := s.consumed ++ [seen],
                    sup := { s.sup with size := size, pc := .advance_rd, best_solution := size,
                                        output := s.sup.output ++ [Line.solution size seen.edges] } }
    else
      some { s with consumed := s.consumed ++ [seen],
                    sup := { s.sup with size := size, pc := .advance_rd } }
  | .advance_rd =>
    some { s with shm := s.shm.advance_rd, sup := { s.sup with pc := .post_free } }
  | .post_free =>
    match r with
    | .ok => some { s with sem_free := s.sem_free + 1, sup := { s.sup with pc := .loop_top } }
    | .eintr => none
    | .fail => some { s with sup := { s.sup with pc := .set_quit, status := EXIT_FAILURE } }
  | .set_quit =>
    some { s with shm := s.shm.set_quit, sup := { s.sup with pc := .broadcast, i := 0 } }
  | .broadcast =>
    if s.sup.i < MAX_QUEUE_SIZE then
      match r with
      | .ok => some { s with sem_free := s.sem_free + 1, sup := { s.sup with i := s.sup.i + 1 } }
      | .eintr => none
      | .fail => some { s with sup := { s.sup with i := s.sup.i + 1 } }
    else some { s with sup := { s.sup with pc := .destroy } }
  | .destroy =>
    match r with
    | .ok => some { s with sup := { s.sup with pc := .exited } }
    | .eintr => none
    | .fail => some { s with sup := { s.sup with pc := .exited, status := EXIT_FAILURE } }
  | .exited => none

/-- One step of the system. `none` means the chosen step is not enabled (the
process is blocked in `sem_wait`, has exited, or the result cannot occur). -/
def step (s : State) : Action → Option State
  | .gen g r rands =>
    match s.gens[g]? with
    | some G => gen_step s g G r rands
    | none => none
  | .sup r => sup_step s r
  | .signal => some { s with sup := { s.sup with quit := 1 } }

/-- Runs a schedule; `none` as soon as a step is not enabled. -/
def run (s : State) : List Action → Option State
  | [] => some s
  | a :: rest =>
    match step s a with
    | some t => run t rest
    | none => none

/-- States reachable from the initial state when no semaphore call fails with an
error other than EINTR. For the valid semaphores the programs hold, POSIX lets
`sem_wait` fail only with EINTR and `sem_post` only on counter overflow. -/
inductive Reachable (graphs : List (List Edge)) : State → Prop
  | init : Reachable graphs (State.init graphs)
  | step (s : State) (a : Action) (t : State) :
      Reachable graphs s → a.faultFree = true → ThreeColor.step s a = some t → Reachable graphs t

/-- States reachable when semaphore calls may also fail. -/
inductive ReachableWithFaults (graphs : List (List Edge)) : State → Prop
  | init : ReachableWithFaults graphs (State.init graphs)
  | step (s : State) (a : Action) (t : State) :
      ReachableWithFaults graphs s → ThreeColor.step s a = some t → ReachableWithFaults graphs t

/-! ## The transitions of the fault-free system, one constructor per statement outcome -/

/-- The fault-free statements of generator `g` with record `G`, as a relation between
the state before and the state after. -/
inductive GenTrans (s : State) (g : Nat) (G : Gen) : State → Prop
  | exit : G.pc = .loop_top → s.shm.quit ≠ 0 →
      GenTrans s g G (State.setGen s g { G with pc := .exited })
  | discard (rands : List Nat) : G.pc = .loop_top → s.shm.quit = 0 →
      (attempt (assign_colors rands) G.edges G.solution).2 < 0 →
      GenTrans s g G (State.setGen s g
        { G with solution := (attempt (assign_colors rands) G.edges G.solution).1,
                 solution_size := (attempt (assign_colors rands) G.edges G.solution).2,
                 pc := .loop_top })
  | generate (rands : List Nat) : G.pc = .loop_top → s.shm.quit = 0 →
      ¬ (attempt (assign_colors rands) G.edges G.solution).2 < 0 →
      GenTrans s g G (State.setGen s g
        { G with solution := (attempt (assign_colors rands) G.edges G.solution).1,
                 solution_size := (attempt (assign_colors rands) G.edges G.solution).2,
                 pc := .wait_mutex })
  | lock : G.pc = .wait_mutex → 0 < s.sem_mutex →
      GenTrans s g G (State.setGen { s with sem_mutex := s.sem_mutex - 1 } g { G with pc := .wait_free })
  | lock_eintr : G.pc = .wait_mutex →
      GenTrans s g G (State.setGen s g { G with pc := .loop_top })
  | reserve : G.pc = .wait_free → 0 < s.sem_free →
      GenTrans s g G (State.setGen { s with sem_free := s.sem_free - 1 } g { G with pc := .copy, i := 0 })
  | reserve_eintr : G.pc = .wait_free →
      GenTrans s g G (State.setGen s g { G with pc := .release_eintr })
  | release : G.pc = .release_eintr →
      GenTrans s g G (State.setGen { s with sem_mutex := s.sem_mutex + 1 } g { G with pc := .loop_top })
  | release_error : G.pc = .release_fail →
      GenTrans s g G (State.setGen { s with sem_mutex := s.sem_mutex + 1 } g
        { G with pc := .exited, status := EXIT_FAILURE })
  | copy_edge : G.pc = .copy → (G.i : Int) < G.solution_size →
      GenTrans s g G (State.setGen { s with shm := s.shm.store_edge G.i (G.solution G.i) } g
        { G with i := G.i + 1, pc := .copy })
  | copy_done : G.pc = .copy → ¬ (G.i : Int) < G.solution_size →
      GenTrans s g G (State.setGen s g { G with pc := .set_size })
  | set_size : G.pc = .set_size →
      GenTrans s g G (State.setGen { s with shm := s.shm.store_size G.solution_size } g
        { G with pc := .advance_wr })
  | advance_wr : G.pc = .advance_wr →
      GenTrans s g G (State.setGen { s with shm := s.shm.advance_wr,
                                            published := s.published ++ [(g, G.candidate)] } g
        { G with pc := .post_mutex })
  | post_mutex : G.pc = .post_mutex →
      GenTrans s g G (State.setGen { s with sem_mutex := s.sem_mutex + 1 } g { G with pc := .post_used })
  | post_used : G.pc = .post_used →
      GenTrans s g G (State.setGen { s with sem_used := s.sem_used + 1 } g { G with pc := .loop_top })

/-- The fault-free statements of the supervisor, and the delivery of a signal. -/
inductive SupTrans (s : State) : State → Prop
  | signal : SupTrans s { s with sup := { s.sup with quit := 1 } }
  | leave : s.sup.pc = .loop_top → s.sup.quit ≠ 0 →
      SupTrans s { s with sup := { s.sup with pc := .set_quit } }
  | enter : s.sup.pc = .loop_top → s.sup.quit = 0 →
      SupTrans s { s with sup := { s.sup with pc := .wait_used } }
  | take : s.sup.pc = .wait_used → 0 < s.sem_used →
      SupTrans s { s with sem_used := s.sem_used - 1, sup := { s.sup with pc := .read } }
  | take_eintr : s.sup.pc = .wait_used →
      SupTrans s { s with sup := { s.sup with pc := .loop_top } }
  | read_zero : s.sup.pc = .read → s.shm.solution_size s.shm.rd = 0 →
      SupTrans s { s with consumed := s.consumed ++ [s.shm.slot s.shm.rd],
                          sup := { s.sup with size := s.shm.solution_size s.shm.rd, pc := .set_quit,
                                              output := s.sup.output ++ [Line.colorable] } }
  | read_better : s.sup.pc = .read → s.shm.solution_size s.shm.rd ≠ 0 →
      s.shm.solution_size s.shm.rd < s.sup.best_solution →
      SupTrans s { s with consumed := s.consumed ++ [s.shm.slot s.shm.rd],
                          sup := { s.sup with size := s.shm.solution_size s.shm.rd, pc := .advance_rd,
                                              best_solution := s.shm.solution_size s.shm.rd,
                                              output := s.sup.output ++
                                                [Line.solution (s.shm.solution_size s.shm.rd)
                                                  (s.shm.slot s.shm.rd).edges] } }
  | read_worse : s.sup.pc = .read → s.shm.solution_size s.shm.rd ≠ 0 →
      ¬ s.shm.solution_size s.shm.rd < s.sup.best_solution →
      SupTrans s { s with consumed := s.consumed ++ [s.shm.slot s.shm.rd],
                          sup := { s.sup with size := s.shm.solution_size s.shm.rd, pc := .advance_rd } }
  | advance_rd : s.sup.pc = .advance_rd →
      SupTrans s { s with shm := s.shm.advance_rd, sup := { s.sup with pc := .post_free } }
  | post_free : s.sup.pc = .post_free →
      SupTrans s { s with sem_free := s.sem_free + 1, sup := { s.sup with pc := .loop_top } }
  | set_quit : s.sup.pc = .set_quit →
      SupTrans s { s with shm := s.shm.set_quit, sup := { s.sup with pc := .broadcast, i := 0 } }
  | wake : s.sup.pc = .broadcast → s.sup.i < MAX_QUEUE_SIZE →
      SupTrans s { s with sem_free := s.sem_free + 1, sup := { s.sup with i := s.sup.i + 1 } }
  | wake_done : s.sup.pc = .broadcast → ¬ s.sup.i < MAX_QUEUE_SIZE →
      SupTrans s { s with sup := { s.sup with pc := .destroy } }
  | destroy : s.sup.pc = .destroy →
      SupTrans s { s with sup := { s.sup with pc := .exited } }

/-- A fault-free step of the system, as a relation. -/
inductive Trans (s : State) (t : State) : Prop
  | gen (g : Nat) (G : Gen) : s.gens[g]? = some G → GenTrans s g G t → Trans s t
  | sup : SupTrans s t → Trans s t

/-! ## Counting generators by program point -/

/-- Sum of a weight over the program points of all generators. -/
def count (w : GenPc → Nat) (gens : List Gen) : Nat :=
  (gens.map (fun G => w G.pc)).sum

/-- Weight 1 at the program points between a successful `sem_wait(sem_mutex)` and
the matching `sem_post(sem_mutex)`. -/
def holds_mutex : GenPc → Nat
  | .wait_free | .release_eintr | .release_fail | .copy | .set_size | .advance_wr | .post_mutex => 1
  | _ => 0

/-- Weight 1 between a successful `sem_wait(sem_free)` and the advance of `wr`. -/
def in_write : GenPc → Nat
  | .copy | .set_size | .advance_wr => 1
  | _ => 0

/-- Weight 1 between the advance of `wr` and the `sem_post(sem_used)`. -/
def in_flight : GenPc → Nat
  | .post_mutex | .post_used => 1
  | _ => 0

/-- Weight 1 where a generator has passed the loop-top test and may still call
`sem_wait(sem_free)` before it tests `quit` again. -/
def may_wait : GenPc → Nat
  | .wait_mutex | .wait_free => 1
  | _ => 0

/-- The program points at which the locals hold a candidate that passed line 152. -/
def has_candidate : GenPc → Bool
  | .loop_top | .exited => false
  | _ => true

/-- Supervisor: 1 between the successful `sem_wait(sem_used)` and the advance of `rd`. -/
def taken : SupPc → Nat
  | .read | .advance_rd => 1
  | _ => 0

/-- Supervisor: 1 between the advance of `rd` and the `sem_post(sem_free)`. -/
def giving : SupPc → Nat
  | .post_free => 1
  | _ => 0

/-- Supervisor: 1 when slot `rd` has been read but `rd` not yet advanced. -/
def skipped : SupPc → Nat
  | .advance_rd => 1
  | _ => 0

/-- The supervisor is inside its main loop (lines 146-175): shutdown has not begun. -/
def in_loop : SupPc → Bool
  | .loop_top | .wait_used | .read | .advance_rd | .post_free => true
  | _ => false

/-- No publish and no consume is in progress: no generator is between its wait on
free and its post of used, and the supervisor is not between its wait on used and
its post of free. -/
def quiescent (s : State) : Prop :=
  (∀ G ∈ s.gens, in_write G.pc = 0 ∧ in_flight G.pc = 0) ∧
    taken s.sup.pc = 0 ∧ giving s.sup.pc = 0

instance (s : State) : Decidable (quiescent s) := by
  unfold quiescent
  infer_instance

/-- Number of slots between `rd` and `wr`: posted on used, or written with the post
still to come, or taken by the supervisor with `rd` still to advance. -/
def unread (s : State) : Nat :=
  s.sem_used + count in_flight s.gens + taken s.sup.pc

/-- A proper colouring with `NCOLORS` colours exists. -/
def Colorable (edges : List Edge) : Prop :=
  ∃ nodes : Nat → Nat, (∀ i, nodes i < NCOLORS) ∧ ∀ e ∈ edges, nodes e.first ≠ nodes e.second

/-- Invariants of every reachable state. -/
structure Safe (graphs : List (List Edge)) (s : State) : Prop where
  mutex : s.sem_mutex + count holds_mutex s.gens = 1
  sizes : ∀ k, 0 ≤ s.shm.solution_size k ∧ s.shm.solution_size k ≤ (MAX_BAD_EDGES : Int)
  local_sizes : ∀ (g : Nat) (G : Gen), s.gens[g]? = some G → has_candidate G.pc = true →
    0 ≤ G.solution_size ∧ G.solution_size ≤ (MAX_BAD_EDGES : Int)
  graph : ∀ (g : Nat) (G : Gen), s.gens[g]? = some G → graphs[g]? = some G.edges
  local_zero : ∀ (g : Nat) (G : Gen), s.gens[g]? = some G → has_candidate G.pc = true →
    G.solution_size = 0 → Colorable G.edges
  published_zero : ∀ p ∈ s.published, p.2.size = 0 →
    ∃ es, graphs[p.1]? = some es ∧ Colorable es
  consumed_sizes : ∀ c ∈ s.consumed, 0 ≤ c.size ∧ c.size ≤ (MAX_BAD_EDGES : Int)

/-- Invariants of the ring buffer while the supervisor is in its main loop. -/
structure Ring (s : State) : Prop where
  slots : s.sem_used + s.sem_free + count in_write s.gens + count in_flight s.gens +
    taken s.sup.pc + giving s.sup.pc = MAX_QUEUE_SIZE
  rd_lt : s.shm.rd < MAX_QUEUE_SIZE
  cursor : s.shm.wr = (s.shm.rd + unread s) % MAX_QUEUE_SIZE
  pending : ∃ pend : List Candidate,
    s.published.map Prod.snd = s.consumed ++ pend ∧
    pend.length + skipped s.sup.pc = unread s ∧
    ∀ j, j < pend.length →
      pend[j]? = some (s.shm.slot ((s.shm.rd + skipped s.sup.pc + j) % MAX_QUEUE_SIZE))
  writer : ∀ (g : Nat) (G : Gen), s.gens[g]? = some G →
    (G.pc = .copy → ∀ j, j < G.i → s.shm.queue s.shm.wr j = G.solution j) ∧
    (G.pc = .set_size → ∀ j : Nat, (j : Int) < G.solution_size →
      s.shm.queue s.shm.wr j = G.solution j) ∧
    (G.pc = .advance_wr → s.shm.slot s.shm.wr = G.candidate)

/-! ## Schedules -/

/-- The state a schedule leads to from the initial state (the initial state itself
when some step of the schedule is not enabled). -/
def final (graphs : List (List Edge)) (acts : List Action) : State :=
  (run (State.init graphs) acts).getD (State.init graphs)

/-- Generator `g` runs alone through one iteration of its loop that publishes a
candidate of `n` edges: the loop-top test and the attempt, the two waits, `n` copies,
the end of the copy loop, the size, the cursor and the two posts. -/
def publish_schedule (g : Nat) (rands : List Nat) (n : Nat) : List Action :=
  List.replicate (n + 8) (Action.gen g SemResult.ok rands)

/-- The supervisor runs alone through one iteration of its loop: the loop-top test,
the wait, the read, the cursor and the post. -/
def consume_schedule : List Action :=
  List.replicate 5 (Action.sup SemResult.ok)

/-- One generator with the graph of the single edge 0-1 fills all the slots with
size-0 candidates (colours 0 and 1) while the supervisor does not run. -/
def fill_schedule : List Action :=
  (List.replicate MAX_QUEUE_SIZE (publish_schedule 0 [0, 1] 0)).flatten

/-- After `fill_schedule`, the generator builds a candidate of one edge (both nodes
get colour 0) and passes the wait on `mutex`: it is now parked in the wait on `free`. -/
def parked_schedule : List Action :=
  fill_schedule ++ List.replicate 2 (Action.gen 0 SemResult.ok [0, 0])

/-- The supervisor receives a signal, sees the flag at its loop top, sets `quit`,
posts `free` in its broadcast loop and reaches the destruction of the semaphores. -/
def stop_schedule : List Action :=
  Action.signal :: List.replicate (MAX_QUEUE_SIZE + 3) (Action.sup SemResult.ok)

/-- The next five statements of generator 0 after its wait on `free` returns: the
wait, one copy, the end of the copy loop, the size and the cursor. -/
def woken_schedule : List Action :=
  List.replicate 5 (Action.gen 0 SemResult.ok [])

/-! ## Measures used after `quit` is set -/

/-- The supervisor is past the statement that sets `quit`. -/
def after_quit : SupPc → Bool
  | .broadcast | .destroy | .exited => true
  | _ => false

/-- Posts of `free` the broadcast loop (lines 181-183) still has to make. -/
def wakeups_left (sup : Sup) : Nat :=
  match sup.pc with
  | .broadcast => MAX_QUEUE_SIZE - sup.i
  | _ => 0

/-- An upper bound on the number of statements a generator still executes once
`quit` is set: from each program point it can only run towards the loop top, where
it leaves. -/
def steps_left (G : Gen) : Nat :=
  match G.pc with
  | .exited => 0
  | .loop_top => 1
  | .release_fail => 1
  | .release_eintr => 2
  | .post_used => 2
  | .post_mutex => 3
  | .advance_wr => 4
  | .set_size => 5
  | .copy => 6 + (G.solution_size.toNat - G.i)
  | .wait_free => 7 + G.solution_size.toNat
  | .wait_mutex => 8 + G.solution_size.toNat

/-- Sum of `steps_left` over all generators. -/
def fuel (gens : List Gen) : Nat :=
  (gens.map steps_left).sum

/-- All generators have left their loop. -/
def all_exited (s : State) : Prop :=
  ∀ G ∈ s.gens, G.pc = .exited

/-- Three generators on the graph 0-1 and an empty queue; the supervisor receives a
signal before any candidate arrives, sets `quit` and runs its broadcast. -/
def early_stop_schedule : List Action :=
  List.replicate 3 (Action.gen 1 SemResult.ok [0, 0]) ++
    [Action.gen 0 SemResult.ok [0, 0], Action.signal] ++
    List.replicate 2 (Action.sup SemResult.ok)

/-! ## What the supervisor has reported -/

/-- The sizes of the solution lines the supervisor has printed, in order. -/
def reported_sizes : List Line → List Int
  | [] => []
  | .colorable :: rest => reported_sizes rest
  | .solution size _ :: rest => size :: reported_sizes rest

/-- The non-zero sizes among the candidates the supervisor has read, in order. -/
def consumed_sizes (s : State) : List Int :=
  (s.consumed.map Candidate.size).filter (fun x => decide (x ≠ 0))

/-- In the words of the specification: of a sequence of sizes, the sub-sequence of
those that are strictly smaller than every size before them (`before` holds the
sizes already seen). -/
def strict_minima : List Int → List Int → List Int
  | _, [] => []
  | before, x :: rest =>
    if ∀ y ∈ before, x < y then x :: strict_minima (before ++ [x]) rest
    else strict_minima (before ++ [x]) rest

/-- On the path 0-1, 1-2 one generator publishes candidates of sizes 2, 2 and 1, and
the supervisor reads each of them right after it is published. -/
def report_schedule : List Action :=
  publish_schedule 0 [0, 0, 0] 2 ++ consume_schedule ++
    (publish_schedule 0 [0, 0, 0] 2 ++ consume_schedule) ++
    (publish_schedule 0 [0, 0, 1] 1 ++ consume_schedule)

/-! ## More generators than slots -/

/-- An action in which no semaphore call is interrupted or fails. -/
def Action.uninterrupted : Action → Bool
  | .gen _ r _ => decide (r = SemResult.ok)
  | .sup r => decide (r = SemResult.ok)
  | .signal => true

/-- The supervisor has exited, `free` and `mutex` are 0, and every generator has
exited or stands in one of its two waits. -/
def deadlocked (s : State) : Prop :=
  s.sup.pc = .exited ∧ s.sem_free = 0 ∧ s.sem_mutex = 0 ∧
    ∀ G ∈ s.gens, G.pc = .exited ∨ G.pc = .wait_free ∨ G.pc = .wait_mutex

instance (s : State) : Decidable (deadlocked s) := by
  unfold deadlocked
  infer_instance

/-- Thirty-four generators, each on the graph 0-1. -/
def overflow_graphs : List (List Edge) :=
  List.replicate (MAX_QUEUE_SIZE + 2) [⟨0, 1⟩]

/-- Generator 0 fills the queue; then all 34 generators pass their loop-top test and
build a candidate, and generator 0 takes the mutex and is parked on `free`. The
supervisor, which has read nothing, receives a signal, sets `quit`, makes its 32
posts and exits. Generators 0 to 31 each finish one publish and exit. Generator 32
then takes the mutex and waits on `free`. -/
def overflow_schedule : List Action :=
  fill_schedule ++
    (List.range (MAX_QUEUE_SIZE + 2)).map (fun g => Action.gen g SemResult.ok [0, 1]) ++
    [Action.gen 0 SemResult.ok []] ++
    (Action.signal :: List.replicate (MAX_QUEUE_SIZE + 4) (Action.sup SemResult.ok)) ++
    List.replicate 7 (Action.gen 0 SemResult.ok []) ++
    ((List.range (MAX_QUEUE_SIZE - 1)).map
      (fun k => List.replicate 8 (Action.gen (k + 1) SemResult.ok []))).flatten ++
    [Action.gen MAX_QUEUE_SIZE SemResult.ok []]

/-! ## supervisor.c: startup and rollback (lines 46-115, 135-142, 177-202) -/

/-- The four object names of common.h. -/
inductive Name
  | SHM_PATH
  | SEM_FREE_PATH
  | SEM_USED_PATH
  | SEM_MUTEX_PATH
deriving DecidableEq

/-- Which of the named objects exist in the system. -/
def Names : Type := Name → Bool

/-- What the system calls of the startup do beyond the test for an existing name:
whether `shm_open` or `sem_open` fails for another reason (without creating
anything), and whether `ftruncate` or `mmap` fails. -/
structure Env where
  shm_open_fails : Bool
  ftruncate_fails : Bool
  mmap_fails : Bool
  sem_open_fails : Name → Bool

/-- The handles of `main` (lines 130-133): `true` for a non-NULL pointer. -/
structure Handles where
  shm : Bool
  sem_free : Bool
  sem_used : Bool
  sem_mutex : Bool

/-- The function `create_shared_memory` (lines 46-79). `shm_open` with
`O_CREAT | O_EXCL` fails when the name exists; when it succeeds the name exists.
After a failure of `ftruncate` or `mmap` the error path closes `fd` and calls
`shm_unlink(name)` (lines 74-77). Returns whether the result is non-NULL. -/
def create_shared_memory (env : Env) (names : Names) (name : Name) : Bool × Names :=
  if names name = true ∨ env.shm_open_fails = true then (false, names)
  else if env.ftruncate_fails = true then (false, Function.update (Function.update names name true) name false)
  else if env.mmap_fails = true then (false, Function.update (Function.update names name true) name false)
  else (true, Function.update names name true)

/-- The function `create_semaphore` (lines 87-96): `sem_open` with `O_CREAT | O_EXCL`. -/
def create_semaphore (env : Env) (names : Names) (name : Name) : Bool × Names :=
  if names name = true ∨ env.sem_open_fails name = true then (false, names)
  else (true, Function.update names name true)

/-- The function `destroy_semaphore` (lines 105-115): nothing for NULL, otherwise
`sem_close` and `sem_unlink(name)`. -/
def destroy_semaphore (sem : Bool) (name : Name) (names : Names) : Names :=
  if sem = true then Function.update names name false else names

/-- Lines 135-142 of `main`: the four creations, joined by `||`, so that the first
failure skips the remaining ones and leaves their handles NULL. -/
def startup (env : Env) (names : Names) : Handles × Names :=
  let r1 := create_shared_memory env names Name.SHM_PATH
  if r1.1 = false then
    ({ shm := false, sem_free := false, sem_used := false, sem_mutex := false }, r1.2)
  else
    let r2 := create_semaphore env r1.2 Name.SEM_FREE_PATH
    if r2.1 = false then
      ({ shm := true, sem_free := false, sem_used := false, sem_mutex := false }, r2.2)
    else
      let r3 := create_semaphore env r2.2 Name.SEM_USED_PATH
      if r3.1 = false then
        ({ shm := true, sem_free := true, sem_used := false, sem_mutex := false }, r3.2)
      else
        let r4 := create_semaphore env r3.2 Name.SEM_MUTEX_PATH
        if r4.1 = false then
          ({ shm := true, sem_free := true, sem_used := true, sem_mutex := false }, r4.2)
        else
          ({ shm := true, sem_free := true, sem_used := true, sem_mutex := true }, r4.2)

/-- Lines 185-197 of `main`, as far as the names are concerned: the three
`destroy_semaphore` calls and, for a non-NULL `shm`, `shm_unlink(SHM_PATH)`. -/
def cleanup (h : Handles) (names : Names) : Names :=
  let n1 := destroy_semaphore h.sem_mutex Name.SEM_MUTEX_PATH names
  let n2 := destroy_semaphore h.sem_used Name.SEM_USED_PATH n1
  let n3 := destroy_semaphore h.sem_free Name.SEM_FREE_PATH n2
  if h.shm = true then Function.update n3 Name.SHM_PATH false else n3

/-- How the startup of the supervisor ends: with all four objects created it enters
its main loop; otherwise `goto error` sets `EXIT_FAILURE` and the cleanup runs. -/
inductive StartResult
  | running (h : Handles) (names : Names)
  | failed (status : Nat) (names : Names)

/-- Lines 135-142 followed, on failure, by lines 199-201 and 177-198. -/
def start_supervisor (env : Env) (names : Names) : StartResult :=
  let r := startup env names
  if r.1.shm = true ∧ r.1.sem_free = true ∧ r.1.sem_used = true ∧ r.1.sem_mutex = true then
    StartResult.running r.1 r.2
  else StartResult.failed EXIT_FAILURE (cleanup r.1 r.2)

/-- No call fails for a reason other than an existing name. -/
def Env.calm : Env :=
  { shm_open_fails := false, ftruncate_fails := false, mmap_fails := false,
    sem_open_fails := fun _ => false }

/-! ## Unconsumed candidates and array accesses -/

/-- The number of candidates that have been published and not yet read. -/
def unconsumed (s : State) : Nat :=
  s.published.length - s.consumed.length

/-- The slot of the `j`-th unconsumed candidate, counted from the read cursor (one
further when the supervisor has read slot `rd` and not yet advanced `rd`). -/
def unread_slot (s : State) (j : Nat) : Nat :=
  (s.shm.rd + skipped s.sup.pc + j) % MAX_QUEUE_SIZE

/-- An access to one of the arrays of `struct shared` (common.h lines 33-39):
`queue[slot][index]` or `solution_size[slot]`. -/
inductive Access
  | queue (slot index : Nat)
  | solution_size (slot : Nat)
deriving DecidableEq

/-- The access lies inside `queue[MAX_QUEUE_SIZE][MAX_BAD_EDGES]`, resp.
`solution_size[MAX_QUEUE_SIZE]`. -/
def Access.in_bounds : Access → Bool
  | .queue slot index => decide (slot < MAX_QUEUE_SIZE ∧ index < MAX_BAD_EDGES)
  | .solution_size slot => decide (slot < MAX_QUEUE_SIZE)

/-- The accesses to the shared arrays made by the next statement of a generator with
record `G`: line 179 in the body of the copy loop, line 181. -/
def gen_accesses (s : State) (G : Gen) : List Access :=
  match G.pc with
  | .copy => if (G.i : Int) < G.solution_size then [Access.queue s.shm.wr G.i] else []
  | .set_size => [Access.solution_size s.shm.wr]
  | _ => []

/-- The accesses to the shared arrays made by the next statement of the supervisor:
line 156, and line 166 for every `i < size` when the size is printed. -/
def sup_accesses (s : State) : List Access :=
  match s.sup.pc with
  | .read =>
    Access.solution_size s.shm.rd ::
      (if s.shm.solution_size s.shm.rd ≠ 0 ∧ s.shm.solution_size s.shm.rd < s.sup.best_solution
        then (List.range (s.shm.solution_size s.shm.rd).toNat).map (Access.queue s.shm.rd)
        else [])
  | _ => []

/-- The cursors are array indices, and the index of the copy loop has not passed the
size of the candidate. -/
def Bounds (s : State) : Prop :=
  s.shm.wr < MAX_QUEUE_SIZE ∧ s.shm.rd < MAX_QUEUE_SIZE ∧
    ∀ (g : Nat) (G : Gen), s.gens[g]? = some G → G.pc = .copy → (G.i : Int) ≤ G.solution_size

/-- Twelve edges 0-1: with equal colours for the nodes 0 and 1 all twelve are bad. -/
def twelve_edges : List Edge :=
  List.replicate MAX_BAD_EDGES ⟨0, 1⟩

/-- On the graph 0-1: generator 0 publishes one candidate of size 1, then builds
another one and passes its waits on `mutex` and `free`. -/
def second_write_schedule : List Action :=
  publish_schedule 0 [0, 0] 1 ++ List.replicate 3 (Action.gen 0 SemResult.ok [0, 0])

/-- On the graph of twelve edges 0-1: generator 0 builds the candidate of twelve bad
edges, passes its two waits and copies `n` edges. -/
def copy_schedule (n : Nat) : List Action :=
  List.replicate (n + 3) (Action.gen 0 SemResult.ok [0, 0])

end ThreeColor

/-!
# forksort.c (non-OSUETREE build)

A stream is the sequence of lines that successive calls of `getline_no_newline`
return before the end of file; a line is the sequence of the bytes read, the newline
stripped. The program handles a line as a C string: `puts`, `fprintf` with `%s` and
`strcmp` stop at the first NUL byte of the buffer.
-/

namespace Forksort

/-- A line: the bytes `getline_no_newline` leaves in the buffer. -/
abbrev Line : Type := List Nat

/-- The C string in a line buffer: the bytes before the first NUL. It is what
`puts(line)` and `fprintf(stream, "%s\n", line)` write in front of the newline, and so
the line that the reader of that stream gets. -/
def cstr (line : Line) : Line :=
  line.takeWhile (fun b => decide (b ≠ 0))

/-- The function `strcmp` of string.h on two line buffers: the difference of the first
pair of bytes that differ, compared as unsigned char, where a buffer that has ended
supplies its terminating 0; 0 when a NUL is reached in both. -/
def strcmp : Line → Line → Int
  | [], [] => 0
  | [], b :: _ => - (b : Int)
  | a :: _, [] => (a : Int)
  | a :: as, b :: bs =>
    if a ≠ b then (a : Int) - (b : Int) else if a = 0 then 0 else strcmp as bs

/-- The loop of `merge` (lines 262-270); the two arguments are the line in `line1`
(resp. `line2`) followed by the lines still to be read from the stream, and an empty
list stands for `len1 < 0` (resp. `len2 < 0`). The result is the sequence of lines
written by `puts`. -/
def merge : List Line → List Line → List Line
  | [], [] => []
  | x :: xs, [] => cstr x :: merge xs []
  | [], y :: ys => cstr y :: merge [] ys
  | x :: xs, y :: ys =>
    if strcmp x y ≤ 0 then cstr x :: merge xs (y :: ys) else cstr y :: merge (x :: xs) ys
termination_by xs ys => xs.length + ys.length

/-- The loop of `main` that deals the lines to the two children (lines 336-359):
`pingpong` is 0 or 1 and alternates; the result is what the children read from
`first.in` and from `second.in`, each line as `fprintf` with `%s` wrote it. -/
def distribute : Nat → List Line → List Line × List Line
  | _, [] => ([], [])
  | pingpong, line :: rest =>
    if pingpong = 0 then
      (cstr line :: (distribute (1 - pingpong) rest).1, (distribute (1 - pingpong) rest).2)
    else
      ((distribute (1 - pingpong) rest).1, cstr line :: (distribute (1 - pingpong) rest).2)

/-- The function `main` (lines 298-397) on the lines of its standard input; the result
is the sequence of lines it writes to its standard output. No line: nothing. One line:
the line, written by `puts`. Otherwise two children, each an instance of the same
program, receive the dealt lines, and their outputs are merged. -/
def forksort : List Line → List Line
  | [] => []
  | [line] => [cstr line]
  | line :: second :: rest =>
    merge (forksort (distribute 0 (line :: second :: rest)).1)
      (forksort (distribute 0 (line :: second :: rest)).2)
termination_by lines => lines.length
decreasing_by
  all_goals
    simp_wf
    have key : ∀ (l : List Line) (p : Nat),
        (distribute p l).1.length ≤ l.length ∧ (distribute p l).2.length ≤ l.length := by
      intro l
      induction l with
      | nil => intro _; simp [distribute]
      | cons a t ih =>
        intro p
        have := ih (1 - p)
        by_cases hp : p = 0
        · simp only [distribute, if_pos hp, List.length_cons]
          omega
        · simp only [distribute, if_neg hp, List.length_cons]
          omega
    have := key rest 0
    simp [distribute]
    omega

/-- Non-decreasing in the order of `strcmp`. -/
def sorted (lines : List Line) : Prop :=
  lines.Pairwise (fun a b => strcmp a b ≤ 0)

/-- No line contains a NUL byte. -/
def nul_free (lines : List Line) : Prop :=
  ∀ line ∈ lines, (0 : Nat) ∉ line

instance (lines : List Line) : Decidable (nul_free lines) := by
  unfold nul_free
  infer_instance

end Forksort

/-!
# http/server.c: `parse_first_request_line`

A C string is the list of its characters before the terminating NUL.
-/

namespace HttpServer

/-- Http status codes (lines 29-36). -/
inductive http_status_t where
  | OK
  | BAD_REQUEST
  | NOT_FOUND
  | INTERNAL_SERVER_ERROR
  | NOT_IMPLEMENTED
deriving DecidableEq

/-- The numeric values of the status codes. -/
def http_status_t.code : http_status_t → Nat
  | .OK => 200
  | .BAD_REQUEST => 400
  | .NOT_FOUND => 404
  | .INTERNAL_SERVER_ERROR => 500
  | .NOT_IMPLEMENTED => 501

/-- Command-line arguments (lines 22-27). -/
structure args_t where
  port : List Char
  index : List Char
  root : List Char

/-- The delimiters given to `strtok` (line 162). -/
def delim : List Char := " \t\r\n".toList

/-- Membership in `delim`. -/
def is_delim (c : Char) : Bool := decide (c ∈ delim)

/-- One call of `strtok(3)` with the delimiters `delim`, on the C string at the saved
position: leading delimiters are skipped; at the end of the string the result is NULL
and the saved position stays at the end; otherwise the token runs up to the next
delimiter, which is overwritten by NUL, or to the end of the string, and the saved
position is right behind it. The result is the token and the string at the new saved
position. -/
def strtok (s : List Char) : Option (List Char) × List Char :=
  match s.dropWhile is_delim with
  | [] => (none, [])
  | c :: rest =>
    (some ((c :: rest).takeWhile (fun d => !is_delim d)),
      ((c :: rest).dropWhile (fun d => !is_delim d)).drop 1)

/-- The function `parse_first_request_line` (lines 159-192): the returned status and the
value stored in `*full_path` (`none` for NULL). `calloc_ok` tells whether the
allocation of line 178 succeeds. -/
def parse_first_request_line (line : List Char) (args : args_t) (calloc_ok : Bool) :
    http_status_t × Option (List Char) :=
  let method := strtok line
  let path := strtok method.2
  let version := strtok path.2
  match method.1, path.1, version.1 with
  | some method, some path, some version_tok =>
    if (strtok version.2).1 ≠ none then (.BAD_REQUEST, none)
    else if version_tok ≠ "HTTP/1.1".toList ∨ path.head? = none then (.BAD_REQUEST, none)
    else if method ≠ "GET".toList then (.NOT_IMPLEMENTED, none)
    else if calloc_ok = false then (.INTERNAL_SERVER_ERROR, none)
    else
      (.OK, some (args.root ++
        (if args.root.length = 0 ∨ args.root[args.root.length - 1]? ≠ some '/'
          then ['/'] else []) ++
        path ++
        (if 0 < path.length ∧ path[path.length - 1]? = some '/' then args.index else [])))
  | _, _, _ => (.BAD_REQUEST, none)

/-- The number of bytes requested from `calloc` (line 178). -/
def allocated (args : args_t) (path : List Char) : Nat :=
  args.root.length + path.length + args.index.length + 3

/-- The tokens of a line: the non-empty pieces between the characters space, tab,
CR and LF. -/
def tokens (line : List Char) : List (List Char) :=
  (line.splitOnP
    (fun c => decide (c = ' ' ∨ c = Char.ofNat 9 ∨ c = Char.ofNat 13 ∨ c = Char.ofNat 10))).filter
    (fun t => decide (t ≠ []))

/-- Whether a string ends in a slash. -/
def ends_in_slash (s : List Char) : Bool := decide (s.getLast? = some '/')

/-- The expanded file path in the words of the specification: the root, a slash unless
the root already ends in one, the request path, and the index name if and only if the
path ends in a slash. -/
def expanded_path (args : args_t) (path : List Char) : List Char :=
  args.root ++ (if ends_in_slash args.root then [] else ['/']) ++ path ++
    (if ends_in_slash path then args.index else [])

end HttpServer

/-!
# http/client.c: `get_request_info`

The URL is the buffer `argv[optind]`, which the function cuts in place; pointers into
it are offsets, and a C string is read from an offset up to the first NUL.
-/

namespace HttpClient

/-- Command-line arguments (lines 19-25) as `parse_argv` returns them; `none` is NULL. -/
structure args_t where
  port : List Char
  outfile : Option (List Char)
  outdir : Option (List Char)
  url : List Char

/-- Parsed url components (lines 27-33), each string by its value; `none` is NULL. -/
structure request_t where
  port : List Char
  host : List Char
  path : List Char
  output : Option (List Char)
deriving DecidableEq

/-- The terminator of a C string. -/
def NUL : Char := Char.ofNat 0

/-- A `char *` of `get_request_info`: into the URL buffer, or at a string literal. -/
inductive Ptr where
  | url (offset : Nat)
  | literal (s : List Char)

/-- The C string at offset `p` of a buffer. -/
def cstr (buf : List Char) (p : Nat) : List Char :=
  (buf.drop p).takeWhile (fun c => decide (c ≠ NUL))

/-- The C string a pointer points at. -/
def Ptr.deref (buf : List Char) : Ptr → List Char
  | .url p => cstr buf p
  | .literal s => s

/-- The function `strchr` on the string at offset `p`: the offset of the first `c`,
`none` for NULL. -/
def strchr (buf : List Char) (p : Nat) (c : Char) : Option Nat :=
  if (cstr buf p).indexOf c < (cstr buf p).length then some (p + (cstr buf p).indexOf c)
  else none

/-- The function `strrchr` on the string at offset `p`: the offset of the last `c`,
`none` for NULL. -/
def strrchr (buf : List Char) (p : Nat) (c : Char) : Option Nat :=
  if (cstr buf p).reverse.indexOf c < (cstr buf p).length then
    some (p + ((cstr buf p).length - 1 - (cstr buf p).reverse.indexOf c))
  else none

/-- The function `strcspn`: the length of the longest initial part of `s` without a
character of `reject`. -/
def strcspn (s : List Char) (reject : List Char) : Nat :=
  (s.takeWhile (fun c => decide (c ∉ reject))).length

/-- The string `proto` of line 121. -/
def proto : List Char := "http://".toList

/-- The characters that end a host or a file name (lines 137 and 139). -/
def reserved : List Char := ";/?:@=&".toList

/-- The function `get_request_info` (lines 113-172) after a successful `parse_argv`:
`none` for the result -1, otherwise the request stored in `*r`. `alloc_ok` tells whether
`strdup` and `calloc` succeed. The string at `path` begins with a slash when line 134
runs, so `strrchr` finds one there. -/
def get_request_info (args : args_t) (alloc_ok : Bool) : Option request_t :=
  let buf := args.url ++ [NUL]
  if (cstr buf 0).take proto.length ≠ proto then none
  else
    let host := proto.length
    let slash := strchr buf host '/'
    let path : Ptr :=
      match slash with
      | none => .literal []
      | some p => .url (p + 1)
    let filename : Ptr :=
      match slash with
      | none => .literal []
      | some p => .url ((strrchr buf p '/').getD p + 1)
    let buf := buf.set (host + strcspn (cstr buf host) reserved) NUL
    let filename_len := strcspn (filename.deref buf) reserved
    let filename := if filename_len = 0 then "index.html".toList else filename.deref buf
    let filename_len := if filename_len = 0 then "index.html".toList.length else filename_len
    let output : Option (List Char) :=
      match args.outfile, args.outdir with
      | some outfile, _ => if alloc_ok then some outfile else none
      | none, some outdir =>
        if alloc_ok then
          some (outdir ++
            (if outdir.length = 0 ∨ outdir[outdir.length - 1]? ≠ some '/' then ['/'] else []) ++
            filename.take filename_len)
        else none
      | none, none => none
    if (args.outfile.isSome ∨ args.outdir.isSome) ∧ output.isNone then none
    else some { port := args.port, host := cstr buf host, path := path.deref buf, output := output }

/-- The text `send_http_request` writes to the connection (lines 240-253). -/
def send_http_request (req : request_t) : List Char :=
  "GET /".toList ++ req.path ++ " HTTP/1.1\r\nHost: ".toList ++ req.host ++
    "\r\nAccept-Encoding: gzip\r\nUser-Agent: osue-http-client/1.0\r\nConnection: close\r\n\r\n".toList

end HttpClient

/-!
# mydiff.c

A file is the sequence of lines that successive calls of `getline_no_newline` return
before the end of file; a line is the sequence of its bytes, the newline stripped.
-/

namespace Mydiff

/-- A line: its bytes, without the terminator the buffer holds behind them. -/
abbrev Line : Type := List Nat

/-- The function `tolower` of ctype.h in the "C" locale, in which the program runs. -/
def tolower (c : Nat) : Nat :=
  if 65 ≤ c ∧ c ≤ 90 then c + 32 else c

/-- The function `strncmp` of string.h on the buffers of two lines: at most `n` bytes
are compared, and the comparison ends at a terminator. -/
def strncmp : Line → Line → Nat → Int
  | _, _, 0 => 0
  | a, b, n + 1 =>
    if a.headD 0 ≠ b.headD 0 then (a.headD 0 : Int) - (b.headD 0 : Int)
    else if a.headD 0 = 0 then 0
    else strncmp a.tail b.tail n

/-- The loop of lines 91-94 on one of the two lines: the first `min_len` bytes are
replaced by their lower-case forms. -/
def lower : Nat → Line → Line
  | 0, line => line
  | _ + 1, [] => []
  | min_len + 1, c :: rest => tolower c :: lower min_len rest

/-- The loop of lines 99-103: the number of indices below `min_len` at which the two
lines differ. -/
def mismatch : Nat → Line → Line → Nat
  | 0, _, _ => 0
  | min_len + 1, c1 :: rest1, c2 :: rest2 =>
    (if c1 ≠ c2 then 1 else 0) + mismatch min_len rest1 rest2
  | _ + 1, _, _ => 0

/-- The body of the main loop after both lines were read (lines 89-105): what is
written to the output, an entry `(lineno, mismatch)` standing for the text
"Line: lineno, characters: mismatch". -/
def compare_lines (insensitive : Bool) (lineno : Nat) (line1 line2 : Line) : List (Nat × Nat) :=
  let min_len := if line1.length < line2.length then line1.length else line2.length
  let line1 := if insensitive then lower min_len line1 else line1
  let line2 := if insensitive then lower min_len line2 else line2
  if strncmp line1 line2 min_len ≠ 0 then [(lineno, mismatch min_len line1 line2)] else []

/-- The main loop (lines 82-106) from line number `lineno` on: it ends as soon as one
of the files has no further line. -/
def main_loop (insensitive : Bool) : Nat → List Line → List Line → List (Nat × Nat)
  | lineno, line1 :: file1, line2 :: file2 =>
    compare_lines insensitive lineno line1 line2 ++ main_loop insensitive (lineno + 1) file1 file2
  | _, _, _ => []

/-- The output of mydiff on two files. -/
def mydiff (insensitive : Bool) (file1 file2 : List Line) : List (Nat × Nat) :=
  main_loop insensitive 1 file1 file2

/-- The byte that is compared: lower-cased when `-i` is given. -/
def folded (insensitive : Bool) (c : Nat) : Nat :=
  if insensitive then tolower c else c

/-- The positions among the first min(len1, len2) at which two lines differ. -/
def differing_positions (insensitive : Bool) (line1 line2 : Line) : List Nat :=
  (List.range (min line1.length line2.length)).filter
    (fun i => decide (folded insensitive (line1.getD i 0) ≠ folded insensitive (line2.getD i 0)))

/-- No line of the file contains a NUL byte. -/
def nul_free (file : List Line) : Prop :=
  ∀ line ∈ file, (0 : Nat) ∉ line

instance (file : List Line) : Decidable (nul_free file) := by
  unfold nul_free
  infer_instance

end Mydiff

/-! ## Theorems -/

set_option maxRecDepth 100000

namespace ThreeColor

theorem collect_spec (nodes : Nat → Nat) :
    ∀ (es : List Edge) (sol : Nat → Edge) (n : Nat), n ≤ MAX_BAD_EDGES →
      (n + (es.filter (bad nodes)).length ≤ MAX_BAD_EDGES →
        (collect nodes es sol n).2 = ((n + (es.filter (bad nodes)).length : Nat) : Int) ∧
        (∀ j, j < n → (collect nodes es sol n).1 j = sol j) ∧
        (∀ j, j < (es.filter (bad nodes)).length →
          (es.filter (bad nodes))[j]? = some ((collect nodes es sol n).1 (n + j)))) ∧
      (MAX_BAD_EDGES < n + (es.filter (bad nodes)).length → (collect nodes es sol n).2 = -1) := by
  intro es
  induction es with
  | nil =>
    intro sol n hn
    simp [collect]
    omega
  | cons e rest ih =>
    intro sol n hn
    by_cases hb : nodes e.first = nodes e.second
    · have hbad : bad nodes e = true := by simp [bad, hb]
      by_cases hfull : (n : Int) ≥ (MAX_BAD_EDGES : Int)
      · have hn2 : n = MAX_BAD_EDGES := by omega
        simp [collect, hb, hfull, List.filter_cons, hbad]
        omega
      · have hlt : n < MAX_BAD_EDGES := by omega
        have h := ih (Function.update sol n e) (n + 1) (by omega)
        have hcast : ((n : Int) + 1) = ((n + 1 : Nat) : Int) := by push_cast; rfl
        have hf : (e :: rest).filter (bad nodes) = e :: rest.filter (bad nodes) := by
          simp [List.filter_cons, hbad]
        rw [hf, collect, if_pos hb, if_neg hfull, Int.toNat_ofNat, hcast, List.length_cons]
        refine ⟨fun hle => ?_, fun hgt => ?_⟩
        · obtain ⟨h1, h2, h3⟩ := h.1 (by omega)
          refine ⟨?_, ?_, ?_⟩
          · rw [h1]; congr 1; omega
          · intro j hj
            rw [h2 j (by omega)]
            exact Function.update_noteq (by omega) _ _
          · intro j hj
            cases j with
            | zero =>
              rw [List.getElem?_cons_zero]
              show some e = some ((collect nodes rest (Function.update sol n e) ((n + 1 : Nat) : Int)).1 n)
              rw [h2 n (by omega), Function.update_same]
            | succ k =>
              rw [List.getElem?_cons_succ, h3 k (by omega)]
              have hk : n + 1 + k = n + (k + 1) := by omega
              rw [hk]
        · exact h.2 (by omega)
    · have hbad : bad nodes e = false := by simp [bad, hb]
      simpa [collect, hb, List.filter_cons, hbad] using ih sol n hn

theorem attempt_size (nodes : Nat → Nat) (edges : List Edge) (stack : Nat → Edge) :
    (attempt nodes edges stack).2 =
      if (edges.filter (bad nodes)).length ≤ MAX_BAD_EDGES then
        (((edges.filter (bad nodes)).length : Nat) : Int) else -1 := by
  have h := collect_spec nodes edges stack 0 (Nat.zero_le _)
  simp only [Nat.zero_add] at h
  unfold attempt
  split
  · next hle => simpa using (h.1 hle).1
  · next hgt => simpa using h.2 (by omega)

theorem attempt_view (nodes : Nat → Nat) (edges : List Edge) (stack : Nat → Edge)
    (h : (edges.filter (bad nodes)).length ≤ MAX_BAD_EDGES) :
    view (attempt nodes edges stack).1 (attempt nodes edges stack).2 = edges.filter (bad nodes) := by
  have hs := attempt_size nodes edges stack
  rw [if_pos h] at hs
  have hc := (collect_spec nodes edges stack 0 (Nat.zero_le _)).1 (by simpa using h)
  apply List.ext_getElem?
  intro j
  unfold view
  rw [hs]
  simp only [Int.toNat_ofNat]
  by_cases hj : j < (edges.filter (bad nodes)).length
  · have := hc.2.2 j hj
    rw [this]
    simp [List.getElem?_map, List.getElem?_range hj, attempt]
  · have h1 : (List.filter (bad nodes) edges)[j]? = none := List.getElem?_eq_none (by omega)
    rw [h1]
    apply List.getElem?_eq_none
    simp
    omega

theorem gen_step_trans (s t : State) (g : Nat) (G : Gen) (r : SemResult) (rands : List Nat)
    (h : gen_step s g G r rands = some t) (hr : r ≠ SemResult.fail) : GenTrans s g G t := by
  unfold gen_step at h
  cases hpc : G.pc <;> rw [hpc] at h <;> simp only at h
  · by_cases hq : s.shm.quit ≠ 0
    · rw [if_pos hq] at h
      cases h
      exact GenTrans.exit hpc hq
    · rw [if_neg hq] at h
      have hq0 : s.shm.quit = 0 := by simpa using hq
      by_cases hd : (attempt (assign_colors rands) G.edges G.solution).2 < 0
      · rw [if_pos hd] at h
        cases h
        exact GenTrans.discard rands hpc hq0 hd
      · rw [if_neg hd] at h
        cases h
        exact GenTrans.generate rands hpc hq0 hd
  · cases r
    · by_cases hm : 0 < s.sem_mutex
      · simp only [if_pos hm] at h
        cases h
        exact GenTrans.lock hpc hm
      · simp [hm] at h
    · cases h
      exact GenTrans.lock_eintr hpc
    · exact absurd rfl hr
  · cases r
    · by_cases hm : 0 < s.sem_free
      · simp only [if_pos hm] at h
        cases h
        exact GenTrans.reserve hpc hm
      · simp [hm] at h
    · cases h
      exact GenTrans.reserve_eintr hpc
    · exact absurd rfl hr
  · cases r
    · cases h
      exact GenTrans.release hpc
    · cases h
    · exact absurd rfl hr
  · cases r
    · cases h
      exact GenTrans.release_error hpc
    · cases h
    · exact absurd rfl hr
  · by_cases hi : (G.i : Int) < G.solution_size
    · rw [if_pos hi] at h
      cases h
      exact GenTrans.copy_edge hpc hi
    · rw [if_neg hi] at h
      cases h
      exact GenTrans.copy_done hpc hi
  · cases h
    exact GenTrans.set_size hpc
  · cases h
    exact GenTrans.advance_wr hpc
  · cases r
    · cases h
      exact GenTrans.post_mutex hpc
    · cases h
    · exact absurd rfl hr
  · cases r
    · cases h
      exact GenTrans.post_used hpc
    · cases h
    · exact absurd rfl hr
  · cases h

theorem sup_step_trans (s t : State) (r : SemResult)
    (h : sup_step s r = some t) (hr : r ≠ SemResult.fail) : SupTrans s t := by
  unfold sup_step at h
  cases hpc : s.sup.pc <;> rw [hpc] at h <;> simp only at h
  · by_cases hq : s.sup.quit ≠ 0
    · rw [if_pos hq] at h
      cases h
      exact SupTrans.leave hpc hq
    · rw [if_neg hq] at h
      cases h
      exact SupTrans.enter hpc (by simpa using hq)
  · cases r
    · by_cases hm : 0 < s.sem_used
      · simp only [if_pos hm] at h
        cases h
        exact SupTrans.take hpc hm
      · simp [hm] at h
    · cases h
      exact SupTrans.take_eintr hpc
    · exact absurd rfl hr
  · by_cases hz : s.shm.solution_size s.shm.rd = 0
    · rw [if_pos hz] at h
      cases h
      exact SupTrans.read_zero hpc hz
    · rw [if_neg hz] at h
      by_cases hb : s.shm.solution_size s.shm.rd < s.sup.best_solution
      · rw [if_pos hb] at h
        cases h
        exact SupTrans.read_better hpc hz hb
      · rw [if_neg hb] at h
        cases h
        exact SupTrans.read_worse hpc hz hb
  · cases h
    exact SupTrans.advance_rd hpc
  · cases r
    · cases h
      exact SupTrans.post_free hpc
    · cases h
    · exact absurd rfl hr
  · cases h
    exact SupTrans.set_quit hpc
  · by_cases hi : s.sup.i < MAX_QUEUE_SIZE
    · simp only [if_pos hi] at h
      cases r
      · cases h
        exact SupTrans.wake hpc hi
      · cases h
      · exact absurd rfl hr
    · rw [if_neg hi] at h
      cases h
      exact SupTrans.wake_done hpc hi
  · cases r
    · cases h
      exact SupTrans.destroy hpc
    · cases h
    · exact absurd rfl hr
  · cases h

theorem step_trans (s t : State) (a : Action) (h : step s a = some t)
    (hf : a.faultFree = true) : Trans s t := by
  cases a with
  | gen g r rands =>
    simp only [step] at h
    cases hG : s.gens[g]? with
    | none => rw [hG] at h; cases h
    | some G =>
      rw [hG] at h
      exact Trans.gen g G hG (gen_step_trans s t g G r rands h (by simpa [Action.faultFree] using hf))
  | sup r =>
    exact Trans.sup (sup_step_trans s t r h (by simpa [Action.faultFree] using hf))
  | signal =>
    simp only [step] at h
    cases h
    exact Trans.sup SupTrans.signal

theorem count_set (w : GenPc → Nat) :
    ∀ (gens : List Gen) (g : Nat) (G H : Gen), gens[g]? = some G →
      count w (gens.set g H) + w G.pc = count w gens + w H.pc := by
  intro gens
  induction gens with
  | nil => intro g G H h; simp at h
  | cons x xs ih =>
    intro g G H h
    cases g with
    | zero =>
      simp at h
      subst h
      simp [count]
      omega
    | succ k =>
      simp at h
      have := ih k G H h
      simp [count] at this ⊢
      omega

theorem lookup_set (gens : List Gen) (g h : Nat) (G H K : Gen) (hG : gens[g]? = some G)
    (hH : (gens.set g K)[h]? = some H) :
    (h = g ∧ H = K) ∨ (h ≠ g ∧ gens[h]? = some H) := by
  by_cases e : g = h
  · subst e
    left
    have hlt : g < gens.length := by
      rcases List.getElem?_eq_some_iff.mp hG with ⟨hl, _⟩
      exact hl
    rw [List.getElem?_set_self hlt] at hH
    cases hH
    exact ⟨rfl, rfl⟩
  · right
    rw [List.getElem?_set_ne e] at hH
    exact ⟨fun e2 => e e2.symm, hH⟩

theorem count_le (w : GenPc → Nat) :
    ∀ (gens : List Gen) (g : Nat) (G : Gen), gens[g]? = some G → w G.pc ≤ count w gens := by
  intro gens
  induction gens with
  | nil => intro g G h; simp at h
  | cons x xs ih =>
    intro g G h
    cases g with
    | zero =>
      simp at h
      subst h
      simp [count]
    | succ k =>
      simp at h
      have := ih k G h
      simp [count] at this ⊢
      omega

theorem count_set_eq (w : GenPc → Nat) (gens : List Gen) (g : Nat) (G : Gen)
    (h : gens[g]? = some G) (H : Gen) :
    count w (gens.set g H) = count w gens + w H.pc - w G.pc := by
  have := count_set w gens g G H h
  omega

theorem mutex_trans (s t : State) (h : Trans s t)
    (hm : s.sem_mutex + count holds_mutex s.gens = 1) :
    t.sem_mutex + count holds_mutex t.gens = 1 := by
  cases h with
  | gen g G hG hstep =>
    have hc := count_set_eq holds_mutex s.gens g G hG
    have hle := count_le holds_mutex s.gens g G hG
    cases hstep <;> simp [State.setGen, hc, holds_mutex, *] at hle ⊢ <;> omega
  | sup hstep =>
    cases hstep <;> simpa using hm

theorem attempt_bounds (nodes : Nat → Nat) (edges : List Edge) (stack : Nat → Edge)
    (h : ¬ (attempt nodes edges stack).2 < 0) :
    0 ≤ (attempt nodes edges stack).2 ∧ (attempt nodes edges stack).2 ≤ (MAX_BAD_EDGES : Int) := by
  have hs := attempt_size nodes edges stack
  split at hs
  · next hle => rw [hs]; exact ⟨Int.natCast_nonneg _, by exact_mod_cast hle⟩
  · rw [hs] at h; exact absurd (by decide) h

theorem attempt_zero (nodes : Nat → Nat) (edges : List Edge) (stack : Nat → Edge) :
    (attempt nodes edges stack).2 = 0 ↔ ∀ e ∈ edges, nodes e.first ≠ nodes e.second := by
  have hs := attempt_size nodes edges stack
  have hf : (edges.filter (bad nodes)).length = 0 ↔ ∀ e ∈ edges, nodes e.first ≠ nodes e.second := by
    rw [List.length_eq_zero, List.filter_eq_nil_iff]
    simp [bad]
  rw [← hf, hs]
  split
  · exact_mod_cast Iff.rfl
  · next hgt =>
    constructor
    · intro h; exact absurd h (by decide)
    · intro h; rw [h] at hgt; exact absurd (Nat.zero_le _) hgt

theorem assign_colors_lt (rands : List Nat) (i : Nat) : assign_colors rands i < NCOLORS := by
  unfold assign_colors
  exact Nat.mod_lt _ (by decide)

theorem safe_init (graphs : List (List Edge)) : Safe graphs (State.init graphs) := by
  refine ⟨?_, ?_, ?_, ?_, ?_, ?_, ?_⟩
  · have : count holds_mutex (graphs.map Gen.start) = 0 := by
      induction graphs with
      | nil => rfl
      | cons x xs ih => simpa [count, Gen.start, holds_mutex] using ih
    simp [State.init, this]
  · intro k; simp [State.init, Shared.zero]
  · intro g G hG hc
    simp [State.init, List.getElem?_map] at hG
    obtain ⟨es, _, rfl⟩ := hG
    simp [Gen.start, has_candidate] at hc
  · intro g G hG
    simp [State.init, List.getElem?_map] at hG
    obtain ⟨es, hes, rfl⟩ := hG
    simpa [Gen.start] using hes
  · intro g G hG hc
    simp [State.init, List.getElem?_map] at hG
    obtain ⟨es, _, rfl⟩ := hG
    simp [Gen.start, has_candidate] at hc
  · intro p hp; simp [State.init] at hp
  · intro c hc; simp [State.init] at hc

theorem safe_trans (graphs : List (List Edge)) (s t : State) (hs : Safe graphs s)
    (h : Trans s t) : Safe graphs t := by
  refine ⟨mutex_trans s t h hs.mutex, ?_, ?_, ?_, ?_, ?_, ?_⟩
  · -- sizes
    intro k
    cases h with
    | gen g G hG hstep =>
      cases hstep <;>
        first
        | exact hs.sizes k
        | (rename_i hpc
           simp only [State.setGen, Shared.store_size]
           by_cases hk : k = s.shm.wr
           · subst hk
             rw [Function.update_same]
             exact hs.local_sizes g G hG (by simp [has_candidate, hpc])
           · rw [Function.update_noteq hk]
             exact hs.sizes k)
    | sup hstep => cases hstep <;> exact hs.sizes k
  · -- local_sizes
    intro h2 H hH hc
    cases h with
    | gen g G hG hstep =>
      have hold := hs.local_sizes g G hG
      cases hstep <;> simp only [State.setGen] at hH <;>
        rcases lookup_set _ _ _ _ _ _ hG hH with ⟨-, rfl⟩ | ⟨-, hH2⟩ <;>
        first
        | exact hs.local_sizes h2 H hH2 hc
        | (simp [has_candidate] at hc; done)
        | (rename_i hd; exact attempt_bounds _ _ _ hd)
        | (exact hold (by simp [has_candidate, *]))
    | sup hstep => cases hstep <;> exact hs.local_sizes h2 H hH hc
  · -- graph
    intro h2 H hH
    cases h with
    | gen g G hG hstep =>
      have hold := hs.graph g G hG
      cases hstep <;> simp only [State.setGen] at hH <;>
        rcases lookup_set _ _ _ _ _ _ hG hH with ⟨rfl, rfl⟩ | ⟨-, hH2⟩ <;>
        first
        | exact hs.graph h2 H hH2
        | exact hold
    | sup hstep => cases hstep <;> exact hs.graph h2 H hH
  · -- local_zero
    intro h2 H hH hc hz
    cases h with
    | gen g G hG hstep =>
      have hold := hs.local_zero g G hG
      cases hstep <;> simp only [State.setGen] at hH <;>
        rcases lookup_set _ _ _ _ _ _ hG hH with ⟨-, rfl⟩ | ⟨-, hH2⟩ <;>
        first
        | exact hs.local_zero h2 H hH2 hc hz
        | (simp [has_candidate] at hc; done)
        | (exact hold (by simp [has_candidate, *]) hz)
        | (rename_i rands _ _ _
           exact ⟨assign_colors rands, assign_colors_lt rands, (attempt_zero _ _ _).mp hz⟩)
    | sup hstep => cases hstep <;> exact hs.local_zero h2 H hH hc hz
  · -- published_zero
    intro p hp hz
    cases h with
    | gen g G hG hstep =>
      cases hstep <;>
        first
        | exact hs.published_zero p hp hz
        | (rename_i hpc
           simp only [State.setGen, List.mem_append, List.mem_singleton] at hp
           rcases hp with hp | rfl
           · exact hs.published_zero p hp hz
           · exact ⟨G.edges, hs.graph g G hG,
               hs.local_zero g G hG (by simp [has_candidate, hpc]) hz⟩)
    | sup hstep => cases hstep <;> exact hs.published_zero p hp hz
  · -- consumed_sizes
    intro c hc
    cases h with
    | gen g G hG hstep => cases hstep <;> exact hs.consumed_sizes c hc
    | sup hstep =>
      cases hstep <;>
        first
        | exact hs.consumed_sizes c hc
        | (simp only [List.mem_append, List.mem_singleton] at hc
           rcases hc with hc | rfl
           · exact hs.consumed_sizes c hc
           · exact hs.sizes _)

theorem count_two (w : GenPc → Nat) :
    ∀ (gens : List Gen) (g h : Nat) (G H : Gen), g ≠ h → gens[g]? = some G →
      gens[h]? = some H → w G.pc + w H.pc ≤ count w gens := by
  intro gens
  induction gens with
  | nil => intro g h G H _ hG; simp at hG
  | cons x xs ih =>
    intro g h G H hne hG hH
    cases g with
    | zero =>
      cases h with
      | zero => exact absurd rfl hne
      | succ k =>
        simp at hG hH
        subst hG
        have := count_le w xs k H hH
        simp [count] at this ⊢
        omega
    | succ j =>
      cases h with
      | zero =>
        simp at hG hH
        subst hH
        have := count_le w xs j G hG
        simp [count] at this ⊢
        omega
      | succ k =>
        simp at hG hH
        have := ih j k G H (by omega) hG hH
        simp [count] at this ⊢
        omega

theorem count_zero (w : GenPc → Nat) (gens : List Gen) (h : ∀ G ∈ gens, w G.pc = 0) :
    count w gens = 0 := by
  induction gens with
  | nil => rfl
  | cons x xs ih =>
    have hx := h x (List.mem_cons_self _ _)
    have := ih (fun G hG => h G (List.mem_cons_of_mem _ hG))
    simp [count] at this ⊢
    exact ⟨hx, this⟩

theorem slot_store_edge (shm : Shared) (i : Nat) (e : Edge) (k : Nat) (hk : k ≠ shm.wr) :
    (shm.store_edge i e).slot k = shm.slot k := by
  simp [Shared.slot, Shared.store_edge, Function.update_noteq hk]

theorem slot_store_size (shm : Shared) (n : Int) (k : Nat) (hk : k ≠ shm.wr) :
    (shm.store_size n).slot k = shm.slot k := by
  simp [Shared.slot, Shared.store_size, Function.update_noteq hk]

theorem view_congr (a b : Nat → Edge) (n : Int)
    (h : ∀ j : Nat, (j : Int) < n → a j = b j) : view a n = view b n := by
  unfold view
  apply List.map_congr_left
  intro j hj
  rw [List.mem_range] at hj
  apply h
  omega

theorem ring_init (graphs : List (List Edge)) : Ring (State.init graphs) := by
  have hz : ∀ w : GenPc → Nat, w .loop_top = 0 → count w (graphs.map Gen.start) = 0 := by
    intro w hw
    apply count_zero
    intro G hG
    simp at hG
    obtain ⟨es, _, rfl⟩ := hG
    simpa [Gen.start] using hw
  refine ⟨?_, ?_, ?_, ?_, ?_⟩
  · simp [State.init, hz in_write rfl, hz in_flight rfl, taken, giving, Sup.start]
  · simp [State.init, Shared.zero, MAX_QUEUE_SIZE]
  · simp [State.init, Shared.zero, unread, hz in_flight rfl, taken, Sup.start]
  · refine ⟨[], ?_, ?_, ?_⟩
    · simp [State.init]
    · simp [State.init, unread, hz in_flight rfl, taken, skipped, Sup.start]
    · intro j hj; simp at hj
  · intro g G hG
    simp [State.init, List.getElem?_map] at hG
    obtain ⟨es, _, rfl⟩ := hG
    simp [Gen.start]

/-- The numeric part of the ring invariant is preserved. -/
theorem ring_num_trans (s t : State) (hr : Ring s) (h : Trans s t)
    (hl : in_loop s.sup.pc = true) (hl2 : in_loop t.sup.pc = true) :
    (t.sem_used + t.sem_free + count in_write t.gens + count in_flight t.gens +
      taken t.sup.pc + giving t.sup.pc = MAX_QUEUE_SIZE) ∧
    t.shm.rd < MAX_QUEUE_SIZE ∧
    t.shm.wr = (t.shm.rd + unread t) % MAX_QUEUE_SIZE := by
  have h1 := hr.slots
  have h2 := hr.rd_lt
  have h3 := hr.cursor
  cases h with
  | gen g G hG hstep =>
    have hc1 := count_set_eq in_write s.gens g G hG
    have hc2 := count_set_eq in_flight s.gens g G hG
    have hle1 := count_le in_write s.gens g G hG
    have hle2 := count_le in_flight s.gens g G hG
    cases hstep <;>
      simp [State.setGen, hc1, hc2, in_write, in_flight, unread, Shared.store_edge,
        Shared.store_size, Shared.advance_wr, MAX_QUEUE_SIZE, *] at h1 h2 h3 hle1 hle2 ⊢ <;>
      omega
  | sup hstep =>
    cases hstep <;>
      simp [taken, giving, in_loop, unread, Shared.advance_rd, Shared.set_quit,
        MAX_QUEUE_SIZE, *] at h1 h2 h3 hl hl2 ⊢ <;>
      omega

/-- While a generator is between its wait on free and the advance of `wr`, fewer
than `MAX_QUEUE_SIZE` slots are unread. -/
theorem unread_lt_of_writer (s : State) (hr : Ring s) (g : Nat) (G : Gen)
    (hG : s.gens[g]? = some G) (hw : in_write G.pc = 1) : unread s < MAX_QUEUE_SIZE := by
  have h1 := hr.slots
  have hle := count_le in_write s.gens g G hG
  unfold unread
  omega

theorem pending_frame (s t : State) (hr : Ring s)
    (hshm : ∀ k, t.shm.slot k = s.shm.slot k) (hrd : t.shm.rd = s.shm.rd)
    (hpub : t.published = s.published) (hcons : t.consumed = s.consumed)
    (hsk : skipped t.sup.pc = skipped s.sup.pc) (hun : unread t = unread s) :
    ∃ pend : List Candidate,
      t.published.map Prod.snd = t.consumed ++ pend ∧
      pend.length + skipped t.sup.pc = unread t ∧
      ∀ j, j < pend.length →
        pend[j]? = some (t.shm.slot ((t.shm.rd + skipped t.sup.pc + j) % MAX_QUEUE_SIZE)) := by
  obtain ⟨pend, ha, hb, hc⟩ := hr.pending
  refine ⟨pend, ?_, ?_, ?_⟩
  · rw [hpub, hcons]; exact ha
  · rw [hsk, hun]; exact hb
  · intro j hj
    rw [hshm, hrd, hsk]
    exact hc j hj

theorem pending_write (s t : State) (hr : Ring s) (hlt : unread s < MAX_QUEUE_SIZE)
    (hshm : ∀ k, k ≠ s.shm.wr → t.shm.slot k = s.shm.slot k) (hrd : t.shm.rd = s.shm.rd)
    (hpub : t.published = s.published) (hcons : t.consumed = s.consumed)
    (hsk : skipped t.sup.pc = skipped s.sup.pc) (hun : unread t = unread s) :
    ∃ pend : List Candidate,
      t.published.map Prod.snd = t.consumed ++ pend ∧
      pend.length + skipped t.sup.pc = unread t ∧
      ∀ j, j < pend.length →
        pend[j]? = some (t.shm.slot ((t.shm.rd + skipped t.sup.pc + j) % MAX_QUEUE_SIZE)) := by
  obtain ⟨pend, ha, hb, hc⟩ := hr.pending
  have hcur := hr.cursor
  refine ⟨pend, ?_, ?_, ?_⟩
  · rw [hpub, hcons]; exact ha
  · rw [hsk, hun]; exact hb
  · intro j hj
    rw [hrd, hsk, hshm]
    · exact hc j hj
    · rw [hcur]
      simp only [MAX_QUEUE_SIZE] at hlt ⊢
      omega

theorem pending_publish (s : State) (hr : Ring s) (g : Nat) (c : Candidate) (gens : List Gen)
    (sup : Sup) (hsup : sup.pc = s.sup.pc) (hc1 : s.shm.slot s.shm.wr = c)
    (hun : s.sem_used + count in_flight gens + taken s.sup.pc = unread s + 1) :
    ∃ pend : List Candidate,
      (s.published ++ [(g, c)]).map Prod.snd = s.consumed ++ pend ∧
      pend.length + skipped sup.pc = s.sem_used + count in_flight gens + taken sup.pc ∧
      ∀ j, j < pend.length →
        pend[j]? = some (s.shm.advance_wr.slot
          ((s.shm.advance_wr.rd + skipped sup.pc + j) % MAX_QUEUE_SIZE)) := by
  obtain ⟨pend, ha, hb, hc⟩ := hr.pending
  have hcur := hr.cursor
  refine ⟨pend ++ [c], ?_, ?_, ?_⟩
  · rw [List.map_append, ha]; simp
  · rw [hsup, hun, List.length_append]
    simp
    omega
  · intro j hj
    rw [hsup]
    show (pend ++ [c])[j]? = some (s.shm.slot ((s.shm.rd + skipped s.sup.pc + j) % MAX_QUEUE_SIZE))
    by_cases hjl : j < pend.length
    · rw [List.getElem?_append_left hjl]
      exact hc j hjl
    · have hje : j = pend.length := by
        simp at hj
        omega
      subst hje
      rw [List.getElem?_append_right (Nat.le_refl _)]
      simp
      have : s.shm.rd + skipped s.sup.pc + pend.length = s.shm.rd + unread s := by omega
      rw [this, ← hcur, hc1]

theorem pending_read (s : State) (hr : Ring s) (hpc : s.sup.pc = .read) (sup : Sup)
    (hsup : sup.pc = .advance_rd) :
    ∃ pend : List Candidate,
      s.published.map Prod.snd = (s.consumed ++ [s.shm.slot s.shm.rd]) ++ pend ∧
      pend.length + skipped sup.pc = s.sem_used + count in_flight s.gens + taken sup.pc ∧
      ∀ j, j < pend.length →
        pend[j]? = some (s.shm.slot ((s.shm.rd + skipped sup.pc + j) % MAX_QUEUE_SIZE)) := by
  obtain ⟨pend, ha, hb, hc⟩ := hr.pending
  have hrd := hr.rd_lt
  rw [hpc] at hb hc
  simp only [skipped, unread, taken, hpc] at hb hc
  cases pend with
  | nil => simp at hb
  | cons c rest =>
    have h0 := hc 0 (by simp)
    simp only [List.getElem?_cons_zero, Nat.add_zero, Option.some.injEq] at h0
    rw [Nat.mod_eq_of_lt hrd] at h0
    refine ⟨rest, ?_, ?_, ?_⟩
    · rw [ha, h0]; simp
    · rw [hsup]
      simp only [skipped, taken]
      simp at hb
      omega
    · intro j hj
      rw [hsup]
      have := hc (j + 1) (by simp; omega)
      simp only [List.getElem?_cons_succ] at this
      rw [this]
      simp only [skipped]
      congr 3
      omega

theorem pending_advance (s : State) (hr : Ring s) (hpc : s.sup.pc = .advance_rd) (sup : Sup)
    (hsup : sup.pc = .post_free) :
    ∃ pend : List Candidate,
      s.published.map Prod.snd = s.consumed ++ pend ∧
      pend.length + skipped sup.pc = s.sem_used + count in_flight s.gens + taken sup.pc ∧
      ∀ j, j < pend.length →
        pend[j]? = some (s.shm.advance_rd.slot
          ((s.shm.advance_rd.rd + skipped sup.pc + j) % MAX_QUEUE_SIZE)) := by
  obtain ⟨pend, ha, hb, hc⟩ := hr.pending
  rw [hpc] at hb hc
  simp only [skipped, unread, taken, hpc] at hb hc
  refine ⟨pend, ha, ?_, ?_⟩
  · rw [hsup]
    simp only [skipped, taken]
    omega
  · intro j hj
    rw [hc j hj, hsup]
    show some (s.shm.slot _) = some (s.shm.slot _)
    simp only [skipped, Shared.advance_rd, MAX_QUEUE_SIZE]
    congr 2
    omega

theorem pending_trans (s t : State) (hr : Ring s) (h : Trans s t)
    (hl : in_loop s.sup.pc = true) (hl2 : in_loop t.sup.pc = true) :
    ∃ pend : List Candidate,
      t.published.map Prod.snd = t.consumed ++ pend ∧
      pend.length + skipped t.sup.pc = unread t ∧
      ∀ j, j < pend.length →
        pend[j]? = some (t.shm.slot ((t.shm.rd + skipped t.sup.pc + j) % MAX_QUEUE_SIZE)) := by
  cases h with
  | gen g G hG hstep =>
    have hc2 := count_set_eq in_flight s.gens g G hG
    have hle2 := count_le in_flight s.gens g G hG
    cases hstep with
    | copy_edge hpc hi =>
      apply pending_write s _ hr (unread_lt_of_writer s hr g G hG (by simp [in_write, hpc]))
      · intro k hk; exact slot_store_edge _ _ _ _ hk
      · rfl
      · rfl
      · rfl
      · rfl
      · simp [unread, State.setGen, hc2, in_flight, hpc]
    | set_size hpc =>
      apply pending_write s _ hr (unread_lt_of_writer s hr g G hG (by simp [in_write, hpc]))
      · intro k hk; exact slot_store_size _ _ _ hk
      · rfl
      · rfl
      · rfl
      · rfl
      · simp [unread, State.setGen, hc2, in_flight, hpc]
    | advance_wr hpc =>
      apply pending_publish s hr g G.candidate _ s.sup rfl ((hr.writer g G hG).2.2 hpc)
      simp [unread, State.setGen, hc2, in_flight, hpc] at hle2 ⊢
      omega
    | _ =>
      apply pending_frame s _ hr <;>
        first
        | rfl
        | (intro k; rfl)
        | (simp [unread, State.setGen, hc2, in_flight, *] at hle2 ⊢; done)
        | (simp [unread, State.setGen, hc2, in_flight, *] at hle2 ⊢; omega)
  | sup hstep =>
    cases hstep with
    | read_better hpc hz hb => exact pending_read s hr hpc _ rfl
    | read_worse hpc hz hb => exact pending_read s hr hpc _ rfl
    | advance_rd hpc => exact pending_advance s hr hpc _ rfl
    | _ =>
      first
      | (simp [in_loop, *] at hl hl2; done)
      | (apply pending_frame s _ hr <;>
          first
          | rfl
          | (intro k; rfl)
          | (simp [skipped, unread, taken, *]; done)
          | (simp [skipped, unread, taken, *]; omega))

/-- Whoever holds the mutex is the only one: another generator is at a program
point outside the critical section. -/
theorem other_outside (s : State) (hm : s.sem_mutex + count holds_mutex s.gens = 1)
    (g h : Nat) (G H : Gen) (hG : s.gens[g]? = some G) (hH : s.gens[h]? = some H)
    (hne : h ≠ g) (hg : holds_mutex G.pc = 1) : holds_mutex H.pc = 0 := by
  have := count_two holds_mutex s.gens g h G H (fun e => hne e.symm) hG hH
  omega

theorem writer_trans (s t : State) (hm : s.sem_mutex + count holds_mutex s.gens = 1)
    (hr : Ring s) (h : Trans s t) :
    ∀ (g : Nat) (G : Gen), t.gens[g]? = some G →
      (G.pc = .copy → ∀ j, j < G.i → t.shm.queue t.shm.wr j = G.solution j) ∧
      (G.pc = .set_size → ∀ j : Nat, (j : Int) < G.solution_size →
        t.shm.queue t.shm.wr j = G.solution j) ∧
      (G.pc = .advance_wr → t.shm.slot t.shm.wr = G.candidate) := by
  intro h2 H hH
  cases h with
  | gen g G hG hstep =>
    have hold := hr.writer g G hG
    have hout : ∀ K, s.gens[h2]? = some K → h2 ≠ g → holds_mutex G.pc = 1 →
        (K.pc = .copy → False) ∧ (K.pc = .set_size → False) ∧ (K.pc = .advance_wr → False) := by
      intro K hK hne hg
      have := other_outside s hm g h2 G K hG hK hne hg
      refine ⟨?_, ?_, ?_⟩ <;> intro hk <;> simp [holds_mutex, hk] at this
    cases hstep with
    | reserve hpc hf =>
      simp only [State.setGen] at hH
      rcases lookup_set _ _ _ _ _ _ hG hH with ⟨-, rfl⟩ | ⟨hne, hH2⟩
      · simp
      · exact hr.writer h2 H hH2
    | copy_edge hpc hi =>
      simp only [State.setGen] at hH
      rcases lookup_set _ _ _ _ _ _ hG hH with ⟨-, rfl⟩ | ⟨hne, hH2⟩
      · refine ⟨?_, ?_, ?_⟩
        · intro _ j hj
          simp only [State.setGen, Shared.store_edge, Function.update_same]
          by_cases hji : j = G.i
          · subst hji; simp
          · rw [Function.update_noteq hji]
            exact hold.1 hpc j (by simp at hj; omega)
        · intro hc; simp at hc
        · intro hc; simp at hc
      · have := hout H hH2 hne (by simp [holds_mutex, hpc])
        exact ⟨fun e => (this.1 e).elim, fun e => (this.2.1 e).elim, fun e => (this.2.2 e).elim⟩
    | copy_done hpc hi =>
      simp only [State.setGen] at hH
      rcases lookup_set _ _ _ _ _ _ hG hH with ⟨-, rfl⟩ | ⟨hne, hH2⟩
      · refine ⟨?_, ?_, ?_⟩
        · intro hc; simp at hc
        · intro _ j hj
          exact hold.1 hpc j (by simp at hj; omega)
        · intro hc; simp at hc
      · exact hr.writer h2 H hH2
    | set_size hpc =>
      simp only [State.setGen] at hH
      rcases lookup_set _ _ _ _ _ _ hG hH with ⟨-, rfl⟩ | ⟨hne, hH2⟩
      · refine ⟨?_, ?_, ?_⟩
        · intro hc; simp at hc
        · intro hc; simp at hc
        · intro _
          simp only [State.setGen, Shared.store_size, Shared.slot, Gen.candidate,
            Function.update_same]
          rw [view_congr _ _ _ (hold.2.1 hpc)]
      · have := hout H hH2 hne (by simp [holds_mutex, hpc])
        exact ⟨fun e => (this.1 e).elim, fun e => (this.2.1 e).elim, fun e => (this.2.2 e).elim⟩
    | advance_wr hpc =>
      simp only [State.setGen] at hH
      rcases lookup_set _ _ _ _ _ _ hG hH with ⟨-, rfl⟩ | ⟨hne, hH2⟩
      · simp
      · have := hout H hH2 hne (by simp [holds_mutex, hpc])
        exact ⟨fun e => (this.1 e).elim, fun e => (this.2.1 e).elim, fun e => (this.2.2 e).elim⟩
    | _ =>
      simp only [State.setGen] at hH
      rcases lookup_set _ _ _ _ _ _ hG hH with ⟨-, rfl⟩ | ⟨hne, hH2⟩
      · simp
      · exact hr.writer h2 H hH2
  | sup hstep =>
    cases hstep <;> exact hr.writer h2 H hH

theorem ring_trans (graphs : List (List Edge)) (s t : State) (hs : Safe graphs s) (hr : Ring s)
    (h : Trans s t) (hl : in_loop s.sup.pc = true) (hl2 : in_loop t.sup.pc = true) : Ring t := by
  obtain ⟨h1, h2, h3⟩ := ring_num_trans s t hr h hl hl2
  exact ⟨h1, h2, h3, pending_trans s t hr h hl hl2, writer_trans s t hs.mutex hr h⟩

/-- Once the supervisor has left its main loop it never re-enters it. -/
theorem in_loop_back (s t : State) (h : Trans s t) (hl2 : in_loop t.sup.pc = true) :
    in_loop s.sup.pc = true := by
  cases h with
  | gen g G hG hstep => cases hstep <;> exact hl2
  | sup hstep => cases hstep <;> simp_all [in_loop]

theorem reachable_safe (graphs : List (List Edge)) (s : State) (h : Reachable graphs s) :
    Safe graphs s := by
  induction h with
  | init => exact safe_init graphs
  | step s a t _ hf hstep ih => exact safe_trans graphs s t ih (step_trans s t a hstep hf)

theorem reachable_ring (graphs : List (List Edge)) (s : State) (h : Reachable graphs s) :
    in_loop s.sup.pc = true → Ring s := by
  induction h with
  | init => intro _; exact ring_init graphs
  | step s a t hreach hf hstep ih =>
    intro hl2
    have htr := step_trans s t a hstep hf
    have hl := in_loop_back s t htr hl2
    exact ring_trans graphs s t (reachable_safe graphs s hreach) (ih hl) htr hl hl2

/-- The candidates read so far are an initial segment of the candidates published. -/
theorem reachable_fifo (graphs : List (List Edge)) (s : State) (h : Reachable graphs s) :
    s.consumed <+: s.published.map Prod.snd := by
  induction h with
  | init => simp [State.init]
  | step s a t hreach hf hstep ih =>
    have htr := step_trans s t a hstep hf
    by_cases hl2 : in_loop t.sup.pc = true
    · obtain ⟨pend, ha, _, _⟩ := (reachable_ring graphs t (Reachable.step s a t hreach hf hstep) hl2).pending
      exact ⟨pend, ha.symm⟩
    · cases htr with
      | gen g G hG hg =>
        cases hg with
        | advance_wr hpc =>
          simp only [State.setGen, List.map_append]
          exact ih.trans (List.prefix_append _ _)
        | _ => exact ih
      | sup hsup =>
        cases hsup with
        | read_zero hpc hz =>
          have hr := reachable_ring graphs s hreach (by simp [in_loop, hpc])
          obtain ⟨pend, ha, hb, hc⟩ := hr.pending
          have hrd := hr.rd_lt
          simp only [skipped, unread, taken, hpc] at hb hc
          cases pend with
          | nil => simp at hb
          | cons c rest =>
            have h0 := hc 0 (by simp)
            simp only [List.getElem?_cons_zero, Nat.add_zero, Option.some.injEq] at h0
            rw [Nat.mod_eq_of_lt hrd] at h0
            refine ⟨rest, ?_⟩
            show (s.consumed ++ [s.shm.slot s.shm.rd]) ++ rest = s.published.map Prod.snd
            rw [ha, h0]
            simp
        | read_better hpc _ _ => simp [in_loop] at hl2
        | read_worse hpc _ _ => simp [in_loop] at hl2
        | _ => exact ih

theorem reachable_run (graphs : List (List Edge)) :
    ∀ (acts : List Action) (s t : State), Reachable graphs s →
      (∀ a ∈ acts, a.faultFree = true) → run s acts = some t → Reachable graphs t := by
  intro acts
  induction acts with
  | nil =>
    intro s t hs _ hrun
    simp only [run, Option.some.injEq] at hrun
    exact hrun ▸ hs
  | cons a rest ih =>
    intro s t hs hf hrun
    simp only [run] at hrun
    cases hstep : step s a with
    | none => rw [hstep] at hrun; cases hrun
    | some u =>
      rw [hstep] at hrun
      exact ih u t (Reachable.step s a u hs (hf a (List.mem_cons_self _ _)) hstep)
        (fun b hb => hf b (List.mem_cons_of_mem _ hb)) hrun

theorem reachable_final (graphs : List (List Edge)) (acts : List Action)
    (hf : ∀ a ∈ acts, a.faultFree = true) : Reachable graphs (final graphs acts) := by
  unfold final
  cases hrun : run (State.init graphs) acts with
  | none => exact Reachable.init
  | some t => exact reachable_run graphs acts _ t Reachable.init hf hrun

/-- The success line is printed only after a size-0 candidate was read. -/
theorem reachable_colorable_line (graphs : List (List Edge)) (s : State)
    (h : Reachable graphs s) :
    Line.colorable ∈ s.sup.output → ∃ c ∈ s.consumed, c.size = 0 := by
  induction h with
  | init => intro hc; simp [State.init, Sup.start] at hc
  | step s a t _ hf hstep ih =>
    have grow : (∃ c ∈ s.consumed, c.size = 0) →
        ∃ c ∈ s.consumed ++ [s.shm.slot s.shm.rd], c.size = 0 := by
      rintro ⟨c, hc, hz⟩
      exact ⟨c, List.mem_append_left _ hc, hz⟩
    cases step_trans s t a hstep hf with
    | gen g G hG hg => cases hg <;> exact ih
    | sup hsup =>
      cases hsup with
      | read_zero hpc hz =>
        intro _
        exact ⟨s.shm.slot s.shm.rd, by simp, hz⟩
      | read_better hpc hz hb =>
        intro hc
        simp only [List.mem_append, List.mem_singleton, reduceCtorEq, or_false] at hc
        exact grow (ih hc)
      | read_worse hpc hz hb =>
        intro hc
        exact grow (ih hc)
      | _ => exact ih

/-- A generator statement, whatever its semaphore call returns, leaves the supervisor,
the cursor `rd` and the flag `quit` alone. -/
theorem gen_step_frame (s t : State) (g : Nat) (G : Gen) (r : SemResult) (rands : List Nat)
    (h : gen_step s g G r rands = some t) :
    t.sup = s.sup ∧ t.shm.quit = s.shm.quit ∧ t.shm.rd = s.shm.rd ∧ t.consumed = s.consumed := by
  unfold gen_step at h
  cases hpc : G.pc <;> cases r <;> simp only [hpc] at h <;>
    (try split_ifs at h) <;>
    first
    | (cases h; exact ⟨rfl, rfl, rfl, rfl⟩)
    | (cases h)

/-- What the cleanup of the supervisor has established, at each of its program points. -/
theorem cleanup_progress (graphs : List (List Edge)) (s : State)
    (h : ReachableWithFaults graphs s) :
    (s.sup.pc = .broadcast → s.shm.quit = 1 ∧ s.sup.i ≤ MAX_QUEUE_SIZE) ∧
    ((s.sup.pc = .destroy ∨ s.sup.pc = .exited) → s.shm.quit = 1 ∧ s.sup.i = MAX_QUEUE_SIZE) := by
  induction h with
  | init => simp [State.init, Sup.start]
  | step s a t _ hstep ih =>
    cases a with
    | gen g r rands =>
      simp only [step] at hstep
      cases hG : s.gens[g]? with
      | none => rw [hG] at hstep; cases hstep
      | some G =>
        rw [hG] at hstep
        obtain ⟨h1, h2, -, -⟩ := gen_step_frame s t g G r rands hstep
        rw [h1, h2]
        exact ih
    | signal =>
      simp only [step] at hstep
      cases hstep
      exact ih
    | sup r =>
      simp only [step] at hstep
      unfold sup_step at hstep
      cases hpc : s.sup.pc <;> cases r <;> simp only [hpc] at hstep <;>
        (try split_ifs at hstep) <;>
        first
        | (cases hstep; simp [hpc, Shared.set_quit, Shared.advance_rd] at ih ⊢; done)
        | (cases hstep; simp [hpc, Shared.set_quit, Shared.advance_rd] at ih ⊢; omega)
        | (cases hstep)

theorem run_append (s : State) (xs ys : List Action) :
    run s (xs ++ ys) = (run s xs).bind (fun t => run t ys) := by
  induction xs generalizing s with
  | nil => rfl
  | cons a rest ih =>
    simp only [List.cons_append, run]
    cases step s a with
    | none => rfl
    | some u => exact ih u

/-- The supervisor alone, from the statement that sets `quit`: after `k + 1` of its
statements, `k` at most `MAX_QUEUE_SIZE`, it is in the broadcast loop with `i = k`,
`quit` is set and `free` has been posted `k` times. -/
theorem broadcast_steps (s : State) (hpc : s.sup.pc = .set_quit) :
    ∀ k, k ≤ MAX_QUEUE_SIZE →
      ∃ t, run s (List.replicate (k + 1) (Action.sup SemResult.ok)) = some t ∧
        t.sup.pc = .broadcast ∧ t.sup.i = k ∧ t.shm.quit = 1 ∧ t.sem_free = s.sem_free + k ∧
        t.sem_mutex = s.sem_mutex ∧ t.sem_used = s.sem_used ∧ t.gens = s.gens := by
  intro k
  induction k with
  | zero =>
    intro _
    refine ⟨{ s with shm := s.shm.set_quit, sup := { s.sup with pc := .broadcast, i := 0 } },
      ?_, rfl, rfl, rfl, rfl, rfl, rfl, rfl⟩
    simp [run, step, sup_step, hpc]
  | succ k ih =>
    intro hk
    obtain ⟨t, hrun, h1, h2, h3, h4, h5, h6, h7⟩ := ih (by omega)
    refine ⟨{ t with sem_free := t.sem_free + 1, sup := { t.sup with i := t.sup.i + 1 } },
      ?_, h1, ?_, h3, ?_, h5, h6, h7⟩
    · rw [List.replicate_succ', run_append, hrun]
      have hlt : t.sup.i < MAX_QUEUE_SIZE := by omega
      simp [run, step, sup_step, h1, hlt]
    · simp [h2]
    · simp [h4]; omega

theorem faulty_run (graphs : List (List Edge)) :
    ∀ (acts : List Action) (s t : State), ReachableWithFaults graphs s →
      run s acts = some t → ReachableWithFaults graphs t := by
  intro acts
  induction acts with
  | nil =>
    intro s t hs hrun
    simp only [run, Option.some.injEq] at hrun
    exact hrun ▸ hs
  | cons a rest ih =>
    intro s t hs hrun
    simp only [run] at hrun
    cases hstep : step s a with
    | none => rw [hstep] at hrun; cases hrun
    | some u =>
      rw [hstep] at hrun
      exact ih u t (ReachableWithFaults.step s a u hs hstep) hrun

theorem faulty_final (graphs : List (List Edge)) (acts : List Action) :
    ReachableWithFaults graphs (final graphs acts) := by
  unfold final
  cases hrun : run (State.init graphs) acts with
  | none => exact ReachableWithFaults.init
  | some t => exact faulty_run graphs acts _ t ReachableWithFaults.init hrun

theorem final_eq (graphs : List (List Edge)) (acts : List Action)
    (h : (run (State.init graphs) acts).isSome = true) :
    run (State.init graphs) acts = some (final graphs acts) := by
  unfold final
  cases hrun : run (State.init graphs) acts with
  | none => rw [hrun] at h; cases h
  | some t => rfl

theorem final_append (graphs : List (List Edge)) (xs ys : List Action)
    (h : (run (State.init graphs) (xs ++ ys)).isSome = true) :
    run (final graphs xs) ys = some (final graphs (xs ++ ys)) := by
  have h2 := final_eq graphs (xs ++ ys) h
  rw [run_append] at h2
  unfold final at h2 ⊢
  cases hrun : run (State.init graphs) xs with
  | none => rw [hrun] at h2; cases h2
  | some t =>
    rw [hrun] at h2
    simpa [run_append, hrun] using h2

theorem run_cons_some (s u : State) (a : Action) (rest : List Action)
    (h : step s a = some u) : run s (a :: rest) = run u rest := by
  simp only [run, h]

theorem lookup_setGen (s : State) (g : Nat) (G H : Gen) (hG : s.gens[g]? = some G) :
    (State.setGen s g H).gens[g]? = some H := by
  simp only [State.setGen]
  exact List.getElem?_set_self (List.getElem?_eq_some_iff.mp hG).1

/-- The copy loop of generator `g` run alone: `k` iterations from index `i` fill
`queue[wr][i .. i + k)` from `solution` and change nothing else. -/
theorem copy_run (g : Nat) :
    ∀ (k : Nat) (s : State) (G : Gen), s.gens[g]? = some G → G.pc = .copy →
      ((G.i + k : Nat) : Int) = G.solution_size →
      ∃ (t : State) (H : Gen),
        run s (List.replicate k (Action.gen g SemResult.ok [])) = some t ∧
        t.gens[g]? = some H ∧ H.pc = .copy ∧ ((H.i : Nat) : Int) = G.solution_size ∧
        H.solution = G.solution ∧ H.solution_size = G.solution_size ∧ H.status = G.status ∧
        t.shm.wr = s.shm.wr ∧ t.shm.solution_size = s.shm.solution_size ∧
        t.shm.quit = s.shm.quit ∧
        t.sem_mutex = s.sem_mutex ∧ t.sem_free = s.sem_free ∧ t.sem_used = s.sem_used ∧
        (∀ j, G.i ≤ j → ((j : Nat) : Int) < G.solution_size →
          t.shm.queue s.shm.wr j = G.solution j) ∧
        (∀ j, j < G.i → t.shm.queue s.shm.wr j = s.shm.queue s.shm.wr j) := by
  intro k
  induction k with
  | zero =>
    intro s G hG hpc hk
    exact ⟨s, G, rfl, hG, hpc, by simpa using hk, rfl, rfl, rfl, rfl, rfl, rfl, rfl, rfl, rfl,
      fun j h1 h2 => by simp at hk; omega, fun j _ => rfl⟩
  | succ k ih =>
    intro s G hG hpc hk
    have hlt : (G.i : Int) < G.solution_size := by omega
    have hstep : step s (Action.gen g SemResult.ok []) =
        some (State.setGen { s with shm := s.shm.store_edge G.i (G.solution G.i) } g
          { G with i := G.i + 1 }) := by
      simp only [step, hG, gen_step, hpc, if_pos hlt]
    obtain ⟨t, H, h1, h2, h3, h4, h5, h6, h7, h8, h9, h10, h11, h12, h13, h14, h15⟩ :=
      ih (State.setGen { s with shm := s.shm.store_edge G.i (G.solution G.i) } g
          { G with i := G.i + 1 }) { G with i := G.i + 1 }
        (lookup_setGen _ g G _ hG) hpc (by simp only []; omega)
    refine ⟨t, H, ?_, h2, h3, h4, h5, h6, h7, h8, h9, h10, h11, h12, h13, ?_, ?_⟩
    · rw [List.replicate_succ, run_cons_some _ _ _ _ hstep]
      exact h1
    · intro j hj1 hj2
      by_cases hji : j = G.i
      · subst hji
        have := h15 G.i (by simp)
        simp only [State.setGen, Shared.store_edge, Function.update_same] at this
        exact this
      · exact h14 j (by simp only []; omega) hj2
    · intro j hj
      have := h15 j (by simp only []; omega)
      simp only [State.setGen, Shared.store_edge, Function.update_same] at this
      rw [this, Function.update_noteq (by omega)]

/-- Generator `g` run alone from the end of its copy loop, with `quit` set: it stores
the size, advances `wr`, posts `mutex` and `used`, and leaves at the loop top. -/
theorem finish_run (s : State) (g : Nat) (G : Gen) (hG : s.gens[g]? = some G)
    (hpc : G.pc = .copy) (hi : ¬ (G.i : Int) < G.solution_size) (hq : s.shm.quit ≠ 0) :
    ∃ (t : State) (H : Gen),
      run s (List.replicate 6 (Action.gen g SemResult.ok [])) = some t ∧
      t.gens[g]? = some H ∧ H.pc = .exited ∧ H.status = G.status ∧
      t.shm.wr = (s.shm.wr + 1) % MAX_QUEUE_SIZE ∧ t.shm.queue = s.shm.queue ∧
      t.shm.solution_size = Function.update s.shm.solution_size s.shm.wr G.solution_size ∧
      t.shm.quit = s.shm.quit ∧
      t.sem_mutex = s.sem_mutex + 1 ∧ t.sem_free = s.sem_free ∧ t.sem_used = s.sem_used + 1 := by
  have hlt : g < s.gens.length := (List.getElem?_eq_some_iff.mp hG).1
  simp [List.replicate, run, step, gen_step, State.setGen, hG, hpc, hi, hq, hlt,
    Shared.store_size, Shared.advance_wr]

/-- Generator `g` run alone from a successful wait on `free`, with `quit` set: it
completes the publish of the candidate it holds and leaves at the loop top. -/
theorem wake_run (s : State) (g : Nat) (G : Gen) (hG : s.gens[g]? = some G)
    (hpc : G.pc = .wait_free) (hf : 0 < s.sem_free) (hn : 0 ≤ G.solution_size)
    (hq : s.shm.quit ≠ 0) :
    ∃ (t : State) (H : Gen),
      run s (List.replicate (G.solution_size.toNat + 7) (Action.gen g SemResult.ok [])) = some t ∧
      t.gens[g]? = some H ∧ H.pc = .exited ∧ H.status = G.status ∧
      t.shm.wr = (s.shm.wr + 1) % MAX_QUEUE_SIZE ∧ t.shm.slot s.shm.wr = G.candidate ∧
      t.sem_mutex = s.sem_mutex + 1 ∧ t.sem_free = s.sem_free - 1 ∧
      t.sem_used = s.sem_used + 1 := by
  have hstep : step s (Action.gen g SemResult.ok []) =
      some (State.setGen { s with sem_free := s.sem_free - 1 } g { G with pc := .copy, i := 0 }) := by
    simp only [step, hG, gen_step, hpc, if_pos hf]
  obtain ⟨t2, H2, h1, h2, h3, h4, h5, h6, h7, h8, h9, h10, h11, h12, h13, h14, -⟩ :=
    copy_run g G.solution_size.toNat
      (State.setGen { s with sem_free := s.sem_free - 1 } g { G with pc := .copy, i := 0 })
      { G with pc := .copy, i := 0 } (lookup_setGen _ g G _ hG) rfl
      (by simp only [Nat.zero_add]; exact Int.toNat_of_nonneg hn)
  obtain ⟨t, H, k1, k2, k3, k4, k5, k6, k7, k8, k9, k10, k11⟩ :=
    finish_run t2 g H2 h2 h3 (by rw [h4, h6]; exact lt_irrefl _)
      (by rw [h10]; exact hq)
  refine ⟨t, H, ?_, k2, k3, k4.trans h7, ?_, ?_, ?_, ?_, ?_⟩
  · have hsplit : List.replicate (G.solution_size.toNat + 7) (Action.gen g SemResult.ok []) =
        Action.gen g SemResult.ok [] ::
          (List.replicate G.solution_size.toNat (Action.gen g SemResult.ok []) ++
            List.replicate 6 (Action.gen g SemResult.ok [])) := by
      rw [← List.replicate_add, ← List.replicate_succ]
    rw [hsplit, run_cons_some _ _ _ _ hstep, run_append, h1]
    exact k1
  · rw [k5, h8]; rfl
  · have hwr : t2.shm.wr = s.shm.wr := h8
    have hsz : H2.solution_size = G.solution_size := h6
    have e1 : t.shm.solution_size s.shm.wr = G.solution_size := by
      rw [k7, hwr, hsz]
      exact Function.update_same _ _ _
    have e2 : view (t.shm.queue s.shm.wr) G.solution_size =
        view G.solution G.solution_size := by
      rw [k6]
      apply view_congr
      intro j hj
      exact h14 j (Nat.zero_le _) hj
    simp only [Shared.slot, Gen.candidate, e1, e2]
  · rw [k9, h11]; rfl
  · rw [k10, h12]; rfl
  · rw [k11, h13]; rfl

/-- Once `quit` is set it stays set, whatever step is taken. -/
theorem quit_stays (s t : State) (a : Action) (h : step s a = some t) (hq : s.shm.quit ≠ 0) :
    t.shm.quit ≠ 0 := by
  cases a with
  | gen g r rands =>
    simp only [step] at h
    cases hG : s.gens[g]? with
    | none => rw [hG] at h; cases h
    | some G =>
      rw [hG] at h
      rw [(gen_step_frame s t g G r rands h).2.1]
      exact hq
  | signal =>
    simp only [step] at h
    cases h
    exact hq
  | sup r =>
    simp only [step] at h
    unfold sup_step at h
    cases hpc : s.sup.pc <;> cases r <;> simp only [hpc] at h <;>
      (try split_ifs at h) <;>
      first
      | (cases h; exact hq)
      | (cases h; simp [Shared.set_quit])
      | (cases h)

theorem fuel_set :
    ∀ (gens : List Gen) (g : Nat) (G H : Gen), gens[g]? = some G →
      fuel (gens.set g H) + steps_left G = fuel gens + steps_left H := by
  intro gens
  induction gens with
  | nil => intro g G H h; simp at h
  | cons x xs ih =>
    intro g G H h
    cases g with
    | zero =>
      simp at h
      subst h
      simp [fuel]
      omega
    | succ k =>
      simp at h
      have := ih k G H h
      simp [fuel] at this ⊢
      omega

/-- With `quit` set, every statement of a generator brings it nearer to its exit. -/
theorem fuel_trans (s t : State) (g : Nat) (G : Gen) (hG : s.gens[g]? = some G)
    (h : GenTrans s g G t) (hq : s.shm.quit ≠ 0) : fuel t.gens < fuel s.gens := by
  have hset := fun H => fuel_set s.gens g G H hG
  cases h with
  | discard rands hpc hq0 hd => exact absurd hq0 hq
  | generate rands hpc hq0 hd => exact absurd hq0 hq
  | copy_edge hpc hi =>
    have := hset { G with i := G.i + 1, pc := .copy }
    simp only [State.setGen, steps_left, hpc] at this ⊢
    omega
  | reserve hpc hf =>
    have := hset { G with pc := .copy, i := 0 }
    simp only [State.setGen, steps_left, hpc] at this ⊢
    omega
  | exit hpc _ =>
    have := hset { G with pc := .exited }
    simp only [State.setGen, steps_left, hpc] at this ⊢
    omega
  | lock hpc _ =>
    have := hset { G with pc := .wait_free }
    simp only [State.setGen, steps_left, hpc] at this ⊢
    omega
  | lock_eintr hpc =>
    have := hset { G with pc := .loop_top }
    simp only [State.setGen, steps_left, hpc] at this ⊢
    omega
  | reserve_eintr hpc =>
    have := hset { G with pc := .release_eintr }
    simp only [State.setGen, steps_left, hpc] at this ⊢
    omega
  | release hpc =>
    have := hset { G with pc := .loop_top }
    simp only [State.setGen, steps_left, hpc] at this ⊢
    omega
  | release_error hpc =>
    have := hset { G with pc := .exited, status := EXIT_FAILURE }
    simp only [State.setGen, steps_left, hpc] at this ⊢
    omega
  | copy_done hpc _ =>
    have := hset { G with pc := .set_size }
    simp only [State.setGen, steps_left, hpc] at this ⊢
    omega
  | set_size hpc =>
    have := hset { G with pc := .advance_wr }
    simp only [State.setGen, steps_left, hpc] at this ⊢
    omega
  | advance_wr hpc =>
    have := hset { G with pc := .post_mutex }
    simp only [State.setGen, steps_left, hpc] at this ⊢
    omega
  | post_mutex hpc =>
    have := hset { G with pc := .post_used }
    simp only [State.setGen, steps_left, hpc] at this ⊢
    omega
  | post_used hpc =>
    have := hset { G with pc := .loop_top }
    simp only [State.setGen, steps_left, hpc] at this ⊢
    omega

/-- After `quit` is set, the generators that may still wait on `free` never outnumber
the count of `free` plus the posts the broadcast still has to make. -/
theorem waiters_trans (s t : State) (h : Trans s t) (hq : s.shm.quit ≠ 0)
    (ha : after_quit s.sup.pc = true)
    (hw : count may_wait s.gens ≤ s.sem_free + wakeups_left s.sup) :
    count may_wait t.gens ≤ t.sem_free + wakeups_left t.sup ∧ after_quit t.sup.pc = true := by
  cases h with
  | gen g G hG hstep =>
    have hc := count_set_eq may_wait s.gens g G hG
    have hle := count_le may_wait s.gens g G hG
    cases hstep with
    | discard rands hpc hq0 hd => exact absurd hq0 hq
    | generate rands hpc hq0 hd => exact absurd hq0 hq
    | _ =>
      refine ⟨?_, ha⟩
      simp [State.setGen, hc, may_wait, *] at hle ⊢
      all_goals omega
  | sup hstep =>
    cases hstep <;> simp_all [after_quit, wakeups_left]
    all_goals omega

theorem exists_pos (w : GenPc → Nat) :
    ∀ (gens : List Gen), 0 < count w gens →
      ∃ (g : Nat) (G : Gen), gens[g]? = some G ∧ 0 < w G.pc := by
  intro gens
  induction gens with
  | nil => intro h; simp [count] at h
  | cons x xs ih =>
    intro h
    by_cases hx : 0 < w x.pc
    · exact ⟨0, x, by simp, hx⟩
    · have hxs : 0 < count w xs := by
        simp [count] at h ⊢
        omega
      obtain ⟨g, G, hG, hpos⟩ := ih hxs
      exact ⟨g + 1, G, by simpa using hG, hpos⟩

/-- A generator that has not exited can take its next statement unless it is blocked
in one of its two waits. -/
theorem enabled_of_pc (s : State) (g : Nat) (G : Gen) (hG : s.gens[g]? = some G)
    (hne : G.pc ≠ .exited) (hm : G.pc = .wait_mutex → 0 < s.sem_mutex)
    (hf : G.pc = .wait_free → 0 < s.sem_free) :
    (step s (Action.gen g SemResult.ok [])).isSome = true := by
  cases hpc : G.pc with
  | exited => exact absurd hpc hne
  | wait_mutex => simp [step, hG, gen_step, hpc, hm hpc]
  | wait_free => simp [step, hG, gen_step, hpc, hf hpc]
  | loop_top =>
    simp only [step, hG, gen_step, hpc]
    split_ifs <;> rfl
  | copy =>
    simp only [step, hG, gen_step, hpc]
    split_ifs <;> rfl
  | _ => simp [step, hG, gen_step, hpc]

/-- No deadlock among the generators: when the mutex invariant holds and `free`
covers the generators that may still wait on it, some generator can move unless
all have exited. -/
theorem progress (s : State) (hm : s.sem_mutex + count holds_mutex s.gens = 1)
    (hw : count may_wait s.gens ≤ s.sem_free) :
    all_exited s ∨ ∃ g, (step s (Action.gen g SemResult.ok [])).isSome = true := by
  by_cases hall : all_exited s
  · exact Or.inl hall
  · right
    unfold all_exited at hall
    push_neg at hall
    obtain ⟨G, hmem, hne⟩ := hall
    obtain ⟨g, hG⟩ := List.getElem?_of_mem hmem
    have free_of_wait : ∀ (k : Nat) (K : Gen), s.gens[k]? = some K → K.pc = .wait_free →
        0 < s.sem_free := by
      intro k K hK hpc
      have := count_le may_wait s.gens k K hK
      simp only [may_wait, hpc] at this
      omega
    by_cases hmx : G.pc = .wait_mutex ∧ s.sem_mutex = 0
    · have hpos : 0 < count holds_mutex s.gens := by omega
      obtain ⟨k, K, hK, hKpos⟩ := exists_pos holds_mutex s.gens hpos
      refine ⟨k, enabled_of_pc s k K hK ?_ ?_ (free_of_wait k K hK)⟩
      · intro hpc; simp [holds_mutex, hpc] at hKpos
      · intro hpc; simp [holds_mutex, hpc] at hKpos
    · refine ⟨g, enabled_of_pc s g G hG hne ?_ (free_of_wait g G hG)⟩
      intro hpc
      have : s.sem_mutex ≠ 0 := fun h0 => hmx ⟨hpc, h0⟩
      omega

theorem reachable_faulty (graphs : List (List Edge)) (s : State) (h : Reachable graphs s) :
    ReachableWithFaults graphs s := by
  induction h with
  | init => exact ReachableWithFaults.init
  | step s a t _ _ hstep ih => exact ReachableWithFaults.step s a t ih hstep

/-- The invariant of the shutdown phase is kept along every fault-free schedule. -/
theorem waiters_run :
    ∀ (acts : List Action) (s t : State), (∀ a ∈ acts, a.faultFree = true) →
      run s acts = some t → s.shm.quit ≠ 0 → after_quit s.sup.pc = true →
      count may_wait s.gens ≤ s.sem_free + wakeups_left s.sup →
      t.shm.quit ≠ 0 ∧ after_quit t.sup.pc = true ∧
      count may_wait t.gens ≤ t.sem_free + wakeups_left t.sup := by
  intro acts
  induction acts with
  | nil =>
    intro s t _ hrun hq ha hw
    simp only [run, Option.some.injEq] at hrun
    subst hrun
    exact ⟨hq, ha, hw⟩
  | cons a rest ih =>
    intro s t hf hrun hq ha hw
    simp only [run] at hrun
    cases hstep : step s a with
    | none => rw [hstep] at hrun; cases hrun
    | some u =>
      rw [hstep] at hrun
      have htr := step_trans s u a hstep (hf a (List.mem_cons_self _ _))
      obtain ⟨hw2, ha2⟩ := waiters_trans s u htr hq ha hw
      exact ih u t (fun b hb => hf b (List.mem_cons_of_mem _ hb)) hrun
        (quit_stays s u a hstep hq) ha2 hw2

theorem count_le_length (w : GenPc → Nat) (hw : ∀ pc, w pc ≤ 1) (gens : List Gen) :
    count w gens ≤ gens.length := by
  induction gens with
  | nil => simp [count]
  | cons x xs ih =>
    have := hw x.pc
    simp [count] at ih ⊢
    omega

/-- After the broadcast, with `quit` set, the generators can always be run to their
exit: a schedule of generator statements exists after which all have exited. -/
theorem drain (n : Nat) :
    ∀ (s : State), fuel s.gens ≤ n → s.shm.quit ≠ 0 → after_quit s.sup.pc = true →
      wakeups_left s.sup = 0 → s.sem_mutex + count holds_mutex s.gens = 1 →
      count may_wait s.gens ≤ s.sem_free →
      ∃ (sched : List Action) (t : State), (∀ a ∈ sched, a.faultFree = true) ∧
        run s sched = some t ∧ all_exited t := by
  induction n with
  | zero =>
    intro s hn hq ha hl hm hw
    rcases progress s hm hw with hall | ⟨g, hg⟩
    · exact ⟨[], s, by simp, rfl, hall⟩
    · cases hstep : step s (Action.gen g SemResult.ok []) with
      | none => rw [hstep] at hg; cases hg
      | some u =>
        cases step_trans s u _ hstep rfl with
        | gen k K hK hgen =>
          have := fuel_trans s u k K hK hgen hq
          omega
        | sup hsup =>
          exfalso
          simp only [step] at hstep
          cases hG : s.gens[g]? with
          | none => rw [hG] at hstep; cases hstep
          | some G =>
            rw [hG] at hstep
            have hgt := gen_step_trans s u g G SemResult.ok [] hstep (by decide)
            have := fuel_trans s u g G hG hgt hq
            omega
  | succ n ih =>
    intro s hn hq ha hl hm hw
    rcases progress s hm hw with hall | ⟨g, hg⟩
    · exact ⟨[], s, by simp, rfl, hall⟩
    · cases hstep : step s (Action.gen g SemResult.ok []) with
      | none => rw [hstep] at hg; cases hg
      | some u =>
        have htr := step_trans s u _ hstep rfl
        have hstep2 := hstep
        simp only [step] at hstep2
        cases hG : s.gens[g]? with
        | none => rw [hG] at hstep2; cases hstep2
        | some G =>
          rw [hG] at hstep2
          have hgt := gen_step_trans s u g G SemResult.ok [] hstep2 (by decide)
          have hfuel := fuel_trans s u g G hG hgt hq
          have hsup := (gen_step_frame s u g G SemResult.ok [] hstep2).1
          obtain ⟨hw2, ha2⟩ := waiters_trans s u htr hq ha (by omega)
          have hl2 : wakeups_left u.sup = 0 := by rw [hsup]; exact hl
          obtain ⟨sched, t, hff, hrun, hall⟩ :=
            ih u (by omega) (quit_stays s u _ hstep hq) ha2 hl2 (mutex_trans s u htr hm)
              (by omega)
          refine ⟨Action.gen g SemResult.ok [] :: sched, t, ?_, ?_, hall⟩
          · intro a hmem
            rcases List.mem_cons.mp hmem with rfl | hmem
            · rfl
            · exact hff a hmem
          · rw [run_cons_some _ _ _ _ hstep]
            exact hrun

/-- Even when semaphore calls fail, the count of `mutex` plus the number of
generators inside the critical section never exceeds 1. -/
theorem mutex_faulty (graphs : List (List Edge)) (s : State)
    (h : ReachableWithFaults graphs s) : s.sem_mutex + count holds_mutex s.gens ≤ 1 := by
  induction h with
  | init =>
    have : count holds_mutex (graphs.map Gen.start) = 0 := by
      apply count_zero
      intro G hG
      simp at hG
      obtain ⟨es, _, rfl⟩ := hG
      rfl
    simp [State.init, this]
  | step s a t _ hstep ih =>
    cases a with
    | gen g r rands =>
      simp only [step] at hstep
      cases hG : s.gens[g]? with
      | none => rw [hG] at hstep; cases hstep
      | some G =>
        rw [hG] at hstep
        have hc := count_set_eq holds_mutex s.gens g G hG
        have hle := count_le holds_mutex s.gens g G hG
        unfold gen_step at hstep
        cases hpc : G.pc <;> cases r <;> simp only [hpc] at hstep <;>
          (try split_ifs at hstep) <;>
          first
          | (cases hstep
             simp [State.setGen, hc, holds_mutex, hpc] at hle ⊢
             all_goals omega)
          | (cases hstep)
    | signal =>
      simp only [step] at hstep
      cases hstep
      exact ih
    | sup r =>
      simp only [step] at hstep
      unfold sup_step at hstep
      cases hpc : s.sup.pc <;> cases r <;> simp only [hpc] at hstep <;>
        (try split_ifs at hstep) <;>
        first
        | (cases hstep; exact ih)
        | (cases hstep)

/-! ## C1: the used count and the distance of the cursors -/

/-- C1, as stated, fails on a full queue. One generator (graph 0-1) publishes
`MAX_QUEUE_SIZE` candidates while the supervisor has not yet run: the state is
reachable, shutdown has not begun, nothing is in progress, `used = 32` and
`wr = rd = 0`, so `used` differs from `(wr - rd) mod 32 = 0`. -/
theorem C1_full_queue_counterexample :
    Reachable [[⟨0, 1⟩]] (final [[⟨0, 1⟩]] fill_schedule) ∧
    run (State.init [[⟨0, 1⟩]]) fill_schedule = some (final [[⟨0, 1⟩]] fill_schedule) ∧
    in_loop (final [[⟨0, 1⟩]] fill_schedule).sup.pc = true ∧
    quiescent (final [[⟨0, 1⟩]] fill_schedule) ∧
    (final [[⟨0, 1⟩]] fill_schedule).sem_used = 32 ∧
    (final [[⟨0, 1⟩]] fill_schedule).shm.wr = 0 ∧
    (final [[⟨0, 1⟩]] fill_schedule).shm.rd = 0 ∧
    ((final [[⟨0, 1⟩]] fill_schedule).sem_used : Int) ≠
      (((final [[⟨0, 1⟩]] fill_schedule).shm.wr : Int) -
        ((final [[⟨0, 1⟩]] fill_schedule).shm.rd : Int)) % (MAX_QUEUE_SIZE : Int) := by
  have hsome : (run (State.init [[⟨0, 1⟩]]) fill_schedule).isSome = true := by decide
  have hu : (final [[⟨0, 1⟩]] fill_schedule).sem_used = 32 := by decide
  have hw : (final [[⟨0, 1⟩]] fill_schedule).shm.wr = 0 := by decide
  have hr : (final [[⟨0, 1⟩]] fill_schedule).shm.rd = 0 := by decide
  refine ⟨reachable_final _ _ (by decide), ?_, by decide, by decide, hu, hw, hr, ?_⟩
  · unfold final
    cases h : run (State.init [[⟨0, 1⟩]]) fill_schedule with
    | none => rw [h] at hsome; cases hsome
    | some t => rfl
  · rw [hu, hw, hr]
    decide

/-- C1, amended. In every state reachable before shutdown in which no publish or
consume is in progress, `used ≤ MAX_QUEUE_SIZE` and `used` is congruent to `wr - rd`
modulo `MAX_QUEUE_SIZE`: `used = (wr - rd) mod MAX_QUEUE_SIZE` whenever the queue is
not full, and `wr = rd` when it is full (`used = MAX_QUEUE_SIZE`). -/
theorem C1_used_congruent_cursor_distance (graphs : List (List Edge)) (s : State)
    (h : Reachable graphs s) (hl : in_loop s.sup.pc = true) (hq : quiescent s) :
    s.sem_used ≤ MAX_QUEUE_SIZE ∧
    (s.sem_used : Int) % (MAX_QUEUE_SIZE : Int) =
      ((s.shm.wr : Int) - (s.shm.rd : Int)) % (MAX_QUEUE_SIZE : Int) ∧
    (s.sem_used < MAX_QUEUE_SIZE →
      (s.sem_used : Int) = ((s.shm.wr : Int) - (s.shm.rd : Int)) % (MAX_QUEUE_SIZE : Int)) ∧
    (s.sem_used = MAX_QUEUE_SIZE → s.shm.wr = s.shm.rd) := by
  have hr := reachable_ring graphs s h hl
  have h1 := hr.slots
  have h2 := hr.rd_lt
  have h3 := hr.cursor
  have hw : count in_write s.gens = 0 := count_zero _ _ (fun G hG => (hq.1 G hG).1)
  have hf : count in_flight s.gens = 0 := count_zero _ _ (fun G hG => (hq.1 G hG).2)
  simp only [unread, hw, hf, hq.2.1, hq.2.2, MAX_QUEUE_SIZE, Nat.add_zero] at h1 h2 h3
  simp only [MAX_QUEUE_SIZE, Nat.cast_ofNat]
  refine ⟨by omega, by omega, fun _ => by omega, fun _ => by omega⟩

/-- C1, amended, at a state with one published and unconsumed candidate. -/
theorem C1_used_congruent_cursor_distance_witness :
    Reachable [[⟨0, 1⟩]] (final [[⟨0, 1⟩]] (publish_schedule 0 [0, 0] 1)) ∧
    in_loop (final [[⟨0, 1⟩]] (publish_schedule 0 [0, 0] 1)).sup.pc = true ∧
    quiescent (final [[⟨0, 1⟩]] (publish_schedule 0 [0, 0] 1)) ∧
    (final [[⟨0, 1⟩]] (publish_schedule 0 [0, 0] 1)).sem_used = 1 ∧
    ((final [[⟨0, 1⟩]] (publish_schedule 0 [0, 0] 1)).sem_used : Int) =
      (((final [[⟨0, 1⟩]] (publish_schedule 0 [0, 0] 1)).shm.wr : Int) -
        ((final [[⟨0, 1⟩]] (publish_schedule 0 [0, 0] 1)).shm.rd : Int)) % (MAX_QUEUE_SIZE : Int) :=
  ⟨reachable_final _ _ (by decide), by decide, by decide, by decide,
    (C1_used_congruent_cursor_distance [[⟨0, 1⟩]] (final [[⟨0, 1⟩]] (publish_schedule 0 [0, 0] 1))
      (reachable_final _ _ (by decide)) (by decide) (by decide)).2.2.1 (by decide)⟩

/-! ## C2: first in, first out -/

/-- C2. In every reachable state the sequence of candidates the supervisor has read
(size and first `size` edges of slot `rd` at each read) is an initial segment of the
sequence of candidates the generators have published (in the order in which `wr`
was advanced): the k-th candidate read is the k-th candidate published. -/
theorem C2_consumed_initial_segment_of_published (graphs : List (List Edge)) (s : State)
    (h : Reachable graphs s) :
    s.consumed <+: s.published.map Prod.snd ∧
    ∀ (k : Nat) (c : Candidate), s.consumed[k]? = some c → (s.published.map Prod.snd)[k]? = some c := by
  have hp := reachable_fifo graphs s h
  refine ⟨hp, ?_⟩
  intro k c hk
  obtain ⟨rest, hrest⟩ := hp
  rw [← hrest]
  have hlt : k < s.consumed.length := (List.getElem?_eq_some_iff.mp hk).1
  rw [List.getElem?_append_left hlt]
  exact hk

/-- C2 at the state after one publish (a candidate of one edge) and one consume. -/
theorem C2_consumed_initial_segment_of_published_witness :
    Reachable [[⟨0, 1⟩]] (final [[⟨0, 1⟩]] (publish_schedule 0 [0, 0] 1 ++ consume_schedule)) ∧
    (final [[⟨0, 1⟩]] (publish_schedule 0 [0, 0] 1 ++ consume_schedule)).consumed =
      [{ size := 1, edges := [⟨0, 1⟩] }] ∧
    (final [[⟨0, 1⟩]] (publish_schedule 0 [0, 0] 1 ++ consume_schedule)).consumed <+:
      (final [[⟨0, 1⟩]] (publish_schedule 0 [0, 0] 1 ++ consume_schedule)).published.map Prod.snd :=
  ⟨reachable_final _ _ (by decide), by decide,
    (C2_consumed_initial_segment_of_published [[⟨0, 1⟩]]
      (final [[⟨0, 1⟩]] (publish_schedule 0 [0, 0] 1 ++ consume_schedule))
      (reachable_final _ _ (by decide))).1⟩

/-! ## C3: what a generator parked on `free` does after the shutdown broadcast -/

/-- C3, as stated, fails. One generator (graph 0-1) fills the queue and is parked in
the wait on `free` with `free = 0` and `quit` clear; the supervisor then sets `quit`
and completes its broadcast. The generator is still in the wait; its next five
statements, all taken with `quit = 1`, write `queue[0][0]`, `solution_size[0]` and `wr`. -/
theorem C3_woken_generator_writes_counterexample :
    Reachable [[⟨0, 1⟩]] (final [[⟨0, 1⟩]] (parked_schedule ++ stop_schedule ++ woken_schedule)) ∧
    ((final [[⟨0, 1⟩]] parked_schedule).gens[0]?.map Gen.pc = some GenPc.wait_free ∧
      (final [[⟨0, 1⟩]] parked_schedule).sem_free = 0 ∧
      (final [[⟨0, 1⟩]] parked_schedule).shm.quit = 0) ∧
    run (final [[⟨0, 1⟩]] parked_schedule) stop_schedule =
      some (final [[⟨0, 1⟩]] (parked_schedule ++ stop_schedule)) ∧
    ((final [[⟨0, 1⟩]] (parked_schedule ++ stop_schedule)).shm.quit = 1 ∧
      (final [[⟨0, 1⟩]] (parked_schedule ++ stop_schedule)).sup.pc = SupPc.destroy ∧
      (final [[⟨0, 1⟩]] (parked_schedule ++ stop_schedule)).gens[0]?.map Gen.pc =
        some GenPc.wait_free) ∧
    run (final [[⟨0, 1⟩]] (parked_schedule ++ stop_schedule)) woken_schedule =
      some (final [[⟨0, 1⟩]] (parked_schedule ++ stop_schedule ++ woken_schedule)) ∧
    ((final [[⟨0, 1⟩]] (parked_schedule ++ stop_schedule)).shm.wr = 0 ∧
      (final [[⟨0, 1⟩]] (parked_schedule ++ stop_schedule ++ woken_schedule)).shm.wr = 1) ∧
    ((final [[⟨0, 1⟩]] (parked_schedule ++ stop_schedule)).shm.solution_size 0 = 0 ∧
      (final [[⟨0, 1⟩]] (parked_schedule ++ stop_schedule ++ woken_schedule)).shm.solution_size 0 = 1) ∧
    ((final [[⟨0, 1⟩]] (parked_schedule ++ stop_schedule)).shm.queue 0 0 = ⟨0, 0⟩ ∧
      (final [[⟨0, 1⟩]] (parked_schedule ++ stop_schedule ++ woken_schedule)).shm.queue 0 0 = ⟨0, 1⟩) :=
  ⟨reachable_final _ _ (by decide), ⟨by decide, by decide, by decide⟩,
    final_append _ _ _ (by decide), ⟨by decide, by decide, by decide⟩,
    final_append _ _ _ (by decide), ⟨by decide, by decide⟩, ⟨by decide, by decide⟩,
    ⟨by decide, by decide⟩⟩

/-- C3, amended. In every reachable state in which `quit` is set: `quit` stays set
after every step; a generator at its loop top leaves the loop with its next
statement, which changes neither the region nor a semaphore nor the history; and a
generator in the wait on `free`, once `free` is positive (as after a post of the
broadcast), run alone wakes, completes the publish it was parked in (it copies its
candidate into slot `wr` and advances `wr`, then posts `mutex` and `used`) and
leaves the loop at the next loop-top test with its status unchanged. -/
theorem C3_woken_generator_publishes_then_exits (graphs : List (List Edge)) (s : State)
    (g : Nat) (G : Gen) (h : Reachable graphs s) (hG : s.gens[g]? = some G)
    (hq : s.shm.quit ≠ 0) :
    (∀ (a : Action) (t : State), step s a = some t → t.shm.quit ≠ 0) ∧
    (G.pc = .loop_top → ∀ (r : SemResult) (rands : List Nat),
      ∃ t, step s (Action.gen g r rands) = some t ∧
        t.gens[g]? = some { G with pc := .exited } ∧ t.shm = s.shm ∧
        t.sem_mutex = s.sem_mutex ∧ t.sem_free = s.sem_free ∧ t.sem_used = s.sem_used ∧
        t.published = s.published) ∧
    (G.pc = .wait_free → 0 < s.sem_free →
      ∃ (t : State) (H : Gen),
        run s (List.replicate (G.solution_size.toNat + 7) (Action.gen g SemResult.ok [])) =
          some t ∧
        t.gens[g]? = some H ∧ H.pc = .exited ∧ H.status = G.status ∧
        t.shm.wr = (s.shm.wr + 1) % MAX_QUEUE_SIZE ∧ t.shm.slot s.shm.wr = G.candidate ∧
        t.sem_mutex = s.sem_mutex + 1 ∧ t.sem_free = s.sem_free - 1 ∧
        t.sem_used = s.sem_used + 1) := by
  refine ⟨fun a t hstep => quit_stays s t a hstep hq, ?_, ?_⟩
  · intro hpc r rands
    refine ⟨State.setGen s g { G with pc := .exited }, ?_, lookup_setGen s g G _ hG,
      rfl, rfl, rfl, rfl, rfl⟩
    simp only [step, hG, gen_step, hpc, if_pos hq]
  · intro hpc hf
    have hn := ((reachable_safe graphs s h).local_sizes g G hG (by simp [has_candidate, hpc])).1
    exact wake_run s g G hG hpc hf hn hq

/-- C3, amended, at the state of the counterexample after the broadcast: the parked
generator, run alone for eight statements, has exited and `wr` has moved from 0 to 1. -/
theorem C3_woken_generator_publishes_then_exits_witness :
    Reachable [[⟨0, 1⟩]] (final [[⟨0, 1⟩]] (parked_schedule ++ stop_schedule)) ∧
    (final [[⟨0, 1⟩]] (parked_schedule ++ stop_schedule)).shm.quit ≠ 0 ∧
    ∃ (G : Gen) (t : State) (H : Gen),
      (final [[⟨0, 1⟩]] (parked_schedule ++ stop_schedule)).gens[0]? = some G ∧
      run (final [[⟨0, 1⟩]] (parked_schedule ++ stop_schedule))
        (List.replicate (G.solution_size.toNat + 7) (Action.gen 0 SemResult.ok [])) = some t ∧
      t.gens[0]? = some H ∧ H.pc = .exited ∧
      t.shm.wr = ((final [[⟨0, 1⟩]] (parked_schedule ++ stop_schedule)).shm.wr + 1) %
        MAX_QUEUE_SIZE := by
  have hr : Reachable [[⟨0, 1⟩]] (final [[⟨0, 1⟩]] (parked_schedule ++ stop_schedule)) :=
    reachable_final _ _ (by decide)
  have hq : (final [[⟨0, 1⟩]] (parked_schedule ++ stop_schedule)).shm.quit ≠ 0 := by decide
  cases hG : (final [[⟨0, 1⟩]] (parked_schedule ++ stop_schedule)).gens[0]? with
  | none =>
    have : ((final [[⟨0, 1⟩]] (parked_schedule ++ stop_schedule)).gens[0]?).isSome = true := by
      decide
    rw [hG] at this
    cases this
  | some G =>
    have hpc : G.pc = .wait_free := by
      have : (final [[⟨0, 1⟩]] (parked_schedule ++ stop_schedule)).gens[0]?.map Gen.pc =
          some GenPc.wait_free := by decide
      rw [hG] at this
      simpa using this
    obtain ⟨t, H, h1, h2, h3, -, h5, -⟩ :=
      (C3_woken_generator_publishes_then_exits [[⟨0, 1⟩]] _ 0 G hr hG hq).2.2 hpc (by decide)
    exact ⟨hr, hq, G, t, H, rfl, h1, h2, h3, h5⟩

/-! ## C4: mutual exclusion -/

/-- C4. For any number of generators, in every state reachable even with failing
semaphore calls, the count of `mutex` is 0 or 1, at most one generator is between
its successful wait on `mutex` and its post of `mutex`, and no two generators are at
the same time at a program point where they hold the mutex, in particular where
they write a slot or change `wr`. In every state reachable without such failures the
count of `mutex` equals 1 minus the number of generators holding it. -/
theorem C4_mutual_exclusion (graphs : List (List Edge)) (s : State)
    (h : ReachableWithFaults graphs s) :
    s.sem_mutex ≤ 1 ∧
    count holds_mutex s.gens ≤ 1 ∧
    (∀ (g k : Nat) (G K : Gen), g ≠ k → s.gens[g]? = some G → s.gens[k]? = some K →
      ¬ (holds_mutex G.pc = 1 ∧ holds_mutex K.pc = 1)) ∧
    (∀ (g k : Nat) (G K : Gen), g ≠ k → s.gens[g]? = some G → s.gens[k]? = some K →
      ¬ (in_write G.pc = 1 ∧ in_write K.pc = 1)) ∧
    (Reachable graphs s → s.sem_mutex + count holds_mutex s.gens = 1) := by
  have hm := mutex_faulty graphs s h
  refine ⟨by omega, by omega, ?_, ?_, fun hr => (reachable_safe graphs s hr).mutex⟩
  · intro g k G K hne hG hK hboth
    have := count_two holds_mutex s.gens g k G K hne hG hK
    omega
  · intro g k G K hne hG hK hboth
    have := count_two holds_mutex s.gens g k G K hne hG hK
    have h1 : holds_mutex G.pc = 1 := by
      cases hpc : G.pc <;> simp [in_write, holds_mutex, hpc] at hboth ⊢
    have h2 : holds_mutex K.pc = 1 := by
      cases hpc : K.pc <;> simp [in_write, holds_mutex, hpc] at hboth ⊢
    omega

/-- C4 with two generators: generator 0 has passed both waits and is in the copy
loop, generator 1 has built its candidate and stands before the wait on `mutex`. -/
theorem C4_mutual_exclusion_witness :
    ReachableWithFaults [[⟨0, 1⟩], [⟨0, 1⟩]]
      (final [[⟨0, 1⟩], [⟨0, 1⟩]]
        (List.replicate 3 (Action.gen 0 SemResult.ok [0, 0]) ++ [Action.gen 1 SemResult.ok [1, 1]])) ∧
    (final [[⟨0, 1⟩], [⟨0, 1⟩]]
        (List.replicate 3 (Action.gen 0 SemResult.ok [0, 0]) ++
          [Action.gen 1 SemResult.ok [1, 1]])).sem_mutex = 0 ∧
    (final [[⟨0, 1⟩], [⟨0, 1⟩]]
        (List.replicate 3 (Action.gen 0 SemResult.ok [0, 0]) ++
          [Action.gen 1 SemResult.ok [1, 1]])).sem_mutex +
      count holds_mutex (final [[⟨0, 1⟩], [⟨0, 1⟩]]
        (List.replicate 3 (Action.gen 0 SemResult.ok [0, 0]) ++
          [Action.gen 1 SemResult.ok [1, 1]])).gens = 1 :=
  ⟨faulty_final _ _, by decide,
    (C4_mutual_exclusion [[⟨0, 1⟩], [⟨0, 1⟩]]
      (final [[⟨0, 1⟩], [⟨0, 1⟩]]
        (List.replicate 3 (Action.gen 0 SemResult.ok [0, 0]) ++ [Action.gen 1 SemResult.ok [1, 1]]))
      (faulty_final _ _)).2.2.2.2 (reachable_final _ _ (by decide))⟩

/-! ## C5: the bound on the stored sizes -/

/-- C5. In every reachable state every entry of `solution_size` in the shared region
lies in `[0, MAX_BAD_EDGES]`; so does every size the supervisor has read, and the
value the supervisor stores in its local `size` when it reads slot `rd`. -/
theorem C5_sizes_bounded (graphs : List (List Edge)) (s : State) (h : Reachable graphs s) :
    (∀ k, 0 ≤ s.shm.solution_size k ∧ s.shm.solution_size k ≤ (MAX_BAD_EDGES : Int)) ∧
    (∀ c ∈ s.consumed, 0 ≤ c.size ∧ c.size ≤ (MAX_BAD_EDGES : Int)) ∧
    (∀ (r : SemResult) (t : State), s.sup.pc = .read → step s (Action.sup r) = some t →
      t.sup.size = s.shm.solution_size s.shm.rd ∧
      0 ≤ t.sup.size ∧ t.sup.size ≤ (MAX_BAD_EDGES : Int)) := by
  have hs := reachable_safe graphs s h
  refine ⟨hs.sizes, hs.consumed_sizes, ?_⟩
  intro r t hpc hstep
  have hsz := hs.sizes s.shm.rd
  simp only [step, sup_step, hpc] at hstep
  split_ifs at hstep <;> cases hstep <;> exact ⟨rfl, hsz⟩

/-- C5 at the state after one generator published a candidate of one edge. -/
theorem C5_sizes_bounded_witness :
    Reachable [[⟨0, 1⟩]] (final [[⟨0, 1⟩]] (publish_schedule 0 [0, 0] 1)) ∧
    (final [[⟨0, 1⟩]] (publish_schedule 0 [0, 0] 1)).shm.solution_size 0 = 1 ∧
    (0 ≤ (final [[⟨0, 1⟩]] (publish_schedule 0 [0, 0] 1)).shm.solution_size 0 ∧
      (final [[⟨0, 1⟩]] (publish_schedule 0 [0, 0] 1)).shm.solution_size 0 ≤
        (MAX_BAD_EDGES : Int)) :=
  ⟨reachable_final _ _ (by decide), by decide,
    (C5_sizes_bounded [[⟨0, 1⟩]] (final [[⟨0, 1⟩]] (publish_schedule 0 [0, 0] 1))
      (reachable_final _ _ (by decide))).1 0⟩

/-! ## C6: the shutdown broadcast -/

/-- C6. With semaphore failures allowed: every step by which the supervisor leaves
its main loop (size 0 read, signal flag seen, failed wait or post) leads to the
statement that sets `quit`. From there the supervisor sets `quit` and then posts
`free` once per iteration of a loop of exactly `MAX_QUEUE_SIZE` iterations, whatever
the state of the queue: after `k + 1` of its statements it has posted `k` times, and
after `MAX_QUEUE_SIZE + 2` it stands before the destruction of the semaphores and of
the region with `free` raised by `MAX_QUEUE_SIZE`. In every reachable state in which
it is at or past that destruction, `quit` is set and the loop has run
`MAX_QUEUE_SIZE` times. -/
theorem C6_quit_then_broadcast (graphs : List (List Edge)) (s : State)
    (h : ReachableWithFaults graphs s) :
    (∀ (a : Action) (t : State), step s a = some t → in_loop s.sup.pc = true →
      in_loop t.sup.pc = false → t.sup.pc = .set_quit) ∧
    (s.sup.pc = .set_quit → ∀ k, k ≤ MAX_QUEUE_SIZE →
      ∃ t, run s (List.replicate (k + 1) (Action.sup SemResult.ok)) = some t ∧
        t.sup.pc = .broadcast ∧ t.sup.i = k ∧ t.shm.quit = 1 ∧ t.sem_free = s.sem_free + k) ∧
    (s.sup.pc = .set_quit →
      ∃ t, run s (List.replicate (MAX_QUEUE_SIZE + 2) (Action.sup SemResult.ok)) = some t ∧
        t.sup.pc = .destroy ∧ t.sup.i = MAX_QUEUE_SIZE ∧ t.shm.quit = 1 ∧
        t.sem_free = s.sem_free + MAX_QUEUE_SIZE) ∧
    (s.sup.pc = .broadcast → s.shm.quit = 1 ∧ s.sup.i ≤ MAX_QUEUE_SIZE) ∧
    ((s.sup.pc = .destroy ∨ s.sup.pc = .exited) →
      s.shm.quit = 1 ∧ s.sup.i = MAX_QUEUE_SIZE) := by
  have hinv := cleanup_progress graphs s h
  refine ⟨?_, ?_, ?_, hinv.1, hinv.2⟩
  · intro a t hstep hl hl2
    cases a with
    | gen g r rands =>
      simp only [step] at hstep
      cases hG : s.gens[g]? with
      | none => rw [hG] at hstep; cases hstep
      | some G =>
        rw [hG] at hstep
        rw [(gen_step_frame s t g G r rands hstep).1, hl] at hl2
        cases hl2
    | signal =>
      simp only [step] at hstep
      cases hstep
      rw [hl] at hl2
      cases hl2
    | sup r =>
      simp only [step] at hstep
      unfold sup_step at hstep
      cases hpc : s.sup.pc <;> cases r <;> simp only [hpc] at hstep <;>
        (try split_ifs at hstep) <;>
        first
        | (cases hstep; simp [in_loop, hpc] at hl hl2 ⊢)
        | (cases hstep)
  · intro hpc k hk
    obtain ⟨t, h1, h2, h3, h4, h5, -⟩ := broadcast_steps s hpc k hk
    exact ⟨t, h1, h2, h3, h4, h5⟩
  · intro hpc
    obtain ⟨t, h1, h2, h3, h4, h5, -⟩ := broadcast_steps s hpc MAX_QUEUE_SIZE (Nat.le_refl _)
    refine ⟨{ t with sup := { t.sup with pc := .destroy } }, ?_, rfl, h3, h4, h5⟩
    rw [List.replicate_succ', run_append, h1]
    simp [run, step, sup_step, h2, h3]

/-- C6 on the path of a semaphore failure: the supervisor's wait on `used` fails
with an error other than EINTR; from there its next 34 statements set `quit`, post
`free` 32 times and reach the destruction of the semaphores. -/
theorem C6_quit_then_broadcast_witness :
    ReachableWithFaults [[⟨0, 1⟩]]
      (final [[⟨0, 1⟩]] [Action.sup SemResult.ok, Action.sup SemResult.fail]) ∧
    (final [[⟨0, 1⟩]] [Action.sup SemResult.ok, Action.sup SemResult.fail]).sup.pc =
      SupPc.set_quit ∧
    (final [[⟨0, 1⟩]] [Action.sup SemResult.ok, Action.sup SemResult.fail]).shm.quit = 0 ∧
    ∃ t, run (final [[⟨0, 1⟩]] [Action.sup SemResult.ok, Action.sup SemResult.fail])
        (List.replicate (MAX_QUEUE_SIZE + 2) (Action.sup SemResult.ok)) = some t ∧
      t.sup.pc = SupPc.destroy ∧ t.sup.i = MAX_QUEUE_SIZE ∧ t.shm.quit = 1 ∧
      t.sem_free =
        (final [[⟨0, 1⟩]] [Action.sup SemResult.ok, Action.sup SemResult.fail]).sem_free +
          MAX_QUEUE_SIZE :=
  ⟨faulty_final _ _, by decide, by decide,
    (C6_quit_then_broadcast [[⟨0, 1⟩]]
      (final [[⟨0, 1⟩]] [Action.sup SemResult.ok, Action.sup SemResult.fail])
      (faulty_final _ _)).2.2.1 (by decide)⟩

/-! ## C7: the broadcast wakes every generator when they are few enough -/

/-- C7. Let `s1` be a reachable state at the moment `quit` has been set (the
supervisor enters its broadcast loop with `i = 0`) and let the number of generators
be at most `MAX_QUEUE_SIZE` plus the count of `free` in `s1`. Then in every state
`s` reached from `s1` the generators that can still wait on `free` before they test
`quit` are at most `free` plus the posts the broadcast still has to make, and every
generator statement decreases the bound `fuel` on the statements left. Once the
broadcast is complete, `free` is at least the number of those generators, some
generator can move unless all have exited, and a schedule exists after which every
generator has exited. -/
theorem C7_broadcast_releases_every_generator (graphs : List (List Edge)) (s1 s : State)
    (acts : List Action) (h1 : Reachable graphs s1) (hpc : s1.sup.pc = .broadcast)
    (hi : s1.sup.i = 0) (hk : s1.gens.length ≤ MAX_QUEUE_SIZE + s1.sem_free)
    (hf : ∀ a ∈ acts, a.faultFree = true) (hrun : run s1 acts = some s) :
    count may_wait s.gens ≤ s.sem_free + wakeups_left s.sup ∧
    (∀ (g : Nat) (r : SemResult) (rands : List Nat) (t : State), r ≠ SemResult.fail →
      step s (Action.gen g r rands) = some t → fuel t.gens < fuel s.gens) ∧
    (s.sup.pc = .destroy ∨ s.sup.pc = .exited →
      count may_wait s.gens ≤ s.sem_free ∧
      (all_exited s ∨ ∃ g, (step s (Action.gen g SemResult.ok [])).isSome = true) ∧
      ∃ (sched : List Action) (t : State), (∀ a ∈ sched, a.faultFree = true) ∧
        run s sched = some t ∧ all_exited t) := by
  have hq1 : s1.shm.quit ≠ 0 := by
    have := ((cleanup_progress graphs s1 (reachable_faulty graphs s1 h1)).1 hpc).1
    omega
  have ha1 : after_quit s1.sup.pc = true := by simp [after_quit, hpc]
  have hw1 : count may_wait s1.gens ≤ s1.sem_free + wakeups_left s1.sup := by
    have hlen := count_le_length may_wait
      (fun pc => by cases pc <;> simp [may_wait]) s1.gens
    simp only [wakeups_left, hpc, hi]
    omega
  obtain ⟨hq, ha, hw⟩ := waiters_run acts s1 s hf hrun hq1 ha1 hw1
  have hm := (reachable_safe graphs s (reachable_run graphs acts s1 s h1 hf hrun)).mutex
  refine ⟨hw, ?_, ?_⟩
  · intro g r rands t hr hstep
    simp only [step] at hstep
    cases hG : s.gens[g]? with
    | none => rw [hG] at hstep; cases hstep
    | some G =>
      rw [hG] at hstep
      exact fuel_trans s t g G hG (gen_step_trans s t g G r rands hstep hr) hq
  · intro hdone
    have hl : wakeups_left s.sup = 0 := by
      rcases hdone with hd | hd <;> simp [wakeups_left, hd]
    have hw2 : count may_wait s.gens ≤ s.sem_free := by omega
    exact ⟨hw2, progress s hm hw2, drain (fuel s.gens) s (Nat.le_refl _) hq ha hl hm hw2⟩

/-- C7 with three generators on the graph 0-1 and an empty queue: one generator is
in its copy loop and one before the wait on `mutex` when the supervisor, on a
signal, sets `quit`; after the 32 posts of the broadcast the generators that can
still wait are covered by `free` and all three can be run to their exit. -/
theorem C7_broadcast_releases_every_generator_witness :
    Reachable [[⟨0, 1⟩], [⟨0, 1⟩], [⟨0, 1⟩]]
      (final [[⟨0, 1⟩], [⟨0, 1⟩], [⟨0, 1⟩]] early_stop_schedule) ∧
    (final [[⟨0, 1⟩], [⟨0, 1⟩], [⟨0, 1⟩]] early_stop_schedule).sup.pc = SupPc.broadcast ∧
    (final [[⟨0, 1⟩], [⟨0, 1⟩], [⟨0, 1⟩]] early_stop_schedule).sem_free = 31 ∧
    (final [[⟨0, 1⟩], [⟨0, 1⟩], [⟨0, 1⟩]]
      (early_stop_schedule ++ List.replicate 33 (Action.sup SemResult.ok))).sup.pc =
        SupPc.destroy ∧
    count may_wait (final [[⟨0, 1⟩], [⟨0, 1⟩], [⟨0, 1⟩]]
      (early_stop_schedule ++ List.replicate 33 (Action.sup SemResult.ok))).gens ≤
      (final [[⟨0, 1⟩], [⟨0, 1⟩], [⟨0, 1⟩]]
        (early_stop_schedule ++ List.replicate 33 (Action.sup SemResult.ok))).sem_free ∧
    ∃ (sched : List Action) (t : State), (∀ a ∈ sched, a.faultFree = true) ∧
      run (final [[⟨0, 1⟩], [⟨0, 1⟩], [⟨0, 1⟩]]
        (early_stop_schedule ++ List.replicate 33 (Action.sup SemResult.ok))) sched = some t ∧
      all_exited t := by
  have hd : (final [[⟨0, 1⟩], [⟨0, 1⟩], [⟨0, 1⟩]]
      (early_stop_schedule ++ List.replicate 33 (Action.sup SemResult.ok))).sup.pc =
        SupPc.destroy := by decide
  have h := (C7_broadcast_releases_every_generator [[⟨0, 1⟩], [⟨0, 1⟩], [⟨0, 1⟩]]
    (final [[⟨0, 1⟩], [⟨0, 1⟩], [⟨0, 1⟩]] early_stop_schedule)
    (final [[⟨0, 1⟩], [⟨0, 1⟩], [⟨0, 1⟩]]
      (early_stop_schedule ++ List.replicate 33 (Action.sup SemResult.ok)))
    (List.replicate 33 (Action.sup SemResult.ok))
    (reachable_final _ _ (by decide)) (by decide) (by decide) (by decide) (by decide)
    (final_append _ _ _ (by decide))).2.2 (Or.inl hd)
  exact ⟨reachable_final _ _ (by decide), by decide, by decide, hd, h.1, h.2.2⟩

/-! ## C8: the size-0 sentinel -/

/-- C8. For every edge list and every colour assignment, an attempt yields size 0
if and only if no edge has two endpoints of the same colour. Hence in every
reachable state a published candidate of size 0 comes from a generator whose graph
has a proper colouring with `NCOLORS` colours, and whenever the supervisor has read
a size-0 candidate, or printed the success line, some generator's graph has one. -/
theorem C8_zero_iff_proper_coloring (graphs : List (List Edge)) (s : State)
    (h : Reachable graphs s) :
    (∀ (nodes : Nat → Nat) (edges : List Edge) (stack : Nat → Edge),
      (attempt nodes edges stack).2 = 0 ↔ ∀ e ∈ edges, nodes e.first ≠ nodes e.second) ∧
    (∀ p ∈ s.published, p.2.size = 0 → ∃ es, graphs[p.1]? = some es ∧ Colorable es) ∧
    (∀ c ∈ s.consumed, c.size = 0 → ∃ es ∈ graphs, Colorable es) ∧
    (Line.colorable ∈ s.sup.output → ∃ es ∈ graphs, Colorable es) := by
  have hs := reachable_safe graphs s h
  have hcons : ∀ c ∈ s.consumed, c.size = 0 → ∃ es ∈ graphs, Colorable es := by
    intro c hc hz
    have hsub : c ∈ s.published.map Prod.snd := (reachable_fifo graphs s h).subset hc
    obtain ⟨p, hp, rfl⟩ := List.mem_map.mp hsub
    obtain ⟨es, hes, hcol⟩ := hs.published_zero p hp hz
    exact ⟨es, List.getElem?_mem hes, hcol⟩
  refine ⟨attempt_zero, hs.published_zero, hcons, ?_⟩
  intro hline
  obtain ⟨c, hc, hz⟩ := reachable_colorable_line graphs s h hline
  exact hcons c hc hz

/-- C8 on the graph with the single edge 0-1: the generator colours the nodes 0 and 1,
publishes the size-0 candidate, and the supervisor reads it and prints the success line. -/
theorem C8_zero_iff_proper_coloring_witness :
    Reachable [[⟨0, 1⟩]]
      (final [[⟨0, 1⟩]] (publish_schedule 0 [0, 1] 0 ++ List.replicate 3 (Action.sup SemResult.ok))) ∧
    Line.colorable ∈ (final [[⟨0, 1⟩]]
      (publish_schedule 0 [0, 1] 0 ++ List.replicate 3 (Action.sup SemResult.ok))).sup.output ∧
    ∃ es ∈ [[(⟨0, 1⟩ : Edge)]], Colorable es :=
  ⟨reachable_final _ _ (by decide), by decide,
    (C8_zero_iff_proper_coloring [[⟨0, 1⟩]]
      (final [[⟨0, 1⟩]] (publish_schedule 0 [0, 1] 0 ++ List.replicate 3 (Action.sup SemResult.ok)))
      (reachable_final _ _ (by decide))).2.2.2 (by decide)⟩

/-! ## C9: attempts with more than MAX_BAD_EDGES bad edges are discarded -/

/-- C9. For every edge list and every colouring, the attempt ends with
`solution_size < 0` exactly when more than `MAX_BAD_EDGES` edges have endpoints of
the same colour. At the loop top with `quit` clear, the generator's step builds the
attempt without touching the shared region, a semaphore or the history; it stays at
the loop top (the attempt is discarded) if and only if more than `MAX_BAD_EDGES`
edges are bad, and otherwise moves on to the wait on `mutex` holding the bad edges
as its candidate. -/
theorem C9_discard_iff_too_many_bad_edges (s : State) (g : Nat) (G : Gen) (r : SemResult)
    (rands : List Nat) (hG : s.gens[g]? = some G) (hpc : G.pc = .loop_top)
    (hq : s.shm.quit = 0) :
    (∀ (nodes : Nat → Nat) (edges : List Edge) (stack : Nat → Edge),
      (attempt nodes edges stack).2 < 0 ↔ MAX_BAD_EDGES < (edges.filter (bad nodes)).length) ∧
    ∃ (t : State) (H : Gen), step s (Action.gen g r rands) = some t ∧ t.gens[g]? = some H ∧
      t.shm = s.shm ∧ t.sem_mutex = s.sem_mutex ∧ t.sem_free = s.sem_free ∧
      t.sem_used = s.sem_used ∧ t.published = s.published ∧ t.consumed = s.consumed ∧
      (H.pc = .loop_top ↔
        MAX_BAD_EDGES < (G.edges.filter (bad (assign_colors rands))).length) ∧
      (H.pc = .wait_mutex ↔
        (G.edges.filter (bad (assign_colors rands))).length ≤ MAX_BAD_EDGES) ∧
      (H.pc = .wait_mutex → H.candidate =
        { size := ((G.edges.filter (bad (assign_colors rands))).length : Nat),
          edges := G.edges.filter (bad (assign_colors rands)) }) := by
  have hneg : ∀ (nodes : Nat → Nat) (edges : List Edge) (stack : Nat → Edge),
      (attempt nodes edges stack).2 < 0 ↔ MAX_BAD_EDGES < (edges.filter (bad nodes)).length := by
    intro nodes edges stack
    rw [attempt_size]
    split
    · next hle =>
      constructor
      · intro hlt; have := Int.natCast_nonneg (edges.filter (bad nodes)).length; omega
      · intro hlt; omega
    · next hgt =>
      constructor
      · intro _; omega
      · intro _; decide
  refine ⟨hneg, ?_⟩
  have hlt : g < s.gens.length := (List.getElem?_eq_some_iff.mp hG).1
  have hq2 : ¬ s.shm.quit ≠ 0 := by simp [hq]
  by_cases hd : (attempt (assign_colors rands) G.edges G.solution).2 < 0
  · have hmany := (hneg _ _ _).mp hd
    refine ⟨State.setGen s g
        { G with solution := (attempt (assign_colors rands) G.edges G.solution).1,
                 solution_size := (attempt (assign_colors rands) G.edges G.solution).2 },
      { G with solution := (attempt (assign_colors rands) G.edges G.solution).1,
               solution_size := (attempt (assign_colors rands) G.edges G.solution).2 },
      ?_, ?_, rfl, rfl, rfl, rfl, rfl, rfl, ?_, ?_, ?_⟩
    · simp only [step, hG, gen_step, hpc, if_neg hq2, if_pos hd]
    · simp only [State.setGen]
      exact List.getElem?_set_self hlt
    · simp [hpc, hmany]
    · simp [hpc]; omega
    · intro hc; simp [hpc] at hc
  · have hfew : (G.edges.filter (bad (assign_colors rands))).length ≤ MAX_BAD_EDGES := by
      have := (hneg (assign_colors rands) G.edges G.solution).not.mp hd
      omega
    refine ⟨State.setGen s g
        { G with solution := (attempt (assign_colors rands) G.edges G.solution).1,
                 solution_size := (attempt (assign_colors rands) G.edges G.solution).2,
                 pc := .wait_mutex },
      { G with solution := (attempt (assign_colors rands) G.edges G.solution).1,
               solution_size := (attempt (assign_colors rands) G.edges G.solution).2,
               pc := .wait_mutex },
      ?_, ?_, rfl, rfl, rfl, rfl, rfl, rfl, ?_, ?_, ?_⟩
    · simp only [step, hG, gen_step, hpc, if_neg hq2, if_neg hd]
    · simp only [State.setGen]
      exact List.getElem?_set_self hlt
    · simp; omega
    · simp [hfew]
    · intro _
      simp only [Gen.candidate]
      rw [attempt_view _ _ _ hfew, attempt_size, if_pos hfew]

/-- C9 on graphs of 13 and of 12 loops at node 0, whose edges are bad under every
colouring: with 13 the attempt is discarded and the generator is back at the loop
top, with 12 it moves on to publish. -/
theorem C9_discard_iff_too_many_bad_edges_witness :
    (∃ (t : State) (H : Gen),
      step (State.init [List.replicate 13 ⟨0, 0⟩]) (Action.gen 0 SemResult.ok [2]) = some t ∧
      t.gens[0]? = some H ∧ t.shm = (State.init [List.replicate 13 ⟨0, 0⟩]).shm ∧
      H.pc = .loop_top) ∧
    (∃ (t : State) (H : Gen),
      step (State.init [List.replicate 12 ⟨0, 0⟩]) (Action.gen 0 SemResult.ok [2]) = some t ∧
      t.gens[0]? = some H ∧ H.pc = .wait_mutex ∧ H.candidate.size = 12) := by
  obtain ⟨-, t, H, h1, h2, h3, -, -, -, -, -, h4, -, -⟩ :=
    C9_discard_iff_too_many_bad_edges (State.init [List.replicate 13 ⟨0, 0⟩]) 0
      (Gen.start (List.replicate 13 ⟨0, 0⟩)) SemResult.ok [2] rfl rfl rfl
  obtain ⟨-, u, K, k1, k2, -, -, -, -, -, -, -, k4, k5⟩ :=
    C9_discard_iff_too_many_bad_edges (State.init [List.replicate 12 ⟨0, 0⟩]) 0
      (Gen.start (List.replicate 12 ⟨0, 0⟩)) SemResult.ok [2] rfl rfl rfl
  refine ⟨⟨t, H, h1, h2, h3, h4.mpr (by decide)⟩, ⟨u, K, k1, k2, k4.mpr (by decide), ?_⟩⟩
  rw [k5 (k4.mpr (by decide))]
  decide

/-! ## C10: the candidate is the list of bad edges -/

/-- C10. For every edge list and colouring whose attempt is not discarded, the first
`solution_size` entries of `solution` are exactly the input edges whose endpoints
received the same colour, in input order, and `solution_size` is their number. -/
theorem C10_candidate_is_bad_sublist (nodes : Nat → Nat) (edges : List Edge)
    (stack : Nat → Edge) (h : ¬ (attempt nodes edges stack).2 < 0) :
    view (attempt nodes edges stack).1 (attempt nodes edges stack).2 =
      edges.filter (bad nodes) ∧
    (attempt nodes edges stack).2 = ((edges.filter (bad nodes)).length : Nat) ∧
    (edges.filter (bad nodes)).Sublist edges := by
  have hs := attempt_size nodes edges stack
  by_cases hle : (edges.filter (bad nodes)).length ≤ MAX_BAD_EDGES
  · rw [if_pos hle] at hs
    exact ⟨attempt_view nodes edges stack hle, hs, List.filter_sublist _⟩
  · rw [if_neg hle] at hs
    rw [hs] at h
    exact absurd (by decide) h

/-- C10 on the path 0-1, 1-2, 2-3, 3-4 with colours 0, 0, 1, 1, 1: the candidate is
the list of the edges 0-1, 2-3 and 3-4, in this order. -/
theorem C10_candidate_is_bad_sublist_witness :
    view (attempt (assign_colors [0, 3, 1, 4, 7]) [⟨0, 1⟩, ⟨1, 2⟩, ⟨2, 3⟩, ⟨3, 4⟩]
        (fun _ => ⟨0, 0⟩)).1
      (attempt (assign_colors [0, 3, 1, 4, 7]) [⟨0, 1⟩, ⟨1, 2⟩, ⟨2, 3⟩, ⟨3, 4⟩]
        (fun _ => ⟨0, 0⟩)).2 = [⟨0, 1⟩, ⟨2, 3⟩, ⟨3, 4⟩] :=
  (C10_candidate_is_bad_sublist (assign_colors [0, 3, 1, 4, 7])
    [⟨0, 1⟩, ⟨1, 2⟩, ⟨2, 3⟩, ⟨3, 4⟩] (fun _ => ⟨0, 0⟩) (by decide)).1.trans (by decide)

theorem reported_sizes_append (xs ys : List Line) :
    reported_sizes (xs ++ ys) = reported_sizes xs ++ reported_sizes ys := by
  induction xs with
  | nil => rfl
  | cons x rest ih =>
    cases x with
    | colorable => simpa [reported_sizes] using ih
    | solution size edges => simp [reported_sizes, ih]

theorem strict_minima_append (x : Int) :
    ∀ (xs before : List Int),
      strict_minima before (xs ++ [x]) =
        strict_minima before xs ++ (if ∀ y ∈ before ++ xs, x < y then [x] else []) := by
  intro xs
  induction xs with
  | nil =>
    intro before
    simp [strict_minima]
  | cons a rest ih =>
    intro before
    have h := ih (before ++ [a])
    simp only [List.append_assoc, List.singleton_append] at h
    by_cases hc : ∀ y ∈ before, a < y
    · simp only [List.cons_append, strict_minima, if_pos hc]
      exact congrArg (List.cons a) h
    · simp only [List.cons_append, strict_minima, if_neg hc]
      exact h

/-- Every element of `strict_minima before xs` is below all of `before`, and the
elements are strictly decreasing. -/
theorem strict_minima_decreasing :
    ∀ (xs before : List Int),
      (∀ r ∈ strict_minima before xs, ∀ y ∈ before, r < y) ∧
      (strict_minima before xs).Pairwise (fun a b => b < a) := by
  intro xs
  induction xs with
  | nil => intro before; simp [strict_minima]
  | cons a rest ih =>
    intro before
    obtain ⟨h1, h2⟩ := ih (before ++ [a])
    by_cases hc : ∀ y ∈ before, a < y
    · simp only [strict_minima, if_pos hc]
      refine ⟨?_, ?_⟩
      · intro r hr y hy
        rcases List.mem_cons.mp hr with rfl | hr
        · exact hc y hy
        · exact h1 r hr y (List.mem_append_left _ hy)
      · refine List.Pairwise.cons ?_ h2
        intro r hr
        exact h1 r hr a (by simp)
    · simp only [strict_minima, if_neg hc]
      exact ⟨fun r hr y hy => h1 r hr y (List.mem_append_left _ hy), h2⟩

/-- The bookkeeping of the supervisor: what it has printed and its `best_solution`,
in terms of the non-zero sizes it has read. -/
theorem reachable_best (graphs : List (List Edge)) (s : State) (h : Reachable graphs s) :
    reported_sizes s.sup.output = strict_minima [] (consumed_sizes s) ∧
    (∀ y ∈ consumed_sizes s, s.sup.best_solution ≤ y) ∧
    ((consumed_sizes s = [] ∧ s.sup.best_solution = INT_MAX) ∨
      s.sup.best_solution ∈ consumed_sizes s) := by
  induction h with
  | init => simp [State.init, Sup.start, reported_sizes, consumed_sizes, strict_minima]
  | step s a t hreach hf hstep ih =>
    obtain ⟨ih1, ih2, ih3⟩ := ih
    have hbound := (reachable_safe graphs s hreach).sizes s.shm.rd
    have hgrow : ∀ (c : Candidate), c.size ≠ 0 →
        (List.map Candidate.size (s.consumed ++ [c])).filter (fun x => decide (x ≠ 0)) =
          consumed_sizes s ++ [c.size] := by
      intro c hc
      simp [consumed_sizes, List.filter_append, hc]
    have hiff : s.shm.solution_size s.shm.rd < s.sup.best_solution ↔
        ∀ y ∈ [] ++ consumed_sizes s, s.shm.solution_size s.shm.rd < y := by
      simp only [List.nil_append]
      constructor
      · intro hlt y hy
        exact lt_of_lt_of_le hlt (ih2 y hy)
      · intro hall
        rcases ih3 with ⟨-, hmax⟩ | hmem
        · rw [hmax]
          have := hbound.2
          simp only [MAX_BAD_EDGES, INT_MAX] at this ⊢
          omega
        · exact hall _ hmem
    cases step_trans s t a hstep hf with
    | gen g G hG hg => cases hg <;> exact ⟨ih1, ih2, ih3⟩
    | sup hsup =>
      cases hsup with
      | read_zero hpc hz =>
        have hsame : consumed_sizes
            { s with consumed := s.consumed ++ [s.shm.slot s.shm.rd],
                     sup := { s.sup with size := s.shm.solution_size s.shm.rd, pc := .set_quit,
                                         output := s.sup.output ++ [Line.colorable] } } =
            consumed_sizes s := by
          simp [consumed_sizes, List.filter_append, Shared.slot, hz]
        rw [hsame]
        refine ⟨?_, ih2, ih3⟩
        simp only [reported_sizes_append, reported_sizes, List.append_nil]
        exact ih1
      | read_better hpc hz hb =>
        have hsz : consumed_sizes
            { s with consumed := s.consumed ++ [s.shm.slot s.shm.rd],
                     sup := { s.sup with size := s.shm.solution_size s.shm.rd, pc := .advance_rd,
                                         best_solution := s.shm.solution_size s.shm.rd,
                                         output := s.sup.output ++
                                           [Line.solution (s.shm.solution_size s.shm.rd)
                                             (s.shm.slot s.shm.rd).edges] } } =
            consumed_sizes s ++ [s.shm.solution_size s.shm.rd] := hgrow _ hz
        rw [hsz]
        refine ⟨?_, ?_, Or.inr (by simp)⟩
        · simp only [reported_sizes_append, reported_sizes]
          rw [strict_minima_append, if_pos (hiff.mp hb), ih1]
        · intro y hy
          rcases List.mem_append.mp hy with hy | hy
          · exact le_of_lt (lt_of_lt_of_le hb (ih2 y hy))
          · simp at hy
            rw [hy]
      | read_worse hpc hz hb =>
        have hsz : consumed_sizes
            { s with consumed := s.consumed ++ [s.shm.slot s.shm.rd],
                     sup := { s.sup with size := s.shm.solution_size s.shm.rd,
                                         pc := .advance_rd } } =
            consumed_sizes s ++ [s.shm.solution_size s.shm.rd] := hgrow _ hz
        rw [hsz]
        refine ⟨?_, ?_, ?_⟩
        · rw [strict_minima_append, if_neg (fun hc => hb (hiff.mpr hc)), List.append_nil]
          exact ih1
        · intro y hy
          rcases List.mem_append.mp hy with hy | hy
          · exact ih2 y hy
          · simp at hy
            rw [hy]
            exact not_lt.mp hb
        · rcases ih3 with ⟨hnil, hmax⟩ | hmem
          · exfalso
            apply hb
            rw [hmax]
            have := hbound.2
            simp only [MAX_BAD_EDGES, INT_MAX] at this ⊢
            omega
          · exact Or.inr (List.mem_append_left _ hmem)
      | _ => exact ⟨ih1, ih2, ih3⟩

/-- Outside its main loop the supervisor stays outside, and no step of any process
changes `rd` or `best_solution` any more. -/
theorem after_loop_step (s t : State) (a : Action) (h : step s a = some t)
    (hl : in_loop s.sup.pc = false) :
    in_loop t.sup.pc = false ∧ t.shm.rd = s.shm.rd ∧
      t.sup.best_solution = s.sup.best_solution := by
  cases a with
  | gen g r rands =>
    simp only [step] at h
    cases hG : s.gens[g]? with
    | none => rw [hG] at h; cases h
    | some G =>
      rw [hG] at h
      obtain ⟨h1, -, h3, -⟩ := gen_step_frame s t g G r rands h
      rw [h1, h3]
      exact ⟨hl, rfl, rfl⟩
  | signal =>
    simp only [step] at h
    cases h
    exact ⟨hl, rfl, rfl⟩
  | sup r =>
    simp only [step] at h
    unfold sup_step at h
    cases hpc : s.sup.pc <;> cases r <;> simp only [hpc] at h <;>
      (try split_ifs at h) <;>
      first
      | (cases h; simp [in_loop, hpc, Shared.set_quit] at hl ⊢)
      | (cases h)

theorem after_loop_run :
    ∀ (acts : List Action) (s t : State), run s acts = some t → in_loop s.sup.pc = false →
      in_loop t.sup.pc = false ∧ t.shm.rd = s.shm.rd ∧
        t.sup.best_solution = s.sup.best_solution := by
  intro acts
  induction acts with
  | nil =>
    intro s t hrun hl
    simp only [run, Option.some.injEq] at hrun
    subst hrun
    exact ⟨hl, rfl, rfl⟩
  | cons a rest ih =>
    intro s t hrun hl
    simp only [run] at hrun
    cases hstep : step s a with
    | none => rw [hstep] at hrun; cases hrun
    | some u =>
      rw [hstep] at hrun
      obtain ⟨h1, h2, h3⟩ := after_loop_step s u a hstep hl
      obtain ⟨k1, k2, k3⟩ := ih u t hrun h1
      exact ⟨k1, k2.trans h2, k3.trans h3⟩

/-- The supervisor changes the count of `free` only in its main loop (line 171) and in
the broadcast loop (line 182). -/
theorem sup_free_only_broadcast (s t : State) (r : SemResult)
    (h : step s (Action.sup r) = some t) (hl : in_loop s.sup.pc = false)
    (hne : t.sem_free ≠ s.sem_free) : s.sup.pc = .broadcast := by
  simp only [step] at h
  unfold sup_step at h
  cases hpc : s.sup.pc <;> cases r <;> simp only [hpc] at h <;>
    (try split_ifs at h) <;>
    first
    | rfl
    | (cases h; simp [in_loop, hpc] at hl hne)
    | (cases h)

/-- The supervisor never changes the count of `used` outside its main loop. -/
theorem sup_used_only_in_loop (s t : State) (r : SemResult)
    (h : step s (Action.sup r) = some t) (hl : in_loop s.sup.pc = false) :
    t.sem_used = s.sem_used := by
  simp only [step] at h
  unfold sup_step at h
  cases hpc : s.sup.pc <;> cases r <;> simp only [hpc] at h <;>
    (try split_ifs at h) <;>
    first
    | (cases h; rfl)
    | (cases h; simp [in_loop, hpc] at hl)
    | (cases h)

/-- What the copy loop of generator `g`, run alone, leaves alone: the other slots, the
entries of slot `wr` from index `i + k` on, `rd` and the history. -/
theorem copy_run_frame (g : Nat) :
    ∀ (k : Nat) (s t : State) (G : Gen), s.gens[g]? = some G → G.pc = .copy →
      ((G.i + k : Nat) : Int) = G.solution_size →
      run s (List.replicate k (Action.gen g SemResult.ok [])) = some t →
      (∀ q, q ≠ s.shm.wr → t.shm.queue q = s.shm.queue q) ∧ t.shm.rd = s.shm.rd ∧
      (∀ j, G.i + k ≤ j → t.shm.queue s.shm.wr j = s.shm.queue s.shm.wr j) ∧
      t.published = s.published ∧ t.consumed = s.consumed ∧ t.sup = s.sup := by
  intro k
  induction k with
  | zero =>
    intro s t G _ _ _ hrun
    simp only [List.replicate, run, Option.some.injEq] at hrun
    subst hrun
    exact ⟨fun _ _ => rfl, rfl, fun _ _ => rfl, rfl, rfl, rfl⟩
  | succ k ih =>
    intro s t G hG hpc hk hrun
    have hlt : (G.i : Int) < G.solution_size := by omega
    have hstep : step s (Action.gen g SemResult.ok []) =
        some (State.setGen { s with shm := s.shm.store_edge G.i (G.solution G.i) } g
          { G with i := G.i + 1 }) := by
      simp only [step, hG, gen_step, hpc, if_pos hlt]
    rw [List.replicate_succ, run_cons_some _ _ _ _ hstep] at hrun
    obtain ⟨h1, h2, h3, h4, h5, h6⟩ :=
      ih (State.setGen { s with shm := s.shm.store_edge G.i (G.solution G.i) } g
          { G with i := G.i + 1 }) t { G with i := G.i + 1 }
        (lookup_setGen _ g G _ hG) hpc (by simp only []; omega) hrun
    refine ⟨?_, h2, ?_, h4, h5, h6⟩
    · intro q hq
      rw [h1 q hq]
      simp only [State.setGen, Shared.store_edge]
      exact Function.update_noteq hq _ _
    · intro j hj
      have := h3 j (by simp only []; omega)
      simp only [State.setGen, Shared.store_edge, Function.update_same] at this
      rw [this, Function.update_noteq (by omega)]

/-- Generator `g` run alone from the end of its copy loop: four statements store the
size, advance `wr` and post `mutex`; the fifth posts `used` and is back at the loop top. -/
theorem publish_tail (s : State) (g : Nat) (G : Gen) (hG : s.gens[g]? = some G)
    (hpc : G.pc = .copy) (hi : ¬ (G.i : Int) < G.solution_size) :
    ∃ (u t : State) (H : Gen),
      run s (List.replicate 4 (Action.gen g SemResult.ok [])) = some u ∧
      step u (Action.gen g SemResult.ok []) = some t ∧
      u.sem_mutex = s.sem_mutex + 1 ∧ u.sem_used = s.sem_used ∧ u.sem_free = s.sem_free ∧
      t.gens[g]? = some H ∧ H.pc = .loop_top ∧
      t.shm.wr = (s.shm.wr + 1) % MAX_QUEUE_SIZE ∧ t.shm.queue = s.shm.queue ∧
      t.shm.solution_size = Function.update s.shm.solution_size s.shm.wr G.solution_size ∧
      t.shm.quit = s.shm.quit ∧ t.shm.rd = s.shm.rd ∧
      t.sem_mutex = s.sem_mutex + 1 ∧ t.sem_free = s.sem_free ∧ t.sem_used = s.sem_used + 1 ∧
      t.published = s.published ++ [(g, G.candidate)] := by
  have hlt : g < s.gens.length := (List.getElem?_eq_some_iff.mp hG).1
  simp [List.replicate, run, step, gen_step, State.setGen, hG, hpc, hi, hlt,
    Shared.store_size, Shared.advance_wr, Gen.candidate]

/-! ## C11: what the supervisor reports -/

/-- C11. In every reachable state, with the non-zero sizes the supervisor has read so
far: the sizes it has reported are exactly those that are strictly smaller than every
size read before them; `best_solution` is `INT_MAX` when none was read and otherwise
the minimum of the sizes read; the reported sizes are strictly decreasing. At the
read of a non-zero size the supervisor prints the candidate and takes its size as
`best_solution` if the size is strictly smaller than every size read before, and
otherwise prints nothing and keeps `best_solution`. -/
theorem C11_reports_are_strict_minima (graphs : List (List Edge)) (s : State)
    (h : Reachable graphs s) :
    reported_sizes s.sup.output = strict_minima [] (consumed_sizes s) ∧
    (consumed_sizes s = [] → s.sup.best_solution = INT_MAX) ∧
    (consumed_sizes s ≠ [] → s.sup.best_solution ∈ consumed_sizes s ∧
      ∀ y ∈ consumed_sizes s, s.sup.best_solution ≤ y) ∧
    (reported_sizes s.sup.output).Pairwise (fun a b => b < a) ∧
    (∀ (r : SemResult) (t : State), s.sup.pc = .read → s.shm.solution_size s.shm.rd ≠ 0 →
      step s (Action.sup r) = some t →
      ((∀ y ∈ consumed_sizes s, s.shm.solution_size s.shm.rd < y) →
        t.sup.output = s.sup.output ++
          [Line.solution (s.shm.solution_size s.shm.rd) (s.shm.slot s.shm.rd).edges] ∧
        t.sup.best_solution = s.shm.solution_size s.shm.rd) ∧
      (¬ (∀ y ∈ consumed_sizes s, s.shm.solution_size s.shm.rd < y) →
        t.sup.output = s.sup.output ∧ t.sup.best_solution = s.sup.best_solution)) := by
  obtain ⟨h1, h2, h3⟩ := reachable_best graphs s h
  have hbound := (reachable_safe graphs s h).sizes s.shm.rd
  have hiff : s.shm.solution_size s.shm.rd < s.sup.best_solution ↔
      ∀ y ∈ consumed_sizes s, s.shm.solution_size s.shm.rd < y := by
    constructor
    · intro hlt y hy
      exact lt_of_lt_of_le hlt (h2 y hy)
    · intro hall
      rcases h3 with ⟨-, hmax⟩ | hmem
      · rw [hmax]
        have := hbound.2
        simp only [MAX_BAD_EDGES, INT_MAX] at this ⊢
        omega
      · exact hall _ hmem
  refine ⟨h1, ?_, ?_, ?_, ?_⟩
  · intro hnil
    rcases h3 with ⟨-, hmax⟩ | hmem
    · exact hmax
    · rw [hnil] at hmem
      cases hmem
  · intro hne
    rcases h3 with ⟨hnil, -⟩ | hmem
    · exact absurd hnil hne
    · exact ⟨hmem, h2⟩
  · rw [h1]
    exact (strict_minima_decreasing (consumed_sizes s) []).2
  · intro r t hpc hz hstep
    simp only [step, sup_step, hpc, if_neg hz] at hstep
    by_cases hb : s.shm.solution_size s.shm.rd < s.sup.best_solution
    · rw [if_pos hb] at hstep
      cases hstep
      exact ⟨fun _ => ⟨rfl, rfl⟩, fun hn => absurd (hiff.mp hb) hn⟩
    · rw [if_neg hb] at hstep
      cases hstep
      exact ⟨fun hall => absurd (hiff.mpr hall) hb, fun _ => ⟨rfl, rfl⟩⟩

/-- C11 after the supervisor has read candidates of sizes 2, 2 and 1: it has reported
the sizes 2 and 1, and `best_solution` is 1. -/
theorem C11_reports_are_strict_minima_witness :
    Reachable [[⟨0, 1⟩, ⟨1, 2⟩]] (final [[⟨0, 1⟩, ⟨1, 2⟩]] report_schedule) ∧
    consumed_sizes (final [[⟨0, 1⟩, ⟨1, 2⟩]] report_schedule) = [2, 2, 1] ∧
    (final [[⟨0, 1⟩, ⟨1, 2⟩]] report_schedule).sup.best_solution = 1 ∧
    reported_sizes (final [[⟨0, 1⟩, ⟨1, 2⟩]] report_schedule).sup.output = [2, 1] := by
  have hc : consumed_sizes (final [[⟨0, 1⟩, ⟨1, 2⟩]] report_schedule) = [2, 2, 1] := by decide
  have h := (C11_reports_are_strict_minima [[⟨0, 1⟩, ⟨1, 2⟩]]
    (final [[⟨0, 1⟩, ⟨1, 2⟩]] report_schedule) (reachable_final _ _ (by decide))).1
  rw [hc] at h
  exact ⟨reachable_final _ _ (by decide), hc, by decide, h.trans (by decide)⟩

/-! ## C12: the read of a size-0 candidate -/

/-- C12. When the supervisor reads size 0 at slot `rd`, that statement takes it out
of its main loop to the statement that sets `quit`, with the region (so `rd`),
`best_solution` and the three semaphores unchanged. In every state reached
afterwards the supervisor is still outside its loop (it never waits on `used`
again) and `rd` and `best_solution` are the same; a statement of the supervisor
never changes `used` there and changes `free` only in the broadcast loop. -/
theorem C12_size_zero_leaves_loop (s : State) (r : SemResult) (hpc : s.sup.pc = .read)
    (hz : s.shm.solution_size s.shm.rd = 0) :
    ∃ t, step s (Action.sup r) = some t ∧ t.sup.pc = .set_quit ∧ t.shm = s.shm ∧
      t.sup.best_solution = s.sup.best_solution ∧ t.sem_free = s.sem_free ∧
      t.sem_used = s.sem_used ∧ t.sem_mutex = s.sem_mutex ∧
      ∀ (acts : List Action) (u : State), run t acts = some u →
        in_loop u.sup.pc = false ∧ u.sup.pc ≠ .wait_used ∧ u.shm.rd = s.shm.rd ∧
        u.sup.best_solution = s.sup.best_solution ∧
        ∀ (q : SemResult) (v : State), step u (Action.sup q) = some v →
          v.sem_used = u.sem_used ∧ (v.sem_free ≠ u.sem_free → u.sup.pc = .broadcast) := by
  refine ⟨{ s with consumed := s.consumed ++ [s.shm.slot s.shm.rd],
                   sup := { s.sup with size := s.shm.solution_size s.shm.rd, pc := .set_quit,
                                       output := s.sup.output ++ [Line.colorable] } },
    ?_, rfl, rfl, rfl, rfl, rfl, rfl, ?_⟩
  · simp only [step, sup_step, hpc, if_pos hz]
  · intro acts u hrun
    obtain ⟨h1, h2, h3⟩ := after_loop_run acts _ u hrun rfl
    refine ⟨h1, ?_, h2, h3, ?_⟩
    · intro hw
      rw [hw] at h1
      cases h1
    · intro q v hstep
      exact ⟨sup_used_only_in_loop u v q hstep h1,
        fun hne => sup_free_only_broadcast u v q hstep h1 hne⟩

/-- C12 on the graph 0-1: the generator publishes the size-0 candidate, the supervisor
passes its wait on `used` and reads it. -/
theorem C12_size_zero_leaves_loop_witness :
    ∃ t, step (final [[⟨0, 1⟩]]
          (publish_schedule 0 [0, 1] 0 ++ List.replicate 2 (Action.sup SemResult.ok)))
        (Action.sup SemResult.ok) = some t ∧
      t.sup.pc = SupPc.set_quit ∧ t.shm.rd = 0 ∧ t.sem_free = 31 := by
  obtain ⟨t, h1, h2, h3, -, h5, -⟩ := C12_size_zero_leaves_loop
    (final [[⟨0, 1⟩]] (publish_schedule 0 [0, 1] 0 ++ List.replicate 2 (Action.sup SemResult.ok)))
    SemResult.ok (by decide) (by decide)
  refine ⟨t, h1, h2, ?_, ?_⟩
  · rw [h3]; decide
  · rw [h5]; decide

/-! ## C13: interrupted waits -/

/-- C13. An interrupted wait changes nothing but the program point. A generator whose
wait on `mutex` is interrupted is back at its loop top with the region, the three
counts and the history unchanged. A generator that passes the wait on `mutex`, is
interrupted in the wait on `free` and posts `mutex` is back at its loop top with the
region and the counts of `mutex`, `free` and `used` exactly as before the wait on
`mutex`; from the wait on `free` alone, the interrupt and the post give `mutex` back
(its count is one higher) and change nothing else. A supervisor whose wait on `used`
is interrupted is back at its loop top with everything else unchanged. At the loop
top a generator does not hold the mutex. -/
theorem C13_interrupted_wait_is_neutral (s : State) :
    (∀ (g : Nat) (G : Gen), s.gens[g]? = some G →
      (G.pc = .wait_mutex → ∀ rands : List Nat,
        step s (Action.gen g SemResult.eintr rands) =
          some { s with gens := s.gens.set g { G with pc := .loop_top } }) ∧
      (G.pc = .wait_free →
        run s [Action.gen g SemResult.eintr [], Action.gen g SemResult.ok []] =
          some { s with sem_mutex := s.sem_mutex + 1,
                        gens := s.gens.set g { G with pc := .loop_top } }) ∧
      (G.pc = .wait_mutex → 0 < s.sem_mutex →
        run s [Action.gen g SemResult.ok [], Action.gen g SemResult.eintr [],
            Action.gen g SemResult.ok []] =
          some { s with sem_mutex := s.sem_mutex - 1 + 1,
                        gens := s.gens.set g { G with pc := .loop_top } } ∧
        s.sem_mutex - 1 + 1 = s.sem_mutex)) ∧
    (s.sup.pc = .wait_used →
      step s (Action.sup SemResult.eintr) =
        some { s with sup := { s.sup with pc := .loop_top } }) ∧
    holds_mutex GenPc.loop_top = 0 := by
  refine ⟨?_, ?_, rfl⟩
  · intro g G hG
    have hlt : g < s.gens.length := (List.getElem?_eq_some_iff.mp hG).1
    refine ⟨?_, ?_, ?_⟩
    · intro hpc rands
      simp [step, gen_step, State.setGen, hG, hpc]
    · intro hpc
      simp [run, step, gen_step, State.setGen, hG, hpc, hlt]
    · intro hpc hm
      refine ⟨?_, by omega⟩
      simp [run, step, gen_step, State.setGen, hG, hpc, hlt, hm]
  · intro hpc
    simp [step, sup_step, hpc]

/-- C13 for a generator that stands before the wait on `mutex`: after the wait, the
interrupted wait on `free` and the post of `mutex`, the counts are 1, 32 and 0 as in
the initial state and the region is unchanged. -/
theorem C13_interrupted_wait_is_neutral_witness :
    ∃ (G : Gen) (t : State),
      (final [[⟨0, 1⟩]] [Action.gen 0 SemResult.ok [0, 0]]).gens[0]? = some G ∧
      G.pc = .wait_mutex ∧
      run (final [[⟨0, 1⟩]] [Action.gen 0 SemResult.ok [0, 0]])
        [Action.gen 0 SemResult.ok [], Action.gen 0 SemResult.eintr [],
          Action.gen 0 SemResult.ok []] = some t ∧
      t.sem_mutex = 1 ∧ t.sem_free = 32 ∧ t.sem_used = 0 ∧
      t.shm = (final [[⟨0, 1⟩]] [Action.gen 0 SemResult.ok [0, 0]]).shm := by
  cases hG : (final [[⟨0, 1⟩]] [Action.gen 0 SemResult.ok [0, 0]]).gens[0]? with
  | none =>
    have : ((final [[⟨0, 1⟩]] [Action.gen 0 SemResult.ok [0, 0]]).gens[0]?).isSome = true := by
      decide
    rw [hG] at this
    cases this
  | some G =>
    have hpc : G.pc = .wait_mutex := by
      have : (final [[⟨0, 1⟩]] [Action.gen 0 SemResult.ok [0, 0]]).gens[0]?.map Gen.pc =
          some GenPc.wait_mutex := by decide
      rw [hG] at this
      simpa using this
    have h := ((C13_interrupted_wait_is_neutral
      (final [[⟨0, 1⟩]] [Action.gen 0 SemResult.ok [0, 0]])).1 0 G hG).2.2 hpc (by decide)
    have h1 : (final [[⟨0, 1⟩]] [Action.gen 0 SemResult.ok [0, 0]]).sem_mutex = 1 := by decide
    have h2 : (final [[⟨0, 1⟩]] [Action.gen 0 SemResult.ok [0, 0]]).sem_free = 32 := by decide
    have h3 : (final [[⟨0, 1⟩]] [Action.gen 0 SemResult.ok [0, 0]]).sem_used = 0 := by decide
    exact ⟨G, _, rfl, hpc, h.1, h.2.trans h1, h2, h3, rfl⟩

/-! ## C14: fatal semaphore failures in the generator -/

/-- C14, as stated, fails when the failing call is the post of `mutex`. One generator
(graph 0-1) has written its candidate and advanced `wr`; it holds the mutex (count 0)
and stands at `sem_post(sem_mutex)` of line 184. The call fails: the generator exits
with `EXIT_FAILURE`, and the count of `mutex` is still 0 although no generator holds it. -/
theorem C14_failed_post_keeps_mutex_counterexample :
    ReachableWithFaults [[⟨0, 1⟩]]
      (final [[⟨0, 1⟩]] (List.replicate 6 (Action.gen 0 SemResult.ok [0, 1]) ++
        [Action.gen 0 SemResult.fail []])) ∧
    ((final [[⟨0, 1⟩]] (List.replicate 6 (Action.gen 0 SemResult.ok [0, 1]))).gens[0]?.map Gen.pc =
        some GenPc.post_mutex ∧
      (final [[⟨0, 1⟩]] (List.replicate 6 (Action.gen 0 SemResult.ok [0, 1]))).sem_mutex = 0) ∧
    step (final [[⟨0, 1⟩]] (List.replicate 6 (Action.gen 0 SemResult.ok [0, 1])))
        (Action.gen 0 SemResult.fail []) =
      some (final [[⟨0, 1⟩]] (List.replicate 6 (Action.gen 0 SemResult.ok [0, 1]) ++
        [Action.gen 0 SemResult.fail []])) ∧
    ((final [[⟨0, 1⟩]] (List.replicate 6 (Action.gen 0 SemResult.ok [0, 1]) ++
        [Action.gen 0 SemResult.fail []])).gens[0]?.map Gen.pc = some GenPc.exited ∧
      (final [[⟨0, 1⟩]] (List.replicate 6 (Action.gen 0 SemResult.ok [0, 1]) ++
        [Action.gen 0 SemResult.fail []])).gens[0]?.map Gen.status = some EXIT_FAILURE ∧
      (final [[⟨0, 1⟩]] (List.replicate 6 (Action.gen 0 SemResult.ok [0, 1]) ++
        [Action.gen 0 SemResult.fail []])).sem_mutex = 0 ∧
      count holds_mutex (final [[⟨0, 1⟩]] (List.replicate 6 (Action.gen 0 SemResult.ok [0, 1]) ++
        [Action.gen 0 SemResult.fail []])).gens = 0) := by
  refine ⟨faulty_final _ _, ⟨by decide, by decide⟩, ?_, ⟨by decide, by decide, by decide, by decide⟩⟩
  have h := final_append [[⟨0, 1⟩]] (List.replicate 6 (Action.gen 0 SemResult.ok [0, 1]))
    [Action.gen 0 SemResult.fail []] (by decide)
  simp only [run] at h
  cases hstep : step (final [[⟨0, 1⟩]] (List.replicate 6 (Action.gen 0 SemResult.ok [0, 1])))
      (Action.gen 0 SemResult.fail []) with
  | none => rw [hstep] at h; cases h
  | some u => rw [hstep] at h; exact h

/-- C14, amended. Every non-interrupt failure of a semaphore call in the publish
sequence ends the generator with `EXIT_FAILURE`; it never continues its loop (no
statement is enabled after the exit). When the wait on `mutex` or the post of `used`
fails, the generator holds nothing and exits with the counts unchanged. When the
wait on `free` fails, it makes one more post of `mutex` and exits: the mutex is
released if that post succeeds. When a post of `mutex` itself fails (line 166 or
line 184), it exits with the count of `mutex` unchanged, so the mutex stays
unreleased. -/
theorem C14_failure_exits_with_failure (s : State) (g : Nat) (G : Gen)
    (hG : s.gens[g]? = some G) :
    (G.pc = .wait_mutex ∨ G.pc = .release_eintr ∨ G.pc = .post_mutex ∨ G.pc = .post_used →
      ∀ rands : List Nat, step s (Action.gen g SemResult.fail rands) =
        some { s with gens := s.gens.set g { G with pc := .exited, status := EXIT_FAILURE } }) ∧
    (G.pc = .wait_free →
      run s [Action.gen g SemResult.fail [], Action.gen g SemResult.ok []] =
        some { s with sem_mutex := s.sem_mutex + 1,
                      gens := s.gens.set g { G with pc := .exited, status := EXIT_FAILURE } } ∧
      run s [Action.gen g SemResult.fail [], Action.gen g SemResult.fail []] =
        some { s with gens := s.gens.set g { G with pc := .exited, status := EXIT_FAILURE } }) ∧
    (G.pc = .exited → ∀ (r : SemResult) (rands : List Nat),
      step s (Action.gen g r rands) = none) := by
  have hlt : g < s.gens.length := (List.getElem?_eq_some_iff.mp hG).1
  refine ⟨?_, ?_, ?_⟩
  · intro hpc rands
    rcases hpc with hpc | hpc | hpc | hpc <;>
      simp [step, gen_step, State.setGen, hG, hpc]
  · intro hpc
    constructor <;> simp [run, step, gen_step, State.setGen, hG, hpc, hlt]
  · intro hpc r rands
    simp [step, gen_step, hG, hpc]

/-- C14, amended, for a generator that holds the mutex in the wait on `free`: the wait
fails, the post of line 173 succeeds; the generator has exited with `EXIT_FAILURE`
and the count of `mutex` is 1 again. -/
theorem C14_failure_exits_with_failure_witness :
    ∃ (G : Gen) (t : State),
      (final [[⟨0, 1⟩]] (List.replicate 2 (Action.gen 0 SemResult.ok [0, 0]))).gens[0]? =
        some G ∧
      G.pc = .wait_free ∧
      run (final [[⟨0, 1⟩]] (List.replicate 2 (Action.gen 0 SemResult.ok [0, 0])))
        [Action.gen 0 SemResult.fail [], Action.gen 0 SemResult.ok []] = some t ∧
      t.sem_mutex = 1 ∧
      t.gens[0]? = some { G with pc := .exited, status := EXIT_FAILURE } := by
  cases hG : (final [[⟨0, 1⟩]] (List.replicate 2 (Action.gen 0 SemResult.ok [0, 0]))).gens[0]? with
  | none =>
    have : ((final [[⟨0, 1⟩]]
        (List.replicate 2 (Action.gen 0 SemResult.ok [0, 0]))).gens[0]?).isSome = true := by
      decide
    rw [hG] at this
    cases this
  | some G =>
    have hpc : G.pc = .wait_free := by
      have : (final [[⟨0, 1⟩]]
          (List.replicate 2 (Action.gen 0 SemResult.ok [0, 0]))).gens[0]?.map Gen.pc =
          some GenPc.wait_free := by decide
      rw [hG] at this
      simpa using this
    have h := ((C14_failure_exits_with_failure
      (final [[⟨0, 1⟩]] (List.replicate 2 (Action.gen 0 SemResult.ok [0, 0]))) 0 G hG).2.1 hpc).1
    have h1 : (final [[⟨0, 1⟩]]
        (List.replicate 2 (Action.gen 0 SemResult.ok [0, 0]))).sem_mutex + 1 = 1 := by decide
    exact ⟨G, _, rfl, hpc, h, h1,
      List.getElem?_set_self (List.getElem?_eq_some_iff.mp hG).1⟩

theorem create_shared_memory_result (env : Env) (names : Names) (name : Name) :
    ((create_shared_memory env names name).1 = false →
      ∀ n, (create_shared_memory env names name).2 n = names n) ∧
    ((create_shared_memory env names name).1 ≠ false →
      names name = false ∧
      (create_shared_memory env names name).2 = Function.update names name true) := by
  unfold create_shared_memory
  split_ifs with h1 h2 h3
  · exact ⟨fun _ _ => rfl, fun h => absurd rfl h⟩
  · refine ⟨fun _ n => ?_, fun h => absurd rfl h⟩
    have hn : names name = false := by simpa using (not_or.mp h1).1
    by_cases e : n = name
    · subst e; simp [hn]
    · simp [Function.update_noteq e]
  · refine ⟨fun _ n => ?_, fun h => absurd rfl h⟩
    have hn : names name = false := by simpa using (not_or.mp h1).1
    by_cases e : n = name
    · subst e; simp [hn]
    · simp [Function.update_noteq e]
  · exact ⟨fun h => h.elim, fun _ => ⟨by simpa using (not_or.mp h1).1, rfl⟩⟩

theorem create_semaphore_result (env : Env) (names : Names) (name : Name) :
    ((create_semaphore env names name).1 = false →
      (create_semaphore env names name).2 = names) ∧
    ((create_semaphore env names name).1 ≠ false →
      names name = false ∧
      (create_semaphore env names name).2 = Function.update names name true) ∧
    (names name = true → (create_semaphore env names name).1 = false) := by
  unfold create_semaphore
  split_ifs with h1
  · exact ⟨fun _ => rfl, fun h => absurd rfl h, fun _ => rfl⟩
  · exact ⟨fun h => h.elim, fun _ => ⟨by simpa using (not_or.mp h1).1, rfl⟩,
      fun h => absurd (Or.inl h) h1⟩

/-- What the startup leaves behind: the handles it obtained are those of the objects
it created, none of which existed before, and all other names are as before. -/
theorem startup_result (env : Env) (names : Names) :
    ((startup env names).1.shm = true → names Name.SHM_PATH = false) ∧
    ((startup env names).1.sem_free = true → names Name.SEM_FREE_PATH = false) ∧
    ((startup env names).1.sem_used = true → names Name.SEM_USED_PATH = false) ∧
    ((startup env names).1.sem_mutex = true → names Name.SEM_MUTEX_PATH = false) ∧
    (startup env names).2 Name.SHM_PATH = (names Name.SHM_PATH || (startup env names).1.shm) ∧
    (startup env names).2 Name.SEM_FREE_PATH =
      (names Name.SEM_FREE_PATH || (startup env names).1.sem_free) ∧
    (startup env names).2 Name.SEM_USED_PATH =
      (names Name.SEM_USED_PATH || (startup env names).1.sem_used) ∧
    (startup env names).2 Name.SEM_MUTEX_PATH =
      (names Name.SEM_MUTEX_PATH || (startup env names).1.sem_mutex) := by
  obtain ⟨a1, a2⟩ := create_shared_memory_result env names Name.SHM_PATH
  unfold startup
  by_cases c1 : (create_shared_memory env names Name.SHM_PATH).1 = false
  · simp only [c1, if_true]
    simp [a1 c1]
  · obtain ⟨a3, a4⟩ := a2 c1
    simp only [c1, if_false]
    rw [a4]
    obtain ⟨b1, b2, -⟩ := create_semaphore_result env
      (Function.update names Name.SHM_PATH true) Name.SEM_FREE_PATH
    by_cases c2 : (create_semaphore env (Function.update names Name.SHM_PATH true)
        Name.SEM_FREE_PATH).1 = false
    · simp only [c2, if_true]
      rw [b1 c2]
      simp [a3, Function.update]
    · obtain ⟨b3, b4⟩ := b2 c2
      simp only [c2, if_false]
      rw [b4]
      obtain ⟨d1, d2, -⟩ := create_semaphore_result env
        (Function.update (Function.update names Name.SHM_PATH true) Name.SEM_FREE_PATH true)
        Name.SEM_USED_PATH
      by_cases c3 : (create_semaphore env
          (Function.update (Function.update names Name.SHM_PATH true) Name.SEM_FREE_PATH true)
          Name.SEM_USED_PATH).1 = false
      · simp only [c3, if_true]
        rw [d1 c3]
        simp [Function.update] at b3 ⊢
        simp [a3, b3]
      · obtain ⟨d3, d4⟩ := d2 c3
        simp only [c3, if_false]
        rw [d4]
        obtain ⟨e1, e2, -⟩ := create_semaphore_result env
          (Function.update (Function.update (Function.update names Name.SHM_PATH true)
            Name.SEM_FREE_PATH true) Name.SEM_USED_PATH true) Name.SEM_MUTEX_PATH
        by_cases c4 : (create_semaphore env
            (Function.update (Function.update (Function.update names Name.SHM_PATH true)
              Name.SEM_FREE_PATH true) Name.SEM_USED_PATH true) Name.SEM_MUTEX_PATH).1 = false
        · simp only [c4, if_true]
          rw [e1 c4]
          simp [Function.update] at b3 d3 ⊢
          simp [a3, b3, d3]
        · obtain ⟨e3, e4⟩ := e2 c4
          simp only [c4, if_false]
          rw [e4]
          simp [Function.update] at b3 d3 e3 ⊢
          simp [a3, b3, d3, e3]

/-- The cleanup removes exactly the names whose handle is non-NULL. -/
theorem cleanup_result (h : Handles) (names : Names) :
    cleanup h names Name.SHM_PATH = (names Name.SHM_PATH && !h.shm) ∧
    cleanup h names Name.SEM_FREE_PATH = (names Name.SEM_FREE_PATH && !h.sem_free) ∧
    cleanup h names Name.SEM_USED_PATH = (names Name.SEM_USED_PATH && !h.sem_used) ∧
    cleanup h names Name.SEM_MUTEX_PATH = (names Name.SEM_MUTEX_PATH && !h.sem_mutex) := by
  unfold cleanup destroy_semaphore
  cases h.shm <;> cases h.sem_free <;> cases h.sem_used <;> cases h.sem_mutex <;>
    simp [Function.update]

/-! ## C15: a failed startup leaves the names as they were -/

/-- C15. If the startup of the supervisor fails at any of the four creations (for an
existing name or for any other reason), the supervisor exits with `EXIT_FAILURE` and
exactly the names that existed before exist afterwards: what it created is removed
and what existed before is not removed. The startup fails whenever one of the four
names already exists; when it succeeds none of them existed before and all four
exist afterwards. -/
theorem C15_failed_startup_restores_names (env : Env) (names : Names) :
    (∀ (status : Nat) (after : Names),
      start_supervisor env names = StartResult.failed status after →
      status = EXIT_FAILURE ∧ ∀ n, after n = names n) ∧
    ((∃ n, names n = true) →
      ∃ after, start_supervisor env names = StartResult.failed EXIT_FAILURE after) ∧
    (∀ (h : Handles) (after : Names),
      start_supervisor env names = StartResult.running h after →
      (∀ n, names n = false) ∧ ∀ n, after n = true) := by
  obtain ⟨s1, s2, s3, s4, s5, s6, s7, s8⟩ := startup_result env names
  obtain ⟨c1, c2, c3, c4⟩ := cleanup_result (startup env names).1 (startup env names).2
  refine ⟨?_, ?_, ?_⟩
  · intro status after hres
    simp only [start_supervisor] at hres
    split_ifs at hres
    cases hres
    refine ⟨rfl, ?_⟩
    intro n
    cases n
    · rw [c1, s5]
      cases hh : (startup env names).1.shm
      · simp
      · simp [s1 hh]
    · rw [c2, s6]
      cases hh : (startup env names).1.sem_free
      · simp
      · simp [s2 hh]
    · rw [c3, s7]
      cases hh : (startup env names).1.sem_used
      · simp
      · simp [s3 hh]
    · rw [c4, s8]
      cases hh : (startup env names).1.sem_mutex
      · simp
      · simp [s4 hh]
  · rintro ⟨n, hn⟩
    simp only [start_supervisor]
    split_ifs with hall
    · exfalso
      obtain ⟨h1, h2, h3, h4⟩ := hall
      cases n
      · rw [s1 h1] at hn; cases hn
      · rw [s2 h2] at hn; cases hn
      · rw [s3 h3] at hn; cases hn
      · rw [s4 h4] at hn; cases hn
    · exact ⟨_, rfl⟩
  · intro h after hres
    simp only [start_supervisor] at hres
    split_ifs at hres with hall
    cases hres
    obtain ⟨h1, h2, h3, h4⟩ := hall
    constructor
    · intro n
      cases n
      · exact s1 h1
      · exact s2 h2
      · exact s3 h3
      · exact s4 h4
    · intro n
      cases n
      · rw [s5, h1]; simp
      · rw [s6, h2]; simp
      · rw [s7, h3]; simp
      · rw [s8, h4]; simp

/-- C15 when a semaphore `used` is left over from an earlier run: the supervisor
creates the region and `free`, fails on `used`, and removes the two objects again. -/
theorem C15_failed_startup_restores_names_witness :
    ∃ after, start_supervisor Env.calm (fun n => decide (n = Name.SEM_USED_PATH)) =
        StartResult.failed EXIT_FAILURE after ∧
      after Name.SHM_PATH = false ∧ after Name.SEM_FREE_PATH = false ∧
      after Name.SEM_USED_PATH = true ∧ after Name.SEM_MUTEX_PATH = false := by
  obtain ⟨after, h⟩ := (C15_failed_startup_restores_names Env.calm
    (fun n => decide (n = Name.SEM_USED_PATH))).2.1 ⟨Name.SEM_USED_PATH, by decide⟩
  have hn := ((C15_failed_startup_restores_names Env.calm
    (fun n => decide (n = Name.SEM_USED_PATH))).1 EXIT_FAILURE after h).2
  exact ⟨after, h, by rw [hn]; decide, by rw [hn]; decide, by rw [hn]; decide,
    by rw [hn]; decide⟩

/-- In a deadlocked state no statement of any process is enabled unless a wait is
interrupted or a call fails; only the delivery of a signal can happen, and it
changes nothing but the supervisor's flag. -/
theorem deadlocked_step (s t : State) (a : Action) (hd : deadlocked s)
    (ha : a.uninterrupted = true) (h : step s a = some t) :
    t.gens = s.gens ∧ t.shm = s.shm ∧ t.sem_free = s.sem_free ∧ t.sem_mutex = s.sem_mutex ∧
      t.sem_used = s.sem_used ∧ deadlocked t := by
  obtain ⟨h1, h2, h3, h4⟩ := hd
  cases a with
  | gen g r rands =>
    exfalso
    have hr : r = SemResult.ok := by simpa [Action.uninterrupted] using ha
    subst hr
    simp only [step] at h
    cases hG : s.gens[g]? with
    | none => rw [hG] at h; cases h
    | some G =>
      rw [hG] at h
      rcases h4 G (List.getElem?_mem hG) with hpc | hpc | hpc <;>
        simp [gen_step, hpc, h2, h3] at h
  | sup r =>
    exfalso
    simp [step, sup_step, h1] at h
  | signal =>
    simp only [step] at h
    cases h
    exact ⟨rfl, rfl, rfl, rfl, rfl, h1, h2, h3, h4⟩

theorem deadlocked_run :
    ∀ (acts : List Action) (s t : State), deadlocked s →
      (∀ a ∈ acts, a.uninterrupted = true) → run s acts = some t →
      t.gens = s.gens ∧ t.shm = s.shm ∧ t.sem_free = s.sem_free ∧
        t.sem_mutex = s.sem_mutex ∧ t.sem_used = s.sem_used ∧ deadlocked t := by
  intro acts
  induction acts with
  | nil =>
    intro s t hd _ hrun
    simp only [run, Option.some.injEq] at hrun
    subst hrun
    exact ⟨rfl, rfl, rfl, rfl, rfl, hd⟩
  | cons a rest ih =>
    intro s t hd ha hrun
    simp only [run] at hrun
    cases hstep : step s a with
    | none => rw [hstep] at hrun; cases hrun
    | some u =>
      rw [hstep] at hrun
      obtain ⟨h1, h2, h3, h4, h5, h6⟩ :=
        deadlocked_step s u a hd (ha a (List.mem_cons_self _ _)) hstep
      obtain ⟨k1, k2, k3, k4, k5, k6⟩ :=
        ih u t h6 (fun b hb => ha b (List.mem_cons_of_mem _ hb)) hrun
      exact ⟨k1.trans h1, k2.trans h2, k3.trans h3, k4.trans h4, k5.trans h5, k6⟩

/-! ## C16: more generators than the broadcast can wake -/

/-- C16. With 34 generators (more than `MAX_QUEUE_SIZE = 32`) a state is reachable in
which the supervisor has completed its broadcast and exited, 32 generators have
exited, generator 32 holds the mutex and is blocked in the wait on `free` with
`free = 0`, and generator 33 is blocked in the wait on `mutex`. From that state, as
long as no wait is interrupted and no call fails, no statement of any process is
enabled: along every such schedule the generators, the region and the three
counts stay as they are, so neither of the two generators ever leaves its wait. -/
theorem C16_excess_generators_stay_blocked :
    MAX_QUEUE_SIZE < overflow_graphs.length ∧
    Reachable overflow_graphs (final overflow_graphs overflow_schedule) ∧
    run (State.init overflow_graphs) overflow_schedule =
      some (final overflow_graphs overflow_schedule) ∧
    ((final overflow_graphs overflow_schedule).sup.pc = SupPc.exited ∧
      (final overflow_graphs overflow_schedule).shm.quit = 1 ∧
      (final overflow_graphs overflow_schedule).sem_free = 0 ∧
      (final overflow_graphs overflow_schedule).sem_mutex = 0 ∧
      (final overflow_graphs overflow_schedule).gens[32]?.map Gen.pc = some GenPc.wait_free ∧
      (final overflow_graphs overflow_schedule).gens[33]?.map Gen.pc = some GenPc.wait_mutex) ∧
    (∀ (a : Action), a.uninterrupted = true → a ≠ Action.signal →
      step (final overflow_graphs overflow_schedule) a = none) ∧
    (∀ (acts : List Action) (t : State), (∀ a ∈ acts, a.uninterrupted = true) →
      run (final overflow_graphs overflow_schedule) acts = some t →
      t.gens = (final overflow_graphs overflow_schedule).gens ∧
      t.sem_free = 0 ∧ t.sem_mutex = 0 ∧ t.sup.pc = SupPc.exited) := by
  have hd : deadlocked (final overflow_graphs overflow_schedule) := by decide
  have hfacts : (final overflow_graphs overflow_schedule).shm.quit = 1 ∧
      (final overflow_graphs overflow_schedule).gens[32]?.map Gen.pc = some GenPc.wait_free ∧
      (final overflow_graphs overflow_schedule).gens[33]?.map Gen.pc =
        some GenPc.wait_mutex := by decide
  refine ⟨by decide, reachable_final _ _ (by decide), final_eq _ _ (by decide),
    ⟨hd.1, hfacts.1, hd.2.1, hd.2.2.1, hfacts.2.1, hfacts.2.2⟩, ?_, ?_⟩
  · intro a ha hne
    cases hstep : step (final overflow_graphs overflow_schedule) a with
    | none => rfl
    | some t =>
      exfalso
      cases a with
      | signal => exact hne rfl
      | gen g r rands =>
        have hr : r = SemResult.ok := by simpa [Action.uninterrupted] using ha
        subst hr
        simp only [step] at hstep
        cases hG : (final overflow_graphs overflow_schedule).gens[g]? with
        | none => rw [hG] at hstep; cases hstep
        | some G =>
          rw [hG] at hstep
          rcases hd.2.2.2 G (List.getElem?_mem hG) with hpc | hpc | hpc <;>
            simp [gen_step, hpc, hd.2.1, hd.2.2.1] at hstep
      | sup r =>
        simp [step, sup_step, hd.1] at hstep
  · intro acts t ha hrun
    obtain ⟨h1, -, h3, h4, -, h6⟩ := deadlocked_run acts _ t hd ha hrun
    exact ⟨h1, h3.trans hd.2.1, h4.trans hd.2.2.1, h6.1⟩

/-! ## C18: the effect of one publish -/

/-- C18. A generator that holds a candidate of size `n ≥ 0` in `solution` and stands
before the wait on `mutex`, with `mutex` and `free` positive, run alone through one
publish: after `n + 6` statements it has posted `mutex` (the count is back at its
prior value) while `used` is not yet posted; the next statement posts `used` and
brings it back to the loop top. Then `queue[w][j]` holds `solution[j]` for `j < n`,
`solution_size[w] = n` and `wr = (w + 1) mod MAX_QUEUE_SIZE`, where `w` is the old
`wr`; the entries of slot `w` from `n` on, the edges and sizes of all other slots,
`rd` and `quit` are unchanged; `free` is one lower, `used` one higher and `mutex` as
before; the candidate has been appended to the history of publications. -/
theorem C18_publish_effect (s : State) (g : Nat) (G : Gen) (hG : s.gens[g]? = some G)
    (hpc : G.pc = .wait_mutex) (hm : 0 < s.sem_mutex) (hf : 0 < s.sem_free)
    (hn : 0 ≤ G.solution_size) :
    ∃ (u t : State) (H : Gen),
      run s (List.replicate (G.solution_size.toNat + 6) (Action.gen g SemResult.ok [])) =
        some u ∧
      step u (Action.gen g SemResult.ok []) = some t ∧
      (u.sem_mutex = s.sem_mutex ∧ u.sem_used = s.sem_used) ∧
      (t.gens[g]? = some H ∧ H.pc = .loop_top) ∧
      (∀ j : Nat, (j : Int) < G.solution_size → t.shm.queue s.shm.wr j = G.solution j) ∧
      (∀ j : Nat, ¬ (j : Int) < G.solution_size →
        t.shm.queue s.shm.wr j = s.shm.queue s.shm.wr j) ∧
      t.shm.solution_size s.shm.wr = G.solution_size ∧
      t.shm.wr = (s.shm.wr + 1) % MAX_QUEUE_SIZE ∧
      t.shm.rd = s.shm.rd ∧ t.shm.quit = s.shm.quit ∧
      (∀ k, k ≠ s.shm.wr → t.shm.queue k = s.shm.queue k ∧
        t.shm.solution_size k = s.shm.solution_size k) ∧
      (t.sem_free = s.sem_free - 1 ∧ t.sem_used = s.sem_used + 1 ∧
        t.sem_mutex = s.sem_mutex) ∧
      t.published = s.published ++ [(g, G.candidate)] := by
  have hlt : g < s.gens.length := (List.getElem?_eq_some_iff.mp hG).1
  -- the two waits
  have hwaits : run s (List.replicate 2 (Action.gen g SemResult.ok [])) =
      some (State.setGen { s with sem_mutex := s.sem_mutex - 1, sem_free := s.sem_free - 1 } g
        { G with pc := .copy, i := 0 }) := by
    simp [List.replicate, run, step, gen_step, State.setGen, hG, hpc, hm, hf, hlt]
  have hG1 : (State.setGen { s with sem_mutex := s.sem_mutex - 1, sem_free := s.sem_free - 1 } g
      { G with pc := .copy, i := 0 }).gens[g]? = some { G with pc := .copy, i := 0 } :=
    lookup_setGen _ g G _ hG
  have hk : ((0 + G.solution_size.toNat : Nat) : Int) = G.solution_size := by
    simp only [Nat.zero_add]
    exact Int.toNat_of_nonneg hn
  -- the copy loop
  obtain ⟨t2, H2, h1, h2, h3, h4, h5, h6, h7, h8, h9, h10, h11, h12, h13, h14, -⟩ :=
    copy_run g G.solution_size.toNat _ { G with pc := .copy, i := 0 } hG1 rfl hk
  obtain ⟨f1, f2, f3, f4, -, -⟩ :=
    copy_run_frame g G.solution_size.toNat _ t2 { G with pc := .copy, i := 0 } hG1 rfl hk h1
  -- the rest of the publish
  obtain ⟨u, t, H, k1, k2, k3, k4, k5, k6, k7, k8, k9, k10, k11, k12, k13, k14, k15, k16⟩ :=
    publish_tail t2 g H2 h2 h3 (by rw [h4, h6]; exact lt_irrefl _)
  have hwr : t2.shm.wr = s.shm.wr := h8
  have hsz : H2.solution_size = G.solution_size := h6
  have hsol : H2.solution = G.solution := h5
  refine ⟨u, t, H, ?_, k2, ⟨?_, ?_⟩, ⟨k6, k7⟩, ?_, ?_, ?_, ?_, ?_, ?_, ?_, ⟨?_, ?_, ?_⟩, ?_⟩
  · have hsplit : List.replicate (G.solution_size.toNat + 6) (Action.gen g SemResult.ok []) =
        List.replicate 2 (Action.gen g SemResult.ok []) ++
          (List.replicate G.solution_size.toNat (Action.gen g SemResult.ok []) ++
            List.replicate 4 (Action.gen g SemResult.ok [])) := by
      rw [← List.replicate_add, ← List.replicate_add]
      congr 1
      omega
    rw [hsplit, run_append, hwaits]
    simp only [Option.bind]
    rw [run_append, h1]
    exact k1
  · rw [k3, h11]
    show s.sem_mutex - 1 + 1 = s.sem_mutex
    omega
  · rw [k4, h13]
    rfl
  · intro j hj
    rw [k9]
    exact h14 j (Nat.zero_le _) hj
  · intro j hj
    rw [k9]
    have := f3 j (by
      have : (G.solution_size.toNat : Int) = G.solution_size := Int.toNat_of_nonneg hn
      simp only []
      omega)
    exact this
  · rw [k10, hwr, hsz]
    exact Function.update_same _ _ _
  · rw [k8, hwr]
  · rw [k12, f2]
    rfl
  · rw [k11, h10]
    rfl
  · intro k hk2
    constructor
    · rw [k9]
      exact f1 k hk2
    · rw [k10, hwr, Function.update_noteq hk2, h9]
      rfl
  · rw [k14, h12]
    rfl
  · rw [k15, h13]
    rfl
  · rw [k13, h11]
    show s.sem_mutex - 1 + 1 = s.sem_mutex
    omega
  · rw [k16, f4]
    simp only [Gen.candidate, hsz, hsol]
    rfl

/-- C18 on the graph 0-1 from the initial state: the generator builds the candidate of
the single edge 0-1 (both nodes coloured 0) and publishes it into slot 0. -/
theorem C18_publish_effect_witness :
    ∃ (G : Gen) (u t : State),
      (final [[⟨0, 1⟩]] [Action.gen 0 SemResult.ok [0, 0]]).gens[0]? = some G ∧
      G.solution_size = 1 ∧
      run (final [[⟨0, 1⟩]] [Action.gen 0 SemResult.ok [0, 0]])
        (List.replicate (G.solution_size.toNat + 6) (Action.gen 0 SemResult.ok [])) = some u ∧
      step u (Action.gen 0 SemResult.ok []) = some t ∧
      t.shm.solution_size 0 = 1 ∧ t.shm.wr = 1 ∧ t.sem_free = 31 ∧ t.sem_used = 1 ∧
      t.sem_mutex = 1 := by
  cases hG : (final [[⟨0, 1⟩]] [Action.gen 0 SemResult.ok [0, 0]]).gens[0]? with
  | none =>
    have : ((final [[⟨0, 1⟩]] [Action.gen 0 SemResult.ok [0, 0]]).gens[0]?).isSome = true := by
      decide
    rw [hG] at this
    cases this
  | some G =>
    have hpc : G.pc = .wait_mutex := by
      have : (final [[⟨0, 1⟩]] [Action.gen 0 SemResult.ok [0, 0]]).gens[0]?.map Gen.pc =
          some GenPc.wait_mutex := by decide
      rw [hG] at this
      simpa using this
    have hsz : G.solution_size = 1 := by
      have : (final [[⟨0, 1⟩]] [Action.gen 0 SemResult.ok [0, 0]]).gens[0]?.map
          Gen.solution_size = some 1 := by decide
      rw [hG] at this
      simpa using this
    obtain ⟨u, t, H, h1, h2, -, -, -, -, h7, h8, -, -, -, ⟨h12, h13, h14⟩, -⟩ :=
      C18_publish_effect (final [[⟨0, 1⟩]] [Action.gen 0 SemResult.ok [0, 0]]) 0 G hG hpc
        (by decide) (by decide) (by rw [hsz]; decide)
    have hw : (final [[⟨0, 1⟩]] [Action.gen 0 SemResult.ok [0, 0]]).shm.wr = 0 := by decide
    rw [hw] at h7 h8
    refine ⟨G, u, t, rfl, hsz, h1, h2, h7.trans hsz, h8, ?_, ?_, ?_⟩
    · rw [h12]; decide
    · rw [h13]; decide
    · rw [h14]; decide

theorem bounds_init (graphs : List (List Edge)) : Bounds (State.init graphs) := by
  refine ⟨by simp [State.init, Shared.zero, MAX_QUEUE_SIZE],
    by simp [State.init, Shared.zero, MAX_QUEUE_SIZE], ?_⟩
  intro g G hG hpc
  simp only [State.init, List.getElem?_map] at hG
  cases hg : graphs[g]? with
  | none => rw [hg] at hG; cases hG
  | some es =>
    rw [hg] at hG
    simp only [Option.map_some', Option.some.injEq] at hG
    rw [← hG] at hpc
    cases hpc

theorem bounds_trans (graphs : List (List Edge)) (s t : State) (hs : Safe graphs s)
    (hb : Bounds s) (h : Trans s t) : Bounds t := by
  obtain ⟨hw, hr, hi⟩ := hb
  cases h with
  | gen g G hG hstep =>
    have hloc := hs.local_sizes g G hG
    have hold := hi g G hG
    have key : ∀ (u : State) (K : Gen), u.gens = s.gens →
        (K.pc = .copy → (K.i : Int) ≤ K.solution_size) →
        ∀ (h2 : Nat) (H : Gen), (State.setGen u g K).gens[h2]? = some H → H.pc = .copy →
          (H.i : Int) ≤ H.solution_size := by
      intro u K hu hK h2 H hH hpc
      simp only [State.setGen, hu] at hH
      rcases lookup_set s.gens g h2 G H K hG hH with ⟨_, e⟩ | ⟨_, e⟩
      · subst e; exact hK hpc
      · exact hi h2 H e hpc
    cases hstep with
    | reserve hpc hf =>
      refine ⟨hw, hr, key _ _ rfl ?_⟩
      intro _
      have := (hloc (by simp [hpc, has_candidate])).1
      simpa using this
    | copy_edge hpc hlt =>
      refine ⟨by simpa [State.setGen, Shared.store_edge] using hw,
        by simpa [State.setGen, Shared.store_edge] using hr, key _ _ rfl ?_⟩
      intro _
      simp only [Nat.cast_add, Nat.cast_one]
      omega
    | set_size hpc =>
      exact ⟨by simpa [State.setGen, Shared.store_size] using hw,
        by simpa [State.setGen, Shared.store_size] using hr,
        key _ _ rfl (fun e => by simp at e)⟩
    | advance_wr hpc =>
      refine ⟨?_, by simpa [State.setGen, Shared.advance_wr] using hr,
        key _ _ rfl (fun e => by simp at e)⟩
      simp only [State.setGen, Shared.advance_wr, MAX_QUEUE_SIZE]
      omega
    | _ => exact ⟨hw, hr, key _ _ rfl (fun e => by simp at e)⟩
  | sup hstep =>
    cases hstep with
    | advance_rd hpc =>
      refine ⟨by simpa [Shared.advance_rd] using hw, ?_, hi⟩
      simp only [Shared.advance_rd, MAX_QUEUE_SIZE]
      omega
    | set_quit hpc => exact ⟨hw, hr, hi⟩
    | _ => exact ⟨hw, hr, hi⟩

theorem reachable_bounds (graphs : List (List Edge)) (s : State) (h : Reachable graphs s) :
    Bounds s := by
  induction h with
  | init => exact bounds_init graphs
  | step s a t hreach hf hstep ih =>
    exact bounds_trans graphs s t (reachable_safe graphs s hreach) ih (step_trans s t a hstep hf)

/-! ## C22: free slots, used slots and unconsumed candidates -/

/-- C22. In every state reachable before shutdown: when no publish or consume is in
progress, `free + used = MAX_QUEUE_SIZE` and `used` is the number of published and
unconsumed candidates; the `j`-th unconsumed candidate is held by slot `unread_slot s j`;
and for a generator that has passed its wait on `free` (it is in the copy loop, at the
store of the size or at the advance of `wr`), slot `wr` is none of these slots and its
next statement leaves every one of them as it is. -/
theorem C22_no_unread_slot_overwritten (graphs : List (List Edge)) (s : State)
    (h : Reachable graphs s) (hl : in_loop s.sup.pc = true) :
    (quiescent s →
      s.sem_free + s.sem_used = MAX_QUEUE_SIZE ∧ s.sem_used = unconsumed s) ∧
    (∀ j, j < unconsumed s →
      (s.published.map Prod.snd)[s.consumed.length + j]? = some (s.shm.slot (unread_slot s j))) ∧
    (∀ (g : Nat) (G : Gen), s.gens[g]? = some G → in_write G.pc = 1 →
      (∀ j, j < unconsumed s → unread_slot s j ≠ s.shm.wr) ∧
      ∀ (r : SemResult) (rands : List Nat) (t : State),
        step s (Action.gen g r rands) = some t →
        ∀ j, j < unconsumed s → t.shm.slot (unread_slot s j) = s.shm.slot (unread_slot s j)) := by
  have hr := reachable_ring graphs s h hl
  obtain ⟨pend, ha, hb, hc⟩ := hr.pending
  have hlen : unconsumed s = pend.length := by
    have := congrArg List.length ha
    simp only [List.length_map, List.length_append] at this
    unfold unconsumed
    omega
  have hfar : ∀ (g : Nat) (G : Gen), s.gens[g]? = some G → in_write G.pc = 1 →
      ∀ j, j < unconsumed s → unread_slot s j ≠ s.shm.wr := by
    intro g G hG hw j hj
    have hlt := unread_lt_of_writer s hr g G hG hw
    have hcur := hr.cursor
    have hrd := hr.rd_lt
    rw [hlen] at hj
    unfold unread_slot
    rw [hcur]
    simp only [MAX_QUEUE_SIZE] at hlt hrd ⊢
    omega
  refine ⟨?_, ?_, ?_⟩
  · intro hq
    have h1 := hr.slots
    have hw : count in_write s.gens = 0 := count_zero _ _ (fun G hG => (hq.1 G hG).1)
    have hf : count in_flight s.gens = 0 := count_zero _ _ (fun G hG => (hq.1 G hG).2)
    have hsk : skipped s.sup.pc = 0 := by
      have := hq.2.1
      cases hpc : s.sup.pc <;> simp [hpc, taken, skipped] at this ⊢
    simp only [unread, hw, hf, hq.2.1, hq.2.2, hsk, Nat.add_zero] at h1 hb
    exact ⟨by omega, by omega⟩
  · intro j hj
    rw [hlen] at hj
    rw [ha, List.getElem?_append_right (by omega), Nat.add_sub_cancel_left]
    exact hc j hj
  · intro g G hG hw
    refine ⟨hfar g G hG hw, ?_⟩
    intro r rands t hstep j hj
    have hne := hfar g G hG hw j hj
    simp only [step, hG] at hstep
    unfold gen_step at hstep
    cases hpc : G.pc <;> rw [hpc] at hw <;> (try exact absurd hw (by decide)) <;>
      simp only [hpc] at hstep
    · split_ifs at hstep
      · cases hstep
        simp only [State.setGen, slot_store_edge _ _ _ _ hne]
      · cases hstep
        rfl
    · cases hstep
      simp only [State.setGen, slot_store_size _ _ _ hne]
    · cases hstep
      rfl

/-- C22 on the graph 0-1: after one publish nothing is in progress, `free = 31`,
`used = 1` and one candidate is unconsumed, in slot 0; when the generator has then
passed its wait on `free` again, `wr = 1` is not that slot. -/
theorem C22_no_unread_slot_overwritten_witness :
    Reachable [[⟨0, 1⟩]] (final [[⟨0, 1⟩]] (publish_schedule 0 [0, 0] 1)) ∧
    quiescent (final [[⟨0, 1⟩]] (publish_schedule 0 [0, 0] 1)) ∧
    (final [[⟨0, 1⟩]] (publish_schedule 0 [0, 0] 1)).sem_free +
        (final [[⟨0, 1⟩]] (publish_schedule 0 [0, 0] 1)).sem_used = MAX_QUEUE_SIZE ∧
    (final [[⟨0, 1⟩]] (publish_schedule 0 [0, 0] 1)).sem_used = 1 ∧
    unconsumed (final [[⟨0, 1⟩]] (publish_schedule 0 [0, 0] 1)) = 1 ∧
    Reachable [[⟨0, 1⟩]] (final [[⟨0, 1⟩]] second_write_schedule) ∧
    (final [[⟨0, 1⟩]] second_write_schedule).gens.map Gen.pc = [GenPc.copy] ∧
    unconsumed (final [[⟨0, 1⟩]] second_write_schedule) = 1 ∧
    (final [[⟨0, 1⟩]] second_write_schedule).shm.wr = 1 ∧
    unread_slot (final [[⟨0, 1⟩]] second_write_schedule) 0 ≠
      (final [[⟨0, 1⟩]] second_write_schedule).shm.wr :=
  have hr1 : Reachable [[⟨0, 1⟩]] (final [[⟨0, 1⟩]] (publish_schedule 0 [0, 0] 1)) :=
    reachable_final _ _ (by decide)
  have hr2 : Reachable [[⟨0, 1⟩]] (final [[⟨0, 1⟩]] second_write_schedule) :=
    reachable_final _ _ (by decide)
  have hq := (C22_no_unread_slot_overwritten [[⟨0, 1⟩]]
    (final [[⟨0, 1⟩]] (publish_schedule 0 [0, 0] 1)) hr1 (by decide)).1 (by decide)
  have hu : unconsumed (final [[⟨0, 1⟩]] second_write_schedule) = 1 := by decide
  have hg : ∃ G, (final [[⟨0, 1⟩]] second_write_schedule).gens[0]? = some G ∧
      in_write G.pc = 1 := by
    cases hG : (final [[⟨0, 1⟩]] second_write_schedule).gens[0]? with
    | none =>
      have hsome : ((final [[⟨0, 1⟩]] second_write_schedule).gens[0]?).isSome = true := by decide
      rw [hG] at hsome
      cases hsome
    | some G =>
      have hpc : ((final [[⟨0, 1⟩]] second_write_schedule).gens[0]?).map
          (fun G => in_write G.pc) = some 1 := by decide
      rw [hG] at hpc
      exact ⟨G, rfl, by simpa using hpc⟩
  ⟨hr1, by decide, hq.1, by decide, by decide, hr2, by decide, hu, by decide,
    hg.elim (fun G hG =>
      ((C22_no_unread_slot_overwritten [[⟨0, 1⟩]] (final [[⟨0, 1⟩]] second_write_schedule)
        hr2 (by decide)).2.2 0 G hG.1 hG.2).1 0 (by rw [hu]; decide))⟩

/-! ## C23: array accesses stay in bounds -/

/-- C23. In every reachable state `wr` and `rd` are below `MAX_QUEUE_SIZE`; the index of
a generator's copy loop is at most `MAX_BAD_EDGES` and below it whenever the body of
the loop runs; and every access of the next statement of a generator or of the
supervisor to `queue` or `solution_size` is inside the arrays. -/
theorem C23_accesses_in_bounds (graphs : List (List Edge)) (s : State)
    (h : Reachable graphs s) :
    s.shm.wr < MAX_QUEUE_SIZE ∧ s.shm.rd < MAX_QUEUE_SIZE ∧
    (∀ (g : Nat) (G : Gen), s.gens[g]? = some G → G.pc = .copy →
      G.i ≤ MAX_BAD_EDGES ∧ ((G.i : Int) < G.solution_size → G.i < MAX_BAD_EDGES)) ∧
    (∀ (g : Nat) (G : Gen), s.gens[g]? = some G →
      ∀ a ∈ gen_accesses s G, a.in_bounds = true) ∧
    (∀ a ∈ sup_accesses s, a.in_bounds = true) := by
  obtain ⟨hw, hr, hi⟩ := reachable_bounds graphs s h
  have hs := reachable_safe graphs s h
  have hcopy : ∀ (g : Nat) (G : Gen), s.gens[g]? = some G → G.pc = .copy →
      G.i ≤ MAX_BAD_EDGES ∧ ((G.i : Int) < G.solution_size → G.i < MAX_BAD_EDGES) := by
    intro g G hG hpc
    have h1 := (hs.local_sizes g G hG (by simp [hpc, has_candidate])).2
    have h2 := hi g G hG hpc
    simp only [MAX_BAD_EDGES, Nat.cast_ofNat] at h1 ⊢
    constructor
    · omega
    · intro _; omega
  refine ⟨hw, hr, hcopy, ?_, ?_⟩
  · intro g G hG a ha
    unfold gen_accesses at ha
    cases hpc : G.pc <;> simp only [hpc, List.not_mem_nil] at ha
    · split_ifs at ha with hlt
      · simp only [List.mem_singleton] at ha
        subst ha
        simp [Access.in_bounds, hw, (hcopy g G hG hpc).2 hlt]
      · cases ha
    · simp only [List.mem_singleton] at ha
      subst ha
      simp [Access.in_bounds, hw]
  · intro a ha
    unfold sup_accesses at ha
    cases hpc : s.sup.pc <;> simp only [hpc, List.not_mem_nil] at ha
    rcases List.mem_cons.mp ha with ha | ha
    · subst ha
      simp [Access.in_bounds, hr]
    · split_ifs at ha
      · obtain ⟨i, hi2, rfl⟩ := List.mem_map.mp ha
        rw [List.mem_range] at hi2
        have hsz := (hs.sizes s.shm.rd).2
        simp only [MAX_BAD_EDGES, Nat.cast_ofNat] at hsz
        have : i < MAX_BAD_EDGES := by
          simp only [MAX_BAD_EDGES]
          omega
        simp [Access.in_bounds, hr, this]
      · cases ha

/-- C23 on the graph of twelve edges 0-1: after eleven copies the next statement stores
`queue[0][11]`, inside the array; after twelve copies the index is 12 and the loop
ends without a further access. -/
theorem C23_accesses_in_bounds_witness :
    Reachable [twelve_edges] (final [twelve_edges] (copy_schedule 11)) ∧
    (final [twelve_edges] (copy_schedule 11)).gens.map
        (gen_accesses (final [twelve_edges] (copy_schedule 11))) = [[Access.queue 0 11]] ∧
    (final [twelve_edges] (copy_schedule 12)).gens.map (fun G => (G.pc, G.i)) =
      [(GenPc.copy, 12)] ∧
    (final [twelve_edges] (copy_schedule 12)).gens.map
        (gen_accesses (final [twelve_edges] (copy_schedule 12))) = [[]] ∧
    (final [twelve_edges] (copy_schedule 11)).shm.wr < MAX_QUEUE_SIZE ∧
    (final [twelve_edges] (copy_schedule 11)).shm.rd < MAX_QUEUE_SIZE :=
  have hr : Reachable [twelve_edges] (final [twelve_edges] (copy_schedule 11)) :=
    reachable_final _ _ (by decide)
  ⟨hr, by decide, by decide, by decide,
    (C23_accesses_in_bounds [twelve_edges] (final [twelve_edges] (copy_schedule 11)) hr).1,
    (C23_accesses_in_bounds [twelve_edges] (final [twelve_edges] (copy_schedule 11)) hr).2.1⟩

end ThreeColor

namespace Forksort

theorem strcmp_swap : ∀ (x y : Line), strcmp y x = - strcmp x y := by
  intro x
  induction x with
  | nil =>
    intro y
    cases y with
    | nil => rfl
    | cons b bs => simp [strcmp]
  | cons a as ih =>
    intro y
    cases y with
    | nil => simp [strcmp]
    | cons b bs =>
      by_cases hab : a = b
      · subst hab
        by_cases h0 : a = 0
        · simp [strcmp, h0]
        · simp [strcmp, h0, ih bs]
      · have hba : b ≠ a := fun e => hab e.symm
        simp only [strcmp, ne_eq, hab, hba, not_false_eq_true, if_true]
        omega

theorem strcmp_total (x y : Line) : strcmp x y ≤ 0 ∨ strcmp y x ≤ 0 := by
  rw [strcmp_swap x y]
  omega

theorem strcmp_trans : ∀ (x y z : Line), strcmp x y ≤ 0 → strcmp y z ≤ 0 → strcmp x z ≤ 0 := by
  intro x
  induction x with
  | nil =>
    intro y z _ _
    cases z with
    | nil => simp [strcmp]
    | cons c cs => simp [strcmp]
  | cons a as ih =>
    intro y z hxy hyz
    cases y with
    | nil =>
      simp only [strcmp] at hxy
      cases z with
      | nil => simpa [strcmp] using hxy
      | cons c cs =>
        by_cases hac : a = c
        · simp only [strcmp, ne_eq, hac, not_true_eq_false, if_false]
          have : c = 0 := by omega
          simp [this]
        · simp only [strcmp, ne_eq, hac, not_false_eq_true, if_true]
          omega
    | cons b bs =>
      cases z with
      | nil =>
        simp only [strcmp] at hyz
        have hb : b = 0 := by omega
        subst hb
        by_cases ha : a = 0
        · simp [strcmp, ha]
        · simp only [strcmp, ne_eq, ha, not_false_eq_true, if_true] at hxy
          omega
      | cons c cs =>
        by_cases hab : a = b
        · subst hab
          by_cases hac : a = c
          · subst hac
            by_cases h0 : a = 0
            · simp [strcmp, h0]
            · simp only [strcmp, ne_eq, not_true_eq_false, if_false, h0] at hxy hyz ⊢
              exact ih bs cs hxy hyz
          · simp only [strcmp, ne_eq, hac, not_false_eq_true, if_true] at hyz ⊢
            exact hyz
        · simp only [strcmp, ne_eq, hab, not_false_eq_true, if_true] at hxy
          by_cases hbc : b = c
          · subst hbc
            simp only [strcmp, ne_eq, hab, not_false_eq_true, if_true]
            exact hxy
          · simp only [strcmp, ne_eq, hbc, not_false_eq_true, if_true] at hyz
            have hac : a ≠ c := by omega
            simp only [strcmp, ne_eq, hac, not_false_eq_true, if_true]
            omega

theorem cstr_eq (line : Line) (h : (0 : Nat) ∉ line) : cstr line = line := by
  unfold cstr
  rw [List.takeWhile_eq_self_iff]
  intro b hb
  have : b ≠ 0 := fun e => h (e ▸ hb)
  simpa using this

theorem cstr_nul_free (line : Line) : (0 : Nat) ∉ cstr line := by
  intro h
  have := List.mem_takeWhile_imp h
  simp at this

theorem cstr_idem (line : Line) : cstr (cstr line) = cstr line :=
  cstr_eq _ (cstr_nul_free line)

theorem map_cstr_eq (lines : List Line) (h : nul_free lines) : lines.map cstr = lines := by
  induction lines with
  | nil => rfl
  | cons x xs ih =>
    rw [List.map_cons, cstr_eq x (h x (List.mem_cons_self _ _)),
      ih (fun l hl => h l (List.mem_cons_of_mem _ hl))]

theorem map_cstr_nul_free (lines : List Line) : nul_free (lines.map cstr) := by
  intro l hl
  obtain ⟨w, _, rfl⟩ := List.mem_map.mp hl
  exact cstr_nul_free w

theorem nul_free_tail (x : Line) (xs : List Line) (h : nul_free (x :: xs)) : nul_free xs :=
  fun l hl => h l (List.mem_cons_of_mem _ hl)

/-- The output of `merge` is a permutation of the C strings of the lines read. -/
theorem merge_perm (xs ys : List Line) : (merge xs ys).Perm ((xs ++ ys).map cstr) := by
  induction xs, ys using merge.induct with
  | case1 => simp [merge]
  | case2 x xs ih =>
    rw [merge]
    exact List.Perm.cons (cstr x) ih
  | case3 y ys ih =>
    rw [merge]
    exact List.Perm.cons (cstr y) ih
  | case4 x xs y ys h ih =>
    rw [merge, if_pos h]
    exact List.Perm.cons (cstr x) ih
  | case5 x xs y ys h ih =>
    rw [merge, if_neg h]
    refine (List.Perm.cons (cstr y) ih).trans ?_
    have e := (@List.perm_middle _ (cstr y) (List.map cstr (x :: xs)) (List.map cstr ys)).symm
    simpa using e

theorem mem_merge (z : Line) (xs ys : List Line) (hx : nul_free xs) (hy : nul_free ys) :
    z ∈ merge xs ys ↔ z ∈ xs ∨ z ∈ ys := by
  rw [(merge_perm xs ys).mem_iff, List.map_append, map_cstr_eq xs hx, map_cstr_eq ys hy,
    List.mem_append]

theorem merge_sorted (xs ys : List Line) (nx : nul_free xs) (ny : nul_free ys)
    (hx : sorted xs) (hy : sorted ys) : sorted (merge xs ys) := by
  unfold sorted at *
  induction xs, ys using merge.induct with
  | case1 => simp [merge]
  | case2 x xs ih =>
    rw [merge, cstr_eq x (nx x (List.mem_cons_self _ _))]
    have nx2 := nul_free_tail x xs nx
    rw [List.pairwise_cons] at hx ⊢
    refine ⟨?_, ih nx2 ny hx.2 hy⟩
    intro z hz
    rcases (mem_merge z xs [] nx2 ny).mp hz with hz | hz
    · exact hx.1 z hz
    · cases hz
  | case3 y ys ih =>
    rw [merge, cstr_eq y (ny y (List.mem_cons_self _ _))]
    have ny2 := nul_free_tail y ys ny
    rw [List.pairwise_cons] at hy ⊢
    refine ⟨?_, ih nx ny2 hx hy.2⟩
    intro z hz
    rcases (mem_merge z [] ys nx ny2).mp hz with hz | hz
    · cases hz
    · exact hy.1 z hz
  | case4 x xs y ys h ih =>
    rw [merge, if_pos h, cstr_eq x (nx x (List.mem_cons_self _ _))]
    have nx2 := nul_free_tail x xs nx
    have hx2 := List.pairwise_cons.mp hx
    have hy2 := List.pairwise_cons.mp hy
    rw [List.pairwise_cons]
    refine ⟨?_, ih nx2 ny hx2.2 hy⟩
    intro z hz
    rcases (mem_merge z xs (y :: ys) nx2 ny).mp hz with hz | hz
    · exact hx2.1 z hz
    · rcases List.mem_cons.mp hz with rfl | hz
      · exact h
      · exact strcmp_trans x y z h (hy2.1 z hz)
  | case5 x xs y ys h ih =>
    rw [merge, if_neg h, cstr_eq y (ny y (List.mem_cons_self _ _))]
    have ny2 := nul_free_tail y ys ny
    have hx2 := List.pairwise_cons.mp hx
    have hy2 := List.pairwise_cons.mp hy
    have hyx : strcmp y x ≤ 0 := by
      rcases strcmp_total x y with h1 | h1
      · exact absurd h1 h
      · exact h1
    rw [List.pairwise_cons]
    refine ⟨?_, ih nx ny2 hx hy2.2⟩
    intro z hz
    rcases (mem_merge z (x :: xs) ys nx ny2).mp hz with hz | hz
    · rcases List.mem_cons.mp hz with rfl | hz
      · exact hyx
      · exact strcmp_trans y x z hyx (hx2.1 z hz)
    · exact hy2.1 z hz

/-- The children receive, between them, the C strings of the lines read. -/
theorem distribute_perm :
    ∀ (lines : List Line) (p : Nat),
      ((distribute p lines).1 ++ (distribute p lines).2).Perm (lines.map cstr) := by
  intro lines
  induction lines with
  | nil => intro _; simp [distribute]
  | cons a t ih =>
    intro p
    have h := ih (1 - p)
    by_cases hp : p = 0
    · simp only [distribute, if_pos hp, List.cons_append, List.map_cons]
      exact List.Perm.cons (cstr a) h
    · simp only [distribute, if_neg hp, List.map_cons]
      exact (List.perm_middle).trans (List.Perm.cons (cstr a) h)

/-- The output of forksort is a permutation of the C strings of the input lines. -/
theorem forksort_perm (lines : List Line) : (forksort lines).Perm (lines.map cstr) := by
  induction lines using forksort.induct with
  | case1 => simp [forksort]
  | case2 line => simp [forksort]
  | case3 line second rest ih1 ih2 =>
    rw [forksort]
    have hd := distribute_perm (line :: second :: rest) 0
    have h1 := (merge_perm _ _).trans ((List.Perm.append ih1 ih2).map cstr)
    rw [← List.map_append] at h1
    have h2 := (h1.trans ((hd.map cstr).map cstr))
    simpa [Function.comp_def, cstr_idem] using h2

theorem forksort_nul_free (lines : List Line) : nul_free (forksort lines) := by
  intro l hl
  have := (forksort_perm lines).mem_iff.mp hl
  exact map_cstr_nul_free lines l this

theorem forksort_sorted (lines : List Line) : sorted (forksort lines) := by
  induction lines using forksort.induct with
  | case1 => simp [forksort, sorted]
  | case2 line => simp [forksort, sorted]
  | case3 line second rest ih1 ih2 =>
    rw [forksort]
    exact merge_sorted _ _ (forksort_nul_free _) (forksort_nul_free _) ih1 ih2

end Forksort

namespace Forksort

/-- The lines "c", "a", "b", "a" are written as "a", "a", "b", "c". -/
theorem forksort_example :
    forksort [[99], [97], [98], [97]] = [[97], [97], [98], [99]] := by
  simp [forksort, distribute, merge, strcmp, cstr]

/-- C17, as stated, fails on a line with a NUL byte. On the input lines "b\0z" and "a"
the parent writes the first line to its child with `%s`, which stops at the NUL, and
the output is "a", "b": not a permutation of the input lines. -/
theorem C17_nul_line_is_cut_counterexample :
    forksort [[98, 0, 122], [97]] = [[97], [98]] ∧
    ¬ (forksort [[98, 0, 122], [97]]).Perm [[98, 0, 122], [97]] := by
  have h : forksort [[98, 0, 122], [97]] = [[97], [98]] := by
    simp [forksort, distribute, merge, strcmp, cstr]
  refine ⟨h, ?_⟩
  rw [h]
  intro hp
  have := hp.mem_iff (a := [98, 0, 122])
  simp at this

/-- C17, amended: for every sequence of input lines none of which contains a NUL byte,
the output of forksort is a permutation of the input lines and is non-decreasing in
the order of strcmp. -/
theorem C17_forksort_sorts (lines : List Line) (h : nul_free lines) :
    (forksort lines).Perm lines ∧
    (forksort lines).Pairwise (fun a b => strcmp a b ≤ 0) := by
  refine ⟨?_, forksort_sorted lines⟩
  have hp := forksort_perm lines
  rw [map_cstr_eq lines h] at hp
  exact hp

/-- C17, amended, on the lines "c", "a", "b", "a". -/
theorem C17_forksort_sorts_witness :
    nul_free [[99], [97], [98], [97]] ∧
    (forksort [[99], [97], [98], [97]]).Perm [[99], [97], [98], [97]] ∧
    (forksort [[99], [97], [98], [97]]).Pairwise (fun a b => strcmp a b ≤ 0) :=
  ⟨by decide, C17_forksort_sorts [[99], [97], [98], [97]] (by decide)⟩

end Forksort

namespace HttpServer

theorem is_delim_iff (c : Char) :
    is_delim c = decide (c = ' ' ∨ c = Char.ofNat 9 ∨ c = Char.ofNat 13 ∨ c = Char.ofNat 10) := by
  have h : delim = [' ', Char.ofNat 9, Char.ofNat 13, Char.ofNat 10] := by decide
  simp [is_delim, h]

theorem tokens_eq (line : List Char) :
    tokens line = (line.splitOnP is_delim).filter (fun t => decide (t ≠ [])) := by
  have h : is_delim = (fun c =>
      decide (c = ' ' ∨ c = Char.ofNat 9 ∨ c = Char.ofNat 13 ∨ c = Char.ofNat 10)) :=
    funext is_delim_iff
  rw [h]
  rfl

theorem tokens_nil : tokens [] = [] := by
  rw [tokens_eq]
  simp [List.splitOnP_nil]

theorem tokens_cons_delim (c : Char) (s : List Char) (h : is_delim c = true) :
    tokens (c :: s) = tokens s := by
  rw [tokens_eq, tokens_eq, List.splitOnP_cons, if_pos h]
  simp

theorem splitOnP_take_drop (s : List Char) :
    s.splitOnP is_delim =
      s.takeWhile (fun d => !is_delim d) ::
        (match s.dropWhile (fun d => !is_delim d) with
          | [] => []
          | _ :: r => r.splitOnP is_delim) := by
  induction s with
  | nil => simp [List.splitOnP_nil]
  | cons a t ih =>
    rw [List.splitOnP_cons]
    by_cases h : is_delim a = true
    · simp [h]
    · simp only [h, if_false]
      rw [ih]
      simp [List.takeWhile, List.dropWhile, h, List.modifyHead]

theorem tokens_cons_other (c : Char) (s : List Char) (h : is_delim c = false) :
    tokens (c :: s) =
      (c :: s.takeWhile (fun d => !is_delim d)) ::
        tokens ((s.dropWhile (fun d => !is_delim d)).drop 1) := by
  rw [tokens_eq, tokens_eq, splitOnP_take_drop (c :: s)]
  simp only [List.takeWhile, List.dropWhile, h, Bool.not_false]
  cases hd : s.dropWhile (fun d => !is_delim d) with
  | nil => simp [List.splitOnP_nil]
  | cons a r => simp

/-- One call of `strtok` returns the first token and leaves the remaining tokens. -/
theorem strtok_tokens (s : List Char) :
    (strtok s).1 = (tokens s).head? ∧ tokens (strtok s).2 = (tokens s).tail := by
  induction s with
  | nil => simp [strtok, tokens_nil]
  | cons c t ih =>
    by_cases h : is_delim c = true
    · rw [tokens_cons_delim c t h]
      have e : strtok (c :: t) = strtok t := by
        simp [strtok, List.dropWhile, h]
      rw [e]
      exact ih
    · have h2 : is_delim c = false := by simpa using h
      rw [tokens_cons_other c t h2]
      simp [strtok, List.dropWhile, List.takeWhile, h2]

theorem strtok_token_ne_nil (s t : List Char) (h : (strtok s).1 = some t) : t ≠ [] := by
  unfold strtok at h
  split at h
  · cases h
  · simp only [Option.some.injEq] at h
    rename_i c rest heq
    have hc : is_delim c = false := by
      have := List.head_dropWhile_not is_delim s (by rw [heq]; simp)
      simpa [heq] using this
    rw [← h]
    simp [List.takeWhile, hc]

theorem getElem?_last (s : List Char) : s[s.length - 1]? = s.getLast? := by
  rw [List.getLast?_eq_getElem?]

theorem expanded_path_eq (args : args_t) (path : List Char) :
    args.root ++
        (if args.root.length = 0 ∨ args.root[args.root.length - 1]? ≠ some '/'
          then ['/'] else []) ++
        path ++
        (if 0 < path.length ∧ path[path.length - 1]? = some '/' then args.index else []) =
      expanded_path args path := by
  unfold expanded_path ends_in_slash
  rw [getElem?_last, getElem?_last]
  have h1 : (args.root.length = 0 ∨ args.root.getLast? ≠ some '/') ↔
      ¬ (args.root.getLast? = some '/') := by
    constructor
    · rintro (h | h)
      · have : args.root = [] := List.length_eq_zero.mp h
        rw [this]; simp
      · exact h
    · intro h; exact Or.inr h
  have h2 : (0 < path.length ∧ path.getLast? = some '/') ↔ path.getLast? = some '/' := by
    constructor
    · exact fun h => h.2
    · intro h
      refine ⟨?_, h⟩
      cases path with
      | nil => simp at h
      | cons a t => simp
  simp only [h1, h2, decide_eq_true_eq]
  by_cases hr : args.root.getLast? = some '/' <;> by_cases hp : path.getLast? = some '/' <;>
    simp [hr, hp]

/-- The result of `parse_first_request_line` by the list of tokens of the line. -/
theorem parse_by_tokens (line : List Char) (args : args_t) (calloc_ok : Bool) :
    parse_first_request_line line args calloc_ok =
      match tokens line with
      | [method, path, version] =>
        if version ≠ "HTTP/1.1".toList then (.BAD_REQUEST, none)
        else if method ≠ "GET".toList then (.NOT_IMPLEMENTED, none)
        else if calloc_ok = false then (.INTERNAL_SERVER_ERROR, none)
        else (.OK, some (expanded_path args path))
      | _ => (.BAD_REQUEST, none) := by
  have h1 := strtok_tokens line
  have h2 := strtok_tokens (strtok line).2
  have h3 := strtok_tokens (strtok (strtok line).2).2
  have h4 := strtok_tokens (strtok (strtok (strtok line).2).2).2
  rw [h1.2] at h2
  rw [h2.2] at h3
  rw [h3.2] at h4
  have hp := strtok_token_ne_nil (strtok line).2
  unfold parse_first_request_line
  simp only [h1.1, h2.1, h3.1, h4.1] at hp ⊢
  rcases htk : tokens line with _ | ⟨a, _ | ⟨b, _ | ⟨c, _ | ⟨d, rest⟩⟩⟩⟩
  · simp
  · simp
  · simp
  · have hb : b ≠ [] := hp b (by simp [htk])
    have hb2 : b.head? ≠ none := by
      cases b with
      | nil => exact absurd rfl hb
      | cons x t => simp
    simp only [List.head?_cons, List.tail_cons, List.head?_nil, ne_eq, not_true_eq_false,
      if_false, hb2, or_false, expanded_path_eq]
  · simp

end HttpServer

namespace HttpServer

/-- C20: with the allocation succeeding, `parse_first_request_line` returns BAD_REQUEST
exactly when the line does not split on space, tab, CR and LF into three tokens whose
third is "HTTP/1.1"; with three such tokens and a method other than "GET" it returns
NOT_IMPLEMENTED and a NULL path; with the method "GET" it returns OK and the path made of
the root, a slash unless the root ends in one, the request path, and the index name if
and only if the request path ends in a slash, which fits the allocated buffer with its
terminator. Whatever the allocation does, every result other than OK leaves `full_path`
NULL. -/
theorem C20_request_line_result (line : List Char) (args : args_t) :
    ((parse_first_request_line line args true).1 = .BAD_REQUEST ↔
      ¬ ∃ method path, tokens line = [method, path, "HTTP/1.1".toList]) ∧
    (∀ method path, tokens line = [method, path, "HTTP/1.1".toList] →
      method ≠ "GET".toList →
      parse_first_request_line line args true = (.NOT_IMPLEMENTED, none)) ∧
    (∀ path, tokens line = ["GET".toList, path, "HTTP/1.1".toList] →
      parse_first_request_line line args true = (.OK, some (expanded_path args path)) ∧
      (expanded_path args path).length + 1 ≤ allocated args path) ∧
    (∀ calloc_ok, (parse_first_request_line line args calloc_ok).1 ≠ .OK →
      (parse_first_request_line line args calloc_ok).2 = none) := by
  refine ⟨?_, ?_, ?_, ?_⟩
  · rw [parse_by_tokens]
    rcases htk : tokens line with _ | ⟨a, _ | ⟨b, _ | ⟨c, _ | ⟨d, rest⟩⟩⟩⟩
    · simp
    · simp
    · simp
    · by_cases hv : c = "HTTP/1.1".toList
      · by_cases hm : a = "GET".toList
        · simp only [ne_eq, hv, hm, not_true_eq_false, if_false]
          simp
        · simp only [ne_eq, hv, hm, not_true_eq_false, not_false_eq_true, if_false, if_true]
          simp
      · simp only [ne_eq, hv, not_false_eq_true, if_true, true_iff]
        rintro ⟨m, p, h⟩
        exact hv (List.cons.inj (List.cons.inj (List.cons.inj h).2).2).1
    · simp
  · intro method path htk hm
    rw [parse_by_tokens, htk]
    simp only [ne_eq, hm, not_true_eq_false, not_false_eq_true, if_false, if_true]
  · intro path htk
    rw [parse_by_tokens, htk]
    refine ⟨by simp, ?_⟩
    unfold expanded_path allocated
    by_cases hr : ends_in_slash args.root = true <;>
      by_cases hp : ends_in_slash path = true <;> simp [hr, hp] <;> omega
  · intro calloc_ok
    rw [parse_by_tokens]
    rcases htk : tokens line with _ | ⟨a, _ | ⟨b, _ | ⟨c, _ | ⟨d, rest⟩⟩⟩⟩
    · simp
    · simp
    · simp
    · by_cases hv : c = "HTTP/1.1".toList
      · by_cases hm : a = "GET".toList
        · cases calloc_ok <;>
            simp only [ne_eq, hv, hm, not_true_eq_false, if_false, if_true] <;> simp
        · simp only [ne_eq, hv, hm, not_true_eq_false, not_false_eq_true, if_false, if_true]
          simp
      · simp only [ne_eq, hv, not_false_eq_true, if_true]
        simp
    · simp

/-- The request line "GET /a/ HTTP/1.1" with CR LF, root "docs" and index "index.html":
the result is OK with the path "docs//a/index.html"; the method "PUT" gives
NOT_IMPLEMENTED, and a fourth token gives BAD_REQUEST. -/
theorem C20_request_line_result_witness :
    tokens "GET /a/ HTTP/1.1\r\n".toList = ["GET".toList, "/a/".toList, "HTTP/1.1".toList] ∧
    parse_first_request_line "GET /a/ HTTP/1.1\r\n".toList
        ⟨"8080".toList, "index.html".toList, "docs".toList⟩ true =
      (.OK, some "docs//a/index.html".toList) ∧
    parse_first_request_line "PUT /a/ HTTP/1.1\r\n".toList
        ⟨"8080".toList, "index.html".toList, "docs".toList⟩ true =
      (.NOT_IMPLEMENTED, none) ∧
    (parse_first_request_line "GET /a/ HTTP/1.1 x\r\n".toList
        ⟨"8080".toList, "index.html".toList, "docs".toList⟩ true).1 = .BAD_REQUEST := by
  have h1 : tokens "GET /a/ HTTP/1.1\r\n".toList =
      ["GET".toList, "/a/".toList, "HTTP/1.1".toList] := by decide
  have h2 : tokens "PUT /a/ HTTP/1.1\r\n".toList =
      ["PUT".toList, "/a/".toList, "HTTP/1.1".toList] := by decide
  have h3 : expanded_path ⟨"8080".toList, "index.html".toList, "docs".toList⟩ "/a/".toList =
      "docs//a/index.html".toList := by decide
  have h4 : tokens "GET /a/ HTTP/1.1 x\r\n".toList =
      ["GET".toList, "/a/".toList, "HTTP/1.1".toList, "x".toList] := by decide
  refine ⟨h1, ?_, ?_, ?_⟩
  · exact (((C20_request_line_result _ _).2.2.1 _ h1).1).trans (by rw [h3])
  · exact (C20_request_line_result _ _).2.1 _ _ h2 (by decide)
  · exact (C20_request_line_result "GET /a/ HTTP/1.1 x\r\n".toList
      ⟨"8080".toList, "index.html".toList, "docs".toList⟩).1.mpr
      (by rw [h4]; rintro ⟨m, p, h⟩; exact absurd (congrArg List.length h) (by simp))

end HttpServer

namespace HttpClient

/-- The URL "http://localhost/a/b.txt" with the option `-d out`: host "localhost", path
"a/b.txt", output file "out/b.txt". -/
theorem get_request_info_example :
    get_request_info ⟨"80".toList, none, some "out".toList, "http://localhost/a/b.txt".toList⟩
        true =
      some ⟨"80".toList, "localhost".toList, "a/b.txt".toList, some "out/b.txt".toList⟩ := by
  decide

/-- C21, as stated, fails on the code: the URL "http://localhost//index.html" begins with
"http://" and is accepted, and the path stored in the request is "/index.html", which
begins with a slash; the request line sent is "GET //index.html HTTP/1.1". Only the
first slash after the host is skipped (line 135). -/
theorem C21_path_begins_with_slash :
    get_request_info ⟨"80".toList, none, none, "http://localhost//index.html".toList⟩ true =
      some ⟨"80".toList, "localhost".toList, "/index.html".toList, none⟩ ∧
    "/index.html".toList.head? = some '/' ∧
    (send_http_request ⟨"80".toList, "localhost".toList, "/index.html".toList, none⟩).take 27 =
      "GET //index.html HTTP/1.1\r\n".toList := by
  refine ⟨by decide, by decide, by decide⟩

end HttpClient

namespace Mydiff

theorem tolower_ne_zero (c : Nat) (h : c ≠ 0) : tolower c ≠ 0 := by
  unfold tolower
  split_ifs <;> omega

theorem lower_length : ∀ (n : Nat) (l : Line), (lower n l).length = l.length := by
  intro n
  induction n with
  | zero => intro l; rfl
  | succ k ih =>
    intro l
    cases l with
    | nil => rfl
    | cons c rest => simp [lower, ih rest]

theorem lower_nul_free : ∀ (n : Nat) (l : Line), (0 : Nat) ∉ l → (0 : Nat) ∉ lower n l := by
  intro n
  induction n with
  | zero => intro l h; exact h
  | succ k ih =>
    intro l h
    cases l with
    | nil => simp [lower]
    | cons c rest =>
      simp only [lower, List.mem_cons, not_or] at h ⊢
      exact ⟨fun e => tolower_ne_zero c (fun e2 => h.1 e2.symm) e.symm, ih rest h.2⟩

theorem lower_getD : ∀ (n : Nat) (l : Line) (i : Nat), i < n →
    (lower n l).getD i 0 = tolower (l.getD i 0) := by
  intro n
  induction n with
  | zero => intro l i h; omega
  | succ k ih =>
    intro l i h
    cases l with
    | nil => simp [lower, tolower]
    | cons c rest =>
      cases i with
      | zero => simp [lower]
      | succ j =>
        simp only [lower, List.getD_cons_succ]
        exact ih rest j (by omega)

/-- The count of line 101 is the number of differing indices below `n`. -/
theorem mismatch_eq : ∀ (n : Nat) (a b : Line), n ≤ a.length → n ≤ b.length →
    mismatch n a b =
      ((List.range n).filter (fun i => decide (a.getD i 0 ≠ b.getD i 0))).length := by
  intro n
  induction n with
  | zero => intro a b _ _; simp [mismatch]
  | succ k ih =>
    intro a b ha hb
    cases a with
    | nil => simp at ha
    | cons x xs =>
      cases b with
      | nil => simp at hb
      | cons y ys =>
        simp only [List.length_cons] at ha hb
        rw [mismatch, ih xs ys (by omega) (by omega), List.range_succ_eq_map, List.filter_cons,
          List.filter_map]
        by_cases hxy : x = y
        · simp [hxy, Function.comp_def]
        · simp [hxy, Function.comp_def]
          omega

/-- On lines without a NUL byte, `strncmp` returns non-zero exactly when the count of
line 101 is positive. -/
theorem strncmp_ne_zero_iff : ∀ (n : Nat) (a b : Line), n ≤ a.length → n ≤ b.length →
    (0 : Nat) ∉ a → (0 : Nat) ∉ b → (strncmp a b n ≠ 0 ↔ mismatch n a b ≠ 0) := by
  intro n
  induction n with
  | zero => intro a b _ _ _ _; simp [strncmp, mismatch]
  | succ k ih =>
    intro a b ha hb hza hzb
    cases a with
    | nil => simp at ha
    | cons x xs =>
      cases b with
      | nil => simp at hb
      | cons y ys =>
        simp only [List.length_cons] at ha hb
        simp only [List.mem_cons, not_or] at hza hzb
        have hx : x ≠ 0 := fun e => hza.1 e.symm
        by_cases hxy : x = y
        · subst hxy
          simp only [strncmp, mismatch, List.headD_cons, List.tail_cons, ne_eq, not_true_eq_false,
            if_false, hx, Nat.zero_add]
          exact ih xs ys (by omega) (by omega) hza.2 hzb.2
        · simp only [strncmp, mismatch, List.headD_cons, ne_eq, hxy, not_false_eq_true, if_true]
          constructor
          · intro _; omega
          · intro _; omega

theorem entry_congr (c1 c2 : Prop) [Decidable c1] [Decidable c2] (h : c1 ↔ c2)
    (x y : Nat × Nat) (hxy : x = y) :
    (if c1 then [x] else []) = if c2 then [y] else [] := by
  subst hxy
  by_cases hc : c2
  · rw [if_pos hc, if_pos (h.mpr hc)]
  · rw [if_neg hc, if_neg (fun h1 => hc (h.mp h1))]

/-- The body of the main loop, by the differing positions of the two lines. -/
theorem compare_lines_eq (insensitive : Bool) (lineno : Nat) (line1 line2 : Line)
    (h1 : (0 : Nat) ∉ line1) (h2 : (0 : Nat) ∉ line2) :
    compare_lines insensitive lineno line1 line2 =
      if differing_positions insensitive line1 line2 ≠ [] then
        [(lineno, (differing_positions insensitive line1 line2).length)]
      else [] := by
  have hmin : (if line1.length < line2.length then line1.length else line2.length) =
      min line1.length line2.length := by
    split_ifs <;> omega
  unfold compare_lines
  simp only [hmin]
  have hl1 : min line1.length line2.length ≤ line1.length := Nat.min_le_left _ _
  have hl2 : min line1.length line2.length ≤ line2.length := Nat.min_le_right _ _
  cases insensitive with
  | false =>
    have hd : differing_positions false line1 line2 =
        (List.range (min line1.length line2.length)).filter
          (fun i => decide (line1.getD i 0 ≠ line2.getD i 0)) := by
      unfold differing_positions
      apply List.filter_congr
      intro i _
      simp only [folded, Bool.false_eq_true, if_false]
    have hm := mismatch_eq _ line1 line2 hl1 hl2
    have hs := strncmp_ne_zero_iff _ line1 line2 hl1 hl2 h1 h2
    simp only [Bool.false_eq_true, if_false]
    rw [← hd] at hm
    apply entry_congr
    · rw [hs, hm, ne_eq, ne_eq, List.length_eq_zero]
    · rw [hm]
  | true =>
    have hd : differing_positions true line1 line2 =
        (List.range (min line1.length line2.length)).filter
          (fun i => decide ((lower (min line1.length line2.length) line1).getD i 0 ≠
            (lower (min line1.length line2.length) line2).getD i 0)) := by
      unfold differing_positions
      apply List.filter_congr
      intro i hi
      rw [List.mem_range] at hi
      simp only [folded, if_true, lower_getD _ line1 i hi, lower_getD _ line2 i hi]
    have hm := mismatch_eq (min line1.length line2.length)
      (lower (min line1.length line2.length) line1) (lower (min line1.length line2.length) line2)
      (by rw [lower_length]; exact hl1) (by rw [lower_length]; exact hl2)
    have hs := strncmp_ne_zero_iff (min line1.length line2.length)
      (lower (min line1.length line2.length) line1) (lower (min line1.length line2.length) line2)
      (by rw [lower_length]; exact hl1) (by rw [lower_length]; exact hl2)
      (lower_nul_free _ _ h1) (lower_nul_free _ _ h2)
    simp only [if_true]
    rw [← hd] at hm
    apply entry_congr
    · rw [hs, hm, ne_eq, ne_eq, List.length_eq_zero]
    · rw [hm]

/-- The entries of the main loop started at line number `start`. -/
theorem mem_main_loop (insensitive : Bool) :
    ∀ (file1 file2 : List Line) (start : Nat), nul_free file1 → nul_free file2 →
      ∀ (n k : Nat), (n, k) ∈ main_loop insensitive start file1 file2 ↔
        start ≤ n ∧ ∃ line1 line2, file1[n - start]? = some line1 ∧
          file2[n - start]? = some line2 ∧
          differing_positions insensitive line1 line2 ≠ [] ∧
          k = (differing_positions insensitive line1 line2).length := by
  intro file1
  induction file1 with
  | nil => intro file2 start _ _ n k; simp [main_loop]
  | cons l1 r1 ih =>
    intro file2 start h1 h2 n k
    cases file2 with
    | nil => simp [main_loop]
    | cons l2 r2 =>
      have h1l : (0 : Nat) ∉ l1 := h1 l1 (List.mem_cons_self _ _)
      have h2l : (0 : Nat) ∉ l2 := h2 l2 (List.mem_cons_self _ _)
      have h1r : nul_free r1 := fun l hl => h1 l (List.mem_cons_of_mem _ hl)
      have h2r : nul_free r2 := fun l hl => h2 l (List.mem_cons_of_mem _ hl)
      rw [main_loop, List.mem_append, compare_lines_eq insensitive start l1 l2 h1l h2l,
        ih r2 (start + 1) h1r h2r n k]
      constructor
      · rintro (h | ⟨hle, a, b, ha, hb, hd, hk⟩)
        · by_cases hd : differing_positions insensitive l1 l2 ≠ []
          · rw [if_pos hd] at h
            simp only [List.mem_singleton, Prod.mk.injEq] at h
            refine ⟨by omega, l1, l2, ?_, ?_, hd, h.2⟩
            · rw [h.1]; simp
            · rw [h.1]; simp
          · rw [if_neg hd] at h
            cases h
        · have e : n - start = (n - (start + 1)) + 1 := by omega
          refine ⟨by omega, a, b, ?_, ?_, hd, hk⟩
          · rw [e, List.getElem?_cons_succ]; exact ha
          · rw [e, List.getElem?_cons_succ]; exact hb
      · rintro ⟨hle, a, b, ha, hb, hd, hk⟩
        by_cases hn : n = start
        · subst hn
          simp only [Nat.sub_self, List.getElem?_cons_zero, Option.some.injEq] at ha hb
          subst ha
          subst hb
          left
          rw [if_pos hd, hk]
          simp
        · right
          have e : n - start = (n - (start + 1)) + 1 := by omega
          rw [e, List.getElem?_cons_succ] at ha hb
          exact ⟨by omega, a, b, ha, hb, hd, hk⟩

/-- The entries come in the order of their line numbers, at most one for each. -/
theorem main_loop_increasing (insensitive : Bool) :
    ∀ (file1 file2 : List Line) (start : Nat),
      (∀ p ∈ main_loop insensitive start file1 file2, start ≤ p.1) ∧
      (main_loop insensitive start file1 file2).Pairwise (fun p q => p.1 < q.1) := by
  intro file1
  induction file1 with
  | nil => intro file2 start; simp [main_loop]
  | cons l1 r1 ih =>
    intro file2 start
    cases file2 with
    | nil => simp [main_loop]
    | cons l2 r2 =>
      have h := ih r2 (start + 1)
      have hc : ∀ p ∈ compare_lines insensitive start l1 l2, p.1 = start := by
        intro p hp
        unfold compare_lines at hp
        simp only at hp
        split_ifs at hp <;> simp_all
      rw [main_loop]
      refine ⟨?_, ?_⟩
      · intro p hp
        rcases List.mem_append.mp hp with hp | hp
        · exact le_of_eq (hc p hp).symm
        · have := h.1 p hp
          omega
      · rw [List.pairwise_append]
        refine ⟨?_, h.2, ?_⟩
        · unfold compare_lines
          simp only
          split_ifs <;> simp
        · intro p hp q hq
          have := h.1 q hq
          rw [hc p hp]
          omega

end Mydiff

namespace Mydiff

/-- C24: for two files whose lines contain no NUL byte, mydiff prints an entry with
line number `n` and count `k` exactly when both files have an `n`-th line, the two
lines differ at some position among their first min(len1, len2) bytes (lower-cased
first when `-i` is given), and `k` is the number of such positions; the entries come
in increasing order of line number, at most one per line, and no line number exceeds
the number of lines of the shorter file. -/
theorem C24_entries_are_differing_lines (insensitive : Bool) (file1 file2 : List Line)
    (h1 : nul_free file1) (h2 : nul_free file2) :
    (∀ n k : Nat, (n, k) ∈ mydiff insensitive file1 file2 ↔
      1 ≤ n ∧ ∃ line1 line2, file1[n - 1]? = some line1 ∧ file2[n - 1]? = some line2 ∧
        differing_positions insensitive line1 line2 ≠ [] ∧
        k = (differing_positions insensitive line1 line2).length) ∧
    (mydiff insensitive file1 file2).Pairwise (fun p q => p.1 < q.1) ∧
    (∀ p ∈ mydiff insensitive file1 file2,
      1 ≤ p.1 ∧ p.1 ≤ min file1.length file2.length) := by
  have hmem := mem_main_loop insensitive file1 file2 1 h1 h2
  refine ⟨hmem, (main_loop_increasing insensitive file1 file2 1).2, ?_⟩
  intro p hp
  obtain ⟨hle, a, b, ha, hb, _, _⟩ := (hmem p.1 p.2).mp hp
  have hla := (List.getElem?_eq_some_iff.mp ha).1
  have hlb := (List.getElem?_eq_some_iff.mp hb).1
  refine ⟨hle, ?_⟩
  rw [Nat.le_min]
  omega

/-- The files "abc", "Hello", "x" and "abd", "hellO world": without `-i` the entries are
line 1 with 1 character and line 2 with 2 characters, with `-i` only line 1; the
third line of the first file is not reported. -/
theorem C24_entries_are_differing_lines_witness :
    nul_free [[97, 98, 99], [72, 101, 108, 108, 111], [120]] ∧
    nul_free [[97, 98, 100], [104, 101, 108, 108, 79, 32, 119, 111, 114, 108, 100]] ∧
    mydiff false [[97, 98, 99], [72, 101, 108, 108, 111], [120]]
      [[97, 98, 100], [104, 101, 108, 108, 79, 32, 119, 111, 114, 108, 100]] =
        [(1, 1), (2, 2)] ∧
    mydiff true [[97, 98, 99], [72, 101, 108, 108, 111], [120]]
      [[97, 98, 100], [104, 101, 108, 108, 79, 32, 119, 111, 114, 108, 100]] = [(1, 1)] ∧
    differing_positions false [72, 101, 108, 108, 111]
      [104, 101, 108, 108, 79, 32, 119, 111, 114, 108, 100] = [0, 4] ∧
    (2, 2) ∈ mydiff false [[97, 98, 99], [72, 101, 108, 108, 111], [120]]
      [[97, 98, 100], [104, 101, 108, 108, 79, 32, 119, 111, 114, 108, 100]] :=
  ⟨by decide, by decide, by decide, by decide, by decide,
    ((C24_entries_are_differing_lines false [[97, 98, 99], [72, 101, 108, 108, 111], [120]]
      [[97, 98, 100], [104, 101, 108, 108, 79, 32, 119, 111, 114, 108, 100]]
      (by decide) (by decide)).1 2 2).mpr
      ⟨by decide, [72, 101, 108, 108, 111],
        [104, 101, 108, 108, 79, 32, 119, 111, 114, 108, 100], rfl, rfl, by decide, by decide⟩⟩

end Mydiff
